import Mathlib

/-!
Verification of the spork persistent-data-structure runtime (pds.c).

This file gives a shallow embedding, in Lean 4, of the core algorithms of
src/spork/runtime/pds.c: the HAMT behind Map and Set, the bit-partitioned
trie behind Vector (modelled with an explicit node store so that sharing and
in-place mutation are visible), the left-leaning red-black tree behind
SortedVector, the unboxing boundary of the primitive vectors, and the
type-guarded equality of Cons, Vector and Map.  Machine integers are
modelled as Nat / Int.  Python object hashes (Py_hash_t) are modelled as
natural numbers; fallible C functions are modelled with Option / Except.
Reference-count management, allocation failure, and error propagation from
user callbacks are outside the model.  Each definition carries a comment
naming the C function it translates.
-/

set_option maxHeartbeats 1000000

namespace Spork

/-! ### Constants and bit utilities (pds.c lines 56-122) -/

/-- BITS constant: 5-bit slices, 32-way branching. -/
def BITS : Nat := 5

/-- WIDTH constant: 1 shifted left by BITS, i.e. 32. -/
def WIDTH : Nat := 1 <<< BITS

/-- MASK constant: WIDTH - 1, i.e. 31. -/
def MASK : Nat := WIDTH - 1

/-- The loop of the portable popcount fallback in pds.c, unrolled over the
32 bits of its uint32_t argument (the loop variable is the remaining bit
budget, making the recursion structural). -/
def ctpopGo : Nat → Nat → Nat
  | 0, _ => 0
  | f + 1, i => if i = 0 then 0 else (i % 2) + ctpopGo f (i / 2)

/-- Population count of a 32-bit bitmap; ctpop in pds.c. -/
def ctpop (i : Nat) : Nat := ctpopGo 32 i

/-- mask_hash in pds.c: the 5-bit slot of a hash at a given shift. -/
def mask_hash (h : Nat) (shift : Nat) : Nat := (h >>> shift) &&& MASK

/-- bitpos in pds.c: the bitmap bit for a hash at a given shift. -/
def bitpos (h : Nat) (shift : Nat) : Nat := 1 <<< mask_hash h shift

/-- bitmap_index in pds.c: packed position of a bit inside a bitmap. -/
def bitmap_index (bitmap bit : Nat) : Nat := ctpop (bitmap &&& (bit - 1))

/-! ### HAMT nodes (pds.c lines 4392-5438)

The C code has three node structs: BitmapIndexedNode (a 32-bit bitmap plus a
packed flat list alternating key-or-null and value-or-child), ArrayNode (a
child counter plus a 32-slot list of optional children) and
HashCollisionNode (the shared hash, an entry counter, and a flat list of
key/value pairs).  The flat (key-or-null, value-or-child) pair of a bitmap
node is rendered as a sum type BinEntry: a null key marks the value slot as
a child node, otherwise the pair is a leaf entry.  Counters are Py_ssize_t
and int in C and are modelled as Int. -/

mutual

inductive MapNode (κ ν : Type) where
  | bin (bitmap : Nat) (arr : List (BinEntry κ ν))
  | arrN (count : Int) (slots : List (Option (MapNode κ ν)))
  | hcn (hashv : Nat) (count : Int) (entries : List (κ × ν))

inductive BinEntry (κ ν : Type) where
  | kv (k : κ) (v : ν)
  | sub (n : MapNode κ ν)

end

variable {κ ν : Type} [DecidableEq κ] [DecidableEq ν]

/-- Result of a node-level assoc.  The C functions either return self
unchanged (pointer equality, checked by the callers) or a fresh node; the
added flag models whether Py_True was appended to the added_leaf list. -/
inductive AssocRes (κ ν : Type) where
  | same
  | node (n : MapNode κ ν) (added : Bool)

/-- The node a node-level assoc handed back: self on the unchanged path. -/
def AssocRes.result (self : MapNode κ ν) : AssocRes κ ν → MapNode κ ν
  | .same => self
  | .node n _ => n

/-- The added_leaf flag of a node-level assoc result. -/
def AssocRes.addedFlag : AssocRes κ ν → Bool
  | .same => false
  | .node _ a => a

/-- Result of a node-level dissoc: self unchanged (pointer equality in C),
the node vanished (Py_None in C), or a fresh replacement node. -/
inductive DissocRes (κ ν : Type) where
  | same
  | gone
  | node (n : MapNode κ ν)

/-- find for all three node kinds; the C code dispatches on the concrete
node type (BitmapIndexedNode_find, ArrayNode_find, HashCollisionNode_find).
Returning none models returning the not_found sentinel. -/
def MapNode.find : MapNode κ ν → Nat → Nat → κ → Option ν
  | .bin bitmap arr, shift, h, k =>
    let bit := bitpos h shift
    if bitmap &&& bit = 0 then none
    else
      match harr : arr.get? (bitmap_index bitmap bit) with
      | none => none
      | some (.kv k0 v0) => if k = k0 then some v0 else none
      | some (.sub n) => n.find (shift + BITS) h k
  | .arrN _ slots, shift, h, k =>
    match hs : slots.get? (mask_hash h shift) with
    | none => none
    | some none => none
    | some (some n) => n.find (shift + BITS) h k
  | .hcn _ _ entries, _, _, k => (entries.find? (fun e => e.1 == k)).map (·.2)
termination_by n => sizeOf n
decreasing_by
  · have h1 : BinEntry.sub n ∈ arr := List.get?_mem harr
    have h2 := List.sizeOf_lt_of_mem h1
    simp only [MapNode.bin.sizeOf_spec, BinEntry.sub.sizeOf_spec] at *
    omega
  · have h1 : some n ∈ slots := List.get?_mem hs
    have h2 := List.sizeOf_lt_of_mem h1
    simp only [MapNode.arrN.sizeOf_spec, Option.some.sizeOf_spec] at *
    omega

/-- HashCollisionNode_find_index: index of the first entry with an equal
key, none when absent (C returns -1). -/
def hcn_find_index (entries : List (κ × ν)) (k : κ) : Option Nat :=
  entries.findIdx? (fun e => e.1 == k)

/-- The ascending positions of the set bits of a bitmap; the packed array
of a bitmap node lists its entries in this order. -/
def bit_positions (bitmap : Nat) : List Nat :=
  (List.range WIDTH).filter (fun i => (bitmap >>> i) &&& 1 = 1)

mutual

/-- assoc for all three node kinds (BitmapIndexedNode_assoc,
ArrayNode_assoc, HashCollisionNode_assoc in pds.c).  The C recursion
terminates because Py_hash_t has 64 bits; the embedding makes that explicit
with a fuel parameter, and the Map-level wrappers pass hamtFuel, proven
sufficient for hashes below 2 ^ 64.  Edit tokens only affect which nodes
are recycled in place; they do not change the resulting value, so this
value-level embedding drops them (the store-based embedding below covers
them).  The C check val == val_or_node compares object identity; it is
modelled with value equality, which takes the same branch whenever the
branch matters for the resulting value. -/
def node_assoc (hash : κ → Nat) : Nat → MapNode κ ν → Nat → Nat → κ → ν →
    Option (AssocRes κ ν)
  | 0, _, _, _, _, _ => none
  | fuel + 1, .bin bitmap arr, shift, h, k, v =>
    let bit := bitpos h shift
    let idx := bitmap_index bitmap bit
    if bitmap &&& bit ≠ 0 then
      match arr.get? idx with
      | none => none
      | some (.sub n) => do
        let res ← node_assoc hash fuel n (shift + BITS) h k v
        match res with
        | .same => some .same
        | .node n2 added => some (.node (.bin bitmap (arr.set idx (.sub n2))) added)
      | some (.kv k0 v0) =>
        if k = k0 then
          if v = v0 then some .same
          else some (.node (.bin bitmap (arr.set idx (.kv k0 v))) false)
        else do
          let nn ← create_node hash fuel (shift + BITS) k0 v0 h k v
          some (.node (.bin bitmap (arr.set idx (.sub nn))) true)
    else
      let n := ctpop bitmap
      if WIDTH / 2 ≤ n then do
        -- upgrade to ArrayNode: one child per old bit, plus a fresh
        -- singleton bitmap node for the new entry at its slot
        let jdx := mask_hash h shift
        let res ← node_assoc hash fuel (.bin 0 []) (shift + BITS) h k v
        let start := (List.replicate WIDTH (none : Option (MapNode κ ν))).set jdx
          (some (res.result (.bin 0 [])))
        let slots ← promote_slots hash fuel (shift + BITS)
          ((bit_positions bitmap).zip arr) start
        some (.node (.arrN (n + 1) slots) res.addedFlag)
      else
        some (.node
          (.bin (bitmap ||| bit) (arr.take idx ++ .kv k v :: arr.drop idx)) true)
  | fuel + 1, .arrN count slots, shift, h, k, v =>
    let idx := mask_hash h shift
    match slots.get? idx with
    | none => none
    | some none => do
      -- fresh added_leaf in C to avoid double counting; the insertion is
      -- counted here instead
      let res ← node_assoc hash fuel (.bin 0 []) (shift + BITS) h k v
      some (.node (.arrN (count + 1) (slots.set idx (some (res.result (.bin 0 []))))) true)
    | some (some n) => do
      let res ← node_assoc hash fuel n (shift + BITS) h k v
      match res with
      | .same => some .same
      | .node n2 added => some (.node (.arrN count (slots.set idx (some n2))) added)
  | fuel + 1, .hcn hashv count entries, shift, h, k, v =>
    if h = hashv then
      match hcn_find_index entries k with
      | some idx =>
        match entries.get? idx with
        | some (_, v0) =>
          if v = v0 then some .same
          else some (.node (.hcn hashv count (entries.set idx (k, v))) false)
        | none => none
      | none =>
        some (.node (.hcn hashv (count + 1) (entries ++ [(k, v)])) true)
    else do
      -- different hash: nest self in a bitmap node and retry
      let res ← node_assoc hash fuel
        (.bin (bitpos hashv shift) [.sub (.hcn hashv count entries)]) shift h k v
      some (.node (res.result (.bin (bitpos hashv shift) [.sub (.hcn hashv count entries)]))
        res.addedFlag)
termination_by structural fuel => fuel

/-- create_node in pds.c: a node holding two entries, a hash-collision node
when the full hashes agree, else both entries assoc-ed into an empty bitmap
node. -/
def create_node (hash : κ → Nat) : Nat → Nat → κ → ν → Nat → κ → ν →
    Option (MapNode κ ν)
  | 0, _, _, _, _, _, _ => none
  | fuel + 1, shift, k1, v1, h2, k2, v2 =>
    let h1 := hash k1
    if h1 = h2 then
      some (.hcn h1 2 [(k1, v1), (k2, v2)])
    else do
      let r1 ← node_assoc hash fuel (.bin 0 []) shift h1 k1 v1
      let n1 := r1.result (.bin 0 [])
      let r2 ← node_assoc hash fuel n1 shift h2 k2 v2
      some (r2.result n1)
termination_by structural fuel => fuel

/-- The packing loop of the bitmap-to-array upgrade in
BitmapIndexedNode_assoc: every old entry becomes an ArrayNode child, bare
entries being wrapped in fresh singleton bitmap nodes one level down. -/
def promote_slots (hash : κ → Nat) : Nat → Nat → List (Nat × BinEntry κ ν) →
    List (Option (MapNode κ ν)) → Option (List (Option (MapNode κ ν)))
  | _, _, [], slots => some slots
  | 0, _, _ :: _, _ => none
  | fuel + 1, shift, (i, .sub n) :: rest, slots =>
    promote_slots hash fuel shift rest (slots.set i (some n))
  | fuel + 1, shift, (i, .kv k2 v2) :: rest, slots => do
    let res ← node_assoc hash fuel (.bin 0 []) shift (hash k2) k2 v2
    promote_slots hash fuel shift rest (slots.set i (some (res.result (.bin 0 []))))
termination_by structural fuel => fuel

end

/-- ArrayNode_pack in pds.c: demote an array node to a bitmap node holding
every non-null child except the one at idx, the bit set being exactly the
kept slot indices. -/
def ArrayNode_pack (slots : List (Option (MapNode κ ν))) (idx : Nat) : MapNode κ ν :=
  let keep := (List.range WIDTH).filterMap (fun i =>
    match slots.get? i with
    | some (some n) => if i ≠ idx then some (i, n) else none
    | _ => none)
  .bin (keep.foldl (fun b p => b ||| (1 <<< p.1)) 0) (keep.map (fun p => .sub p.2))

/-- dissoc for all three node kinds (BitmapIndexedNode_dissoc,
ArrayNode_dissoc, HashCollisionNode_dissoc in pds.c).  The removed_leaf
argument is NULL on the persistent path modelled here and is omitted.  The
C recursion descends the trie, whose depth is bounded by the 64-bit hash;
the embedding makes that explicit with the same fuel discipline as
node_assoc (none models only fuel exhaustion, which the wrappers never
reach). -/
def node_dissoc : Nat → MapNode κ ν → Nat → Nat → κ → Option (DissocRes κ ν)
  | 0, _, _, _, _ => none
  | fuel + 1, .bin bitmap arr, shift, h, k =>
    let bit := bitpos h shift
    if bitmap &&& bit = 0 then some .same
    else
      let idx := bitmap_index bitmap bit
      match arr.get? idx with
      | none => some .same
      | some (.sub n) => do
        let res ← node_dissoc fuel n (shift + BITS) h k
        match res with
        | .same => some .same
        | .node n2 => some (.node (.bin bitmap (arr.set idx (.sub n2))))
        | .gone =>
          if bitmap = bit then some .gone
          else some (.node (.bin (bitmap ^^^ bit) (arr.eraseIdx idx)))
      | some (.kv k0 _) =>
        if k = k0 then
          if bitmap = bit then some .gone
          else some (.node (.bin (bitmap ^^^ bit) (arr.eraseIdx idx)))
        else some .same
  | fuel + 1, .arrN count slots, shift, h, k =>
    let idx := mask_hash h shift
    match slots.get? idx with
    | none => some .same
    | some none => some .same
    | some (some n) => do
      let res ← node_dissoc fuel n (shift + BITS) h k
      match res with
      | .same => some .same
      | .node n2 => some (.node (.arrN count (slots.set idx (some n2))))
      | .gone =>
        if count ≤ (WIDTH : Int) / 4 then some (.node (ArrayNode_pack slots idx))
        else some (.node (.arrN (count - 1) (slots.set idx none)))
  | _ + 1, .hcn hashv count entries, _, _, k =>
    match hcn_find_index entries k with
    | none => some .same
    | some idx =>
      if count = 1 then some .gone
      else some (.node (.hcn hashv (count - 1) (entries.eraseIdx idx)))
termination_by structural fuel => fuel

/-- Pairwise distinct keys in a collision-node entry list. -/
def distinctKeysB [DecidableEq κ] : List (κ × ν) → Bool
  | [] => true
  | e :: rest => rest.all (fun e2 => !(e2.1 == e.1)) && distinctKeysB rest

mutual

/-- Structural well-formedness maintained by every HAMT operation in
pds.c: a bitmap node keeps one packed entry per set bit, and a collision
node holds pairwise distinct keys all hashing to its stored hash.  The
shape claims are stated over well-formed nodes. -/
def nodeWFB [DecidableEq κ] (hash : κ → Nat) : MapNode κ ν → Bool
  | .bin bitmap arr => (arr.length == ctpop bitmap) && binWFB hash arr
  | .arrN _ slots => slotsWFB hash slots
  | .hcn hashv _ entries =>
    distinctKeysB entries && entries.all (fun e => hash e.1 == hashv)

/-- Well-formedness of every sub-node in a packed bitmap-node array. -/
def binWFB [DecidableEq κ] (hash : κ → Nat) : List (BinEntry κ ν) → Bool
  | [] => true
  | .kv _ _ :: rest => binWFB hash rest
  | .sub n :: rest => nodeWFB hash n && binWFB hash rest

/-- Well-formedness of every sub-node in an array-node slot list. -/
def slotsWFB [DecidableEq κ] (hash : κ → Nat) :
    List (Option (MapNode κ ν)) → Bool
  | [] => true
  | none :: rest => slotsWFB hash rest
  | some n :: rest => nodeWFB hash n && slotsWFB hash rest

end

/-- The soundness contract of node_assoc at a given fuel, used to state
the round-trip lemmas: on well-formed input and a successful run, the
result is well-formed, the inserted key is found with the inserted value,
and the added flag is set exactly when the key was absent. -/
def AssocOK [DecidableEq κ] [DecidableEq ν] (hash : κ → Nat) (fuel : Nat) : Prop :=
  ∀ (n : MapNode κ ν) (shift : Nat) (k : κ) (v : ν) (res : AssocRes κ ν),
    nodeWFB hash n = true →
    node_assoc hash fuel n shift (hash k) k v = some res →
      nodeWFB hash (res.result n) = true ∧
      (res.result n).find shift (hash k) k = some v ∧
      (res.addedFlag = true ↔ n.find shift (hash k) k = none)

/-- The soundness contract of create_node at a given fuel: on distinct
keys and a successful run, the built node is well-formed and finds the
second key with its value. -/
def CreateOK [DecidableEq κ] [DecidableEq ν] (hash : κ → Nat) (fuel : Nat) : Prop :=
  ∀ (shift : Nat) (k1 : κ) (v1 : ν) (k2 : κ) (v2 : ν) (nn : MapNode κ ν),
    k1 ≠ k2 →
    create_node hash fuel shift k1 v1 (hash k2) k2 v2 = some nn →
      nodeWFB hash nn = true ∧ nn.find shift (hash k2) k2 = some v2

/-- Well-formedness of one packed bitmap-node entry. -/
def entryWFB [DecidableEq κ] (hash : κ → Nat) : BinEntry κ ν → Bool
  | .kv _ _ => true
  | .sub n => nodeWFB hash n

/-- Well-formedness of one array-node slot. -/
def slotWFB [DecidableEq κ] (hash : κ → Nat) : Option (MapNode κ ν) → Bool
  | none => true
  | some n => nodeWFB hash n

/-! ### Map and Set (pds.c lines 5440-5647 and 6656-6824) -/

/-- Map in pds.c: an entry count and an optional HAMT root (a missing root
denotes the empty map).  The memoized hash and transient token fields do
not take part in the value semantics. -/
structure Map (κ ν : Type) where
  cnt : Int
  root : Option (MapNode κ ν)

/-- How a Map operation hands back its result: the receiver unchanged
(pointer equality in C), the module-level canonical EMPTY_MAP singleton,
or a freshly created map.  The canonical constructor exists so that the
model can state which branches hand back the singleton (the zero-argument
factory does; Map_dissoc never does). -/
inductive MapRet (κ ν : Type) where
  | same
  | canonicalEmpty
  | newObj (m : Map κ ν)

/-- The map a Map-level operation handed back: the receiver on the
unchanged path, the empty map for the canonical singleton. -/
def MapRet.value (self : Map κ ν) : MapRet κ ν → Map κ ν
  | .same => self
  | .canonicalEmpty => ⟨0, none⟩
  | .newObj m => m

/-- Fuel passed by the Map-level wrappers; sufficient for 64-bit hashes. -/
def hamtFuel : Nat := 64

/-- Map_assoc in pds.c.  Count is bumped by the length of the added_leaf
list, which holds at most one entry (modelled by the Bool flag). -/
def Map_assoc (hash : κ → Nat) (m : Map κ ν) (k : κ) (v : ν) :
    Option (MapRet κ ν) := do
  let h := hash k
  let root := m.root.getD (.bin 0 [])
  let res ← node_assoc hash hamtFuel root 0 h k v
  match res with
  | .same =>
    match m.root with
    | some _ => some .same
    | none => some (.newObj ⟨m.cnt, some root⟩)
  | .node n added => some (.newObj ⟨m.cnt + (if added then 1 else 0), some n⟩)

/-- Map_dissoc in pds.c.  When the root dissolves the count is set to zero
and the root pointer cleared; otherwise the count drops by one exactly when
the root pointer changed. -/
def Map_dissoc (hash : κ → Nat) (m : Map κ ν) (k : κ) : Option (MapRet κ ν) :=
  match m.root with
  | none => some .same
  | some r => do
    let res ← node_dissoc hamtFuel r 0 (hash k) k
    match res with
    | .same => some .same
    | .gone => some (.newObj ⟨0, none⟩)
    | .node n => some (.newObj ⟨m.cnt - 1, some n⟩)

/-- Map_get / Map_contains in pds.c reduced to the underlying find; an
empty map reports the key missing. -/
def Map_find (hash : κ → Nat) (m : Map κ ν) (k : κ) : Option ν :=
  match m.root with
  | none => none
  | some r => r.find 0 (hash k) k

/-- Map_contains in pds.c. -/
def Map_contains (hash : κ → Nat) (m : Map κ ν) (k : κ) : Bool :=
  (Map_find hash m k).isSome

/-- Well-formedness of a whole map: a missing root is fine, a present
root is a well-formed node. -/
def mapWFB (hash : κ → Nat) (m : Map κ ν) : Bool :=
  match m.root with
  | none => true
  | some r => nodeWFB hash r

/-- Set in pds.c: structurally a Map whose value slots hold Py_None,
modelled with Unit. -/
structure SetV (κ : Type) where
  cnt : Int
  root : Option (MapNode κ Unit)

/-- Result type of Set operations, mirroring MapRet. -/
inductive SetRet (κ : Type) where
  | same
  | canonicalEmpty
  | newObj (s : SetV κ)

/-- Set_disj in pds.c: same HAMT dissoc as Map_dissoc with the unit value;
the empty result is a freshly created Set, not the canonical empty. -/
def Set_disj (hash : κ → Nat) (s : SetV κ) (k : κ) : Option (SetRet κ) :=
  match s.root with
  | none => some .same
  | some r => do
    let res ← node_dissoc hamtFuel r 0 (hash k) k
    match res with
    | .same => some .same
    | .gone => some (.newObj ⟨0, none⟩)
    | .node n => some (.newObj ⟨s.cnt - 1, some n⟩)

/-- Set_conj in pds.c; the stored value is Py_None. -/
def Set_conj (hash : κ → Nat) (s : SetV κ) (k : κ) : Option (SetRet κ) := do
  let h := hash k
  let root := s.root.getD (.bin 0 [])
  let res ← node_assoc hash hamtFuel root 0 h k ()
  match res with
  | .same =>
    match s.root with
    | some _ => some .same
    | none => some (.newObj ⟨s.cnt, some root⟩)
  | .node n added => some (.newObj ⟨s.cnt + (if added then 1 else 0), some n⟩)

/-! ### Vector with an explicit node store (pds.c lines 470-1005)

VectorNode objects are heap allocations holding a 32-slot untyped array
(child pointers at inner levels, elements at level 0, NULL for absent) and
an optional transient token.  To make structural sharing and in-place
mutation observable, nodes live in an explicit store indexed by address;
allocation appends, cloning allocates a copy, and a node is editable
exactly when the operation carries a token equal to the node token
(VectorNode_is_editable). -/

/-- One slot of a VectorNode array: NULL, a child pointer, or an element. -/
inductive VSlot (α : Type) where
  | null
  | child (addr : Nat)
  | elem (a : α)
deriving DecidableEq

/-- The payload of one VectorNode: 32 slots and the transient token. -/
structure VNodeData (α : Type) where
  slots : List (VSlot α)
  tid : Option Nat
deriving DecidableEq

/-- The VectorNode heap: contents indexed by address. -/
structure VStore (α : Type) where
  nodes : List (VNodeData α)
deriving DecidableEq

variable {α : Type} [DecidableEq α]

/-- Allocation: append at the next free address. -/
def VStore.alloc (s : VStore α) (d : VNodeData α) : Nat × VStore α :=
  (s.nodes.length, ⟨s.nodes ++ [d]⟩)

/-- Dereference an address. -/
def VStore.read? (s : VStore α) (a : Nat) : Option (VNodeData α) := s.nodes.get? a

/-- Overwrite the node at an address (no-op out of range). -/
def VStore.write (s : VStore α) (a : Nat) (d : VNodeData α) : VStore α :=
  ⟨s.nodes.set a d⟩

/-- Read one slot of the node at an address; NULL when out of range. -/
def nodeSlot (s : VStore α) (a idx : Nat) : VSlot α :=
  match s.read? a with
  | none => .null
  | some d => (d.slots.get? idx).getD .null

/-- Set one slot of the node at an address. -/
def nodeWriteSlot (s : VStore α) (a idx : Nat) (sl : VSlot α) : VStore α :=
  match s.read? a with
  | none => s
  | some d => s.write a ⟨d.slots.set idx sl, d.tid⟩

/-- VectorNode_create in pds.c: a fresh node of 32 NULL slots carrying the
given transient token. -/
def VectorNode_create (s : VStore α) (tid : Option Nat) : Nat × VStore α :=
  s.alloc ⟨List.replicate WIDTH .null, tid⟩

/-- VectorNode_clone in pds.c: a fresh copy of the 32 slots under a new
token. -/
def VectorNode_clone (s : VStore α) (a : Nat) (tid : Option Nat) : Nat × VStore α :=
  match s.read? a with
  | none => s.alloc ⟨List.replicate WIDTH .null, tid⟩
  | some d => s.alloc ⟨d.slots, tid⟩

/-- VectorNode_is_editable in pds.c: the operation carries a token and the
node carries the same token. -/
def VectorNode_is_editable (s : VStore α) (a : Nat) (tid : Option Nat) : Bool :=
  match tid with
  | none => false
  | some t =>
    match s.read? a with
    | none => false
    | some d => d.tid = some t

/-- The Vector struct in pds.c: count, trie shift, root node address, tail
buffer, and the transient token (NULL, i.e. none, on every persistent
vector).  The memoized hash fields do not take part in the semantics. -/
structure Vector (α : Type) where
  cnt : Nat
  shift : Nat
  root : Nat
  tail : List α
  tid : Option Nat
deriving DecidableEq

/-- The initial store: the module-level EMPTY_NODE at address 0. -/
def emptyVStore : VStore α := ⟨[⟨List.replicate WIDTH .null, none⟩]⟩

/-- Address of the module-level EMPTY_NODE singleton. -/
def EMPTY_NODE_ADDR : Nat := 0

/-- The canonical empty vector EMPTY_VECTOR: count 0, shift BITS, the
EMPTY_NODE root and an empty tail (module init in pds.c). -/
def emptyVec : Vector α := ⟨0, BITS, EMPTY_NODE_ADDR, [], none⟩

/-- Vector_tail_off in pds.c. -/
def Vector_tail_off (v : Vector α) : Nat :=
  if v.cnt < WIDTH then 0 else ((v.cnt - 1) >>> BITS) <<< BITS

/-- The descent loop shared by Vector_node_for and Vector_array_for: from
the root at the vector shift, index by five-bit slices of i until level
zero.  The C code would dereference a non-node slot; the model returns
none there. -/
def Vector_descend (s : VStore α) (a : Nat) (level i : Nat) : Option Nat :=
  if level = 0 then some a
  else
    match nodeSlot s a ((i >>> level) &&& MASK) with
    | .child a2 => Vector_descend s a2 (level - BITS) i
    | _ => none
termination_by level
decreasing_by simp only [BITS]; omega

/-- Element at position i, already known to be below cnt: from the tail
when i is at or past the tail offset, else from the trie leaf (the element
part of Vector_array_for plus the tuple indexing of its callers). -/
def Vector_elemAt (s : VStore α) (v : Vector α) (i : Nat) : Option α :=
  if Vector_tail_off v ≤ i then v.tail.get? (i - Vector_tail_off v)
  else
    match Vector_descend s v.root v.shift i with
    | none => none
    | some a =>
      match nodeSlot s a (i &&& MASK) with
      | .elem x => some x
      | _ => none

/-- Vector_getitem in pds.c for an integer key (the slice branch builds a
new vector and is not modelled here): Python negative indices are
normalized by adding the count, and the normalized index must lie in
[0, cnt); otherwise an IndexError is raised, modelled by none. -/
def Vector_getitem (s : VStore α) (v : Vector α) (key : Int) : Option α :=
  let i : Int := if key < 0 then (v.cnt : Int) + key else key
  if i < 0 ∨ (v.cnt : Int) ≤ i then none
  else Vector_elemAt s v i.toNat

/-- Vector_hash in pds.c: left fold of 31 * h + hash(element) over the
elements in index order, with the element hash supplied by the host. -/
def Vector_hash (ehash : α → Int) (s : VStore α) (v : Vector α) : Option Int :=
  ((List.range v.cnt).mapM (Vector_elemAt s v)).map
    (·.foldl (fun h x => 31 * h + ehash x) 0)

/-- Vector_new_path in pds.c: a spine of fresh one-child nodes of the given
height ending at the given node. -/
def Vector_new_path (tid : Option Nat) (s : VStore α) (level node : Nat) :
    Nat × VStore α :=
  if level = 0 then (node, s)
  else
    let (ret, s1) := VectorNode_create s tid
    let (child, s2) := Vector_new_path tid s1 (level - BITS) node
    (ret, nodeWriteSlot s2 ret 0 (.child child))
termination_by level
decreasing_by simp only [BITS]; omega

/-- Vector_push_tail in pds.c: hang the promoted tail leaf below the
rightmost path, recycling editable nodes and cloning the rest.  The level
is always a positive multiple of BITS, so the level-not-above-BITS test
matches the C level-equals-BITS test on every reachable call. -/
def Vector_push_tail (tid : Option Nat) (cnt : Nat) (s : VStore α)
    (level parent tail_node : Nat) : Nat × VStore α :=
  let subidx := ((cnt - 1) >>> level) &&& MASK
  let (ret, s1) :=
    if VectorNode_is_editable s parent tid then (parent, s)
    else VectorNode_clone s parent tid
  let (node_to_insert, s2) :=
    if level ≤ BITS then (tail_node, s1)
    else
      match nodeSlot s1 parent subidx with
      | .child c => Vector_push_tail tid cnt s1 (level - BITS) c tail_node
      | _ => Vector_new_path tid s1 (level - BITS) tail_node
  (ret, nodeWriteSlot s2 ret subidx (.child node_to_insert))
termination_by level
decreasing_by all_goals simp only [BITS] at *; omega

/-- Vector_conj in pds.c.  With room in the tail, only the tail grows; on
tail overflow the tail becomes a fresh leaf (the fill loop is collapsed
into the initial slot list of the allocation), the root is promoted one
level exactly when cnt shifted right by BITS exceeds 1 shifted left by
shift, and the new tail holds just the appended element.  The result keeps
the transient token of the receiver. -/
def Vector_conj (s : VStore α) (v : Vector α) (x : α) : Vector α × VStore α :=
  let tid := v.tid
  if v.cnt - Vector_tail_off v < WIDTH then
    ({ v with cnt := v.cnt + 1, tail := v.tail ++ [x] }, s)
  else
    let leafSlots := (v.tail.take WIDTH).map VSlot.elem
    let (tail_node, s1) := s.alloc
      ⟨leafSlots ++ List.replicate (WIDTH - leafSlots.length) .null, tid⟩
    let (new_shift, new_root, s2) :=
      if 1 <<< v.shift < v.cnt >>> BITS then
        let (nr, sa) := VectorNode_create s1 tid
        let sb := nodeWriteSlot sa nr 0 (.child v.root)
        let (path, sc) := Vector_new_path tid sb v.shift tail_node
        (v.shift + BITS, nr, nodeWriteSlot sc nr 1 (.child path))
      else
        let (nr, sa) := Vector_push_tail tid v.cnt s1 v.shift v.root tail_node
        (v.shift, nr, sa)
    ({ cnt := v.cnt + 1, shift := new_shift, root := new_root, tail := [x],
       tid := tid }, s2)

/-- Vector_do_assoc in pds.c: path copy from the root to the leaf,
replacing the slot at level 0.  The clone carries a NULL token (the C
passes NULL).  A missing child on the path would crash the C code and
leaves the cloned node unchanged here. -/
def Vector_do_assoc (s : VStore α) (level a i : Nat) (x : α) : Nat × VStore α :=
  let (ret, s1) := VectorNode_clone s a none
  if level = 0 then (ret, nodeWriteSlot s1 ret (i &&& MASK) (.elem x))
  else
    let subidx := (i >>> level) &&& MASK
    match nodeSlot s1 a subidx with
    | .child c =>
      let (child, s2) := Vector_do_assoc s1 (level - BITS) c i x
      (ret, nodeWriteSlot s2 ret subidx (.child child))
    | _ => (ret, s1)
termination_by level
decreasing_by simp only [BITS]; omega

/-- Vector_assoc in pds.c: negative index normalized by adding cnt; the
normalized index must lie in [0, cnt], cnt itself delegating to conj;
tail-range updates copy the tail, trie updates path-copy the root.  The
result vector is created with a NULL transient token. -/
def Vector_assoc (s : VStore α) (v : Vector α) (key : Int) (x : α) :
    Option (Vector α × VStore α) :=
  let i : Int := if key < 0 then (v.cnt : Int) + key else key
  if i < 0 ∨ (v.cnt : Int) < i then none
  else if i = (v.cnt : Int) then some (Vector_conj s v x)
  else
    let i := i.toNat
    if Vector_tail_off v ≤ i then
      some ({ v with tail := v.tail.set (i &&& MASK) x, tid := none }, s)
    else
      let (new_root, s2) := Vector_do_assoc s v.shift v.root i x
      some ({ v with root := new_root, tid := none }, s2)

/-- Vector_pop_tail in pds.c: remove the rightmost in-trie leaf by path
copy (tokens are NULL on this persistent path), returning none when the
subtree dissolves. -/
def Vector_pop_tail (s : VStore α) (cnt level a : Nat) :
    Option Nat × VStore α :=
  let subidx := ((cnt - 2) >>> level) &&& MASK
  if BITS < level then
    match nodeSlot s a subidx with
    | .child c =>
      let (new_child, s1) := Vector_pop_tail s cnt (level - BITS) c
      if new_child = none ∧ subidx = 0 then (none, s1)
      else
        let (ret, s2) := VectorNode_clone s1 a none
        (some ret, nodeWriteSlot s2 ret subidx
          (match new_child with | some nc => .child nc | none => .null))
    | _ => (none, s)
  else if subidx = 0 then (none, s)
  else
    let (ret, s1) := VectorNode_clone s a none
    (some ret, nodeWriteSlot s1 ret subidx .null)
termination_by level
decreasing_by simp only [BITS] at *; omega

/-- How a Vector operation hands back its result: an error (exception in
C), the module-level canonical empty vector singleton EMPTY_VECTOR, or a
freshly created vector. -/
inductive VecRet (α : Type) where
  | error
  | canonicalEmpty
  | newVec (v : Vector α)
deriving DecidableEq

/-- The 32 elements of the rightmost in-trie leaf, used by Vector_pop as
the new tail (Vector_array_for on index cnt - 2).  The C code would turn
absent slots into Py_None; on the full leaves reachable here all 32 slots
are elements, and the model reports none otherwise. -/
def Vector_leafTail (s : VStore α) (v : Vector α) : Option (List α) :=
  match Vector_descend s v.root v.shift (v.cnt - 2) with
  | none => none
  | some a =>
    (List.range WIDTH).mapM (fun j =>
      match nodeSlot s a j with
      | .elem x => some x
      | _ => none)

/-- Vector_pop in pds.c: error on empty, the canonical EMPTY_VECTOR on a
one-element vector, a shortened tail while more than one element sits in
the tail, else the rightmost leaf becomes the tail, the leaf is removed by
path copy, and a root with only slot 0 occupied is collapsed one level
while shift exceeds BITS. -/
def Vector_pop (s : VStore α) (v : Vector α) : VecRet α × VStore α :=
  if v.cnt = 0 then (.error, s)
  else if v.cnt = 1 then (.canonicalEmpty, s)
  else if 1 < v.cnt - Vector_tail_off v then
    let shorter := v.tail.take (v.tail.length - 1)
    (.newVec { v with cnt := v.cnt - 1, tail := shorter, tid := none }, s)
  else
    match Vector_leafTail s v with
    | none => (.error, s)
    | some new_tail =>
      let (nr, s1) := Vector_pop_tail s v.cnt v.shift v.root
      let new_root := nr.getD EMPTY_NODE_ADDR
      let (new_shift, new_root) :=
        if BITS < v.shift ∧ nodeSlot s1 new_root 1 = .null then
          match nodeSlot s1 new_root 0 with
          | .child c => (v.shift - BITS, c)
          | _ => (v.shift, new_root)
        else (v.shift, new_root)
      (.newVec { cnt := v.cnt - 1, shift := new_shift, root := new_root,
                 tail := new_tail, tid := none }, s1)

/-! ### SortedVector: size-annotated left-leaning red-black tree
(pds.c lines 7969-9140)

Nodes store the value, the cached sort key (key_fn applied to the value, or
the value itself without a key_fn; the model passes the key function
explicitly, the no-key default being the identity instantiation), children,
the subtree size and the color.  Edit tokens only select which nodes are
recycled in place and do not affect the resulting value, so this value
level embedding drops them: RBNode_ensure_editable becomes the identity on
values and the C field writes become functional updates.  User comparisons
are modelled by a linear order (errors raised by host comparisons are
outside the model). -/

/-- RB_RED in pds.c. -/
def RB_RED : Bool := false

/-- RB_BLACK in pds.c. -/
def RB_BLACK : Bool := true

/-- RBNode in pds.c; nil stands for the NULL child pointer. -/
inductive RBNode (α κ : Type) where
  | nil
  | node (value : α) (sort_key : κ) (left : RBNode α κ) (right : RBNode α κ)
      (size : Int) (color : Bool)
deriving DecidableEq

namespace RBNode

variable {κ : Type}

/-- Left child; NULL on NULL (C code never asks). -/
def leftC : RBNode α κ → RBNode α κ
  | .nil => .nil
  | .node _ _ l _ _ _ => l

/-- Right child; NULL on NULL. -/
def rightC : RBNode α κ → RBNode α κ
  | .nil => .nil
  | .node _ _ _ r _ _ => r

/-- Replace the left child field. -/
def withLeft (t : RBNode α κ) (l : RBNode α κ) : RBNode α κ :=
  match t with
  | .nil => .nil
  | .node v k _ r sz c => .node v k l r sz c

/-- Replace the right child field. -/
def withRight (t : RBNode α κ) (r : RBNode α κ) : RBNode α κ :=
  match t with
  | .nil => .nil
  | .node v k l _ sz c => .node v k l r sz c

/-- Whether the node is nil (a NULL pointer in C). -/
def isNil : RBNode α κ → Bool
  | .nil => true
  | _ => false

end RBNode

/-- RBNode_size in pds.c: 0 for NULL, else the stored size field. -/
def RBNode_size : RBNode α κ → Int
  | .nil => 0
  | .node _ _ _ _ sz _ => sz

/-- RBNode_update_size in pds.c: recompute the stored size from the stored
sizes of the children. -/
def RBNode_update_size : RBNode α κ → RBNode α κ
  | .nil => .nil
  | .node v k l r _ c => .node v k l r (1 + RBNode_size l + RBNode_size r) c

/-- RBNode_is_red in pds.c: non-NULL and red. -/
def RBNode_is_red : RBNode α κ → Bool
  | .nil => false
  | .node _ _ _ _ _ c => c = RB_RED

/-- RBNode_rotate_left in pds.c.  The C code dereferences h->right, which
its callers guarantee non-NULL; the model returns the input on the
unreachable NULL shapes. -/
def RBNode_rotate_left (h : RBNode α κ) : RBNode α κ :=
  match h with
  | .nil => .nil
  | .node v k l r sz c =>
    match r with
    | .nil => .node v k l r sz c
    | .node xv xk xl xr _ _ =>
      let nh := .node v k l xl sz RB_RED
      let nh := RBNode_update_size nh
      RBNode_update_size (.node xv xk nh xr 0 c)

/-- RBNode_rotate_right in pds.c (mirror of rotate_left). -/
def RBNode_rotate_right (h : RBNode α κ) : RBNode α κ :=
  match h with
  | .nil => .nil
  | .node v k l r sz c =>
    match l with
    | .nil => .node v k l r sz c
    | .node xv xk xl xr _ _ =>
      let nh := .node v k xr r sz RB_RED
      let nh := RBNode_update_size nh
      RBNode_update_size (.node xv xk xl nh 0 c)

/-- RBNode_flip_colors in pds.c: toggle the color of the node and of each
existing child. -/
def RBNode_flip_colors (h : RBNode α κ) : RBNode α κ :=
  match h with
  | .nil => .nil
  | .node v k l r sz c =>
    let fl := fun t =>
      match t with
      | RBNode.nil => RBNode.nil
      | RBNode.node v2 k2 l2 r2 sz2 c2 => RBNode.node v2 k2 l2 r2 sz2 (!c2)
    .node v k (fl l) (fl r) sz (!c)

/-- RBNode_balance in pds.c: rotate left on a right-leaning red, rotate
right on two left reds in a row, flip on two red children (each condition
examined on the result of the previous step), then refresh the size. -/
def RBNode_balance (h : RBNode α κ) : RBNode α κ :=
  match h with
  | .nil => .nil
  | _ =>
    let h1 := if RBNode_is_red h.rightC && !RBNode_is_red h.leftC then
      RBNode_rotate_left h else h
    let h2 := if RBNode_is_red h1.leftC && RBNode_is_red h1.leftC.leftC then
      RBNode_rotate_right h1 else h1
    let h3 := if RBNode_is_red h2.leftC && RBNode_is_red h2.rightC then
      RBNode_flip_colors h2 else h2
    RBNode_update_size h3

variable {κ : Type} [LinearOrder κ]

/-- SortedVector_compare_keys in pds.c: three-way comparison through the
host less-than, negated by the reverse flag. -/
def SortedVector_compare_keys (a b : κ) (reverse : Bool) : Int :=
  if a < b then (if reverse then 1 else -1)
  else if b < a then (if reverse then -1 else 1)
  else 0

/-- RBNode_insert in pds.c: descend by the comparison, equal keys to the
right, fresh nodes red, balance on unwind. -/
def RBNode_insert (h : RBNode α κ) (value : α) (sort_key : κ) (reverse : Bool) :
    RBNode α κ :=
  match h with
  | .nil => .node value sort_key .nil .nil 1 RB_RED
  | .node v k l r sz c =>
    if SortedVector_compare_keys sort_key k reverse < 0 then
      RBNode_balance (.node v k (RBNode_insert l value sort_key reverse) r sz c)
    else
      RBNode_balance (.node v k l (RBNode_insert r value sort_key reverse) sz c)

/-- The SortedVector struct in pds.c: root, count, reverse flag (the key
function is passed to the operations; identity for the no-key default). -/
structure SortedVector (α κ : Type) where
  root : RBNode α κ
  cnt : Int
  reverse : Bool

/-- The canonical empty SortedVector (module init in pds.c). -/
def emptySortedVector (reverse : Bool) : SortedVector α κ := ⟨.nil, 0, reverse⟩

/-- SortedVector_conj in pds.c: insert, then recolor a red root black (on a
fresh clone) and bump the count. -/
def SortedVector_conj (kf : α → κ) (sv : SortedVector α κ) (value : α) :
    SortedVector α κ :=
  let sort_key := kf value
  let new_root := RBNode_insert sv.root value sort_key sv.reverse
  let new_root :=
    match new_root with
    | .nil => RBNode.nil
    | .node v k l r sz c => if c = RB_RED then .node v k l r sz RB_BLACK
      else .node v k l r sz c
  ⟨new_root, sv.cnt + 1, sv.reverse⟩

/-- RBNode_min in pds.c: leftmost value and key; none on NULL (the C
callers guarantee non-NULL). -/
def RBNode_min_node : RBNode α κ → Option (α × κ)
  | .nil => none
  | .node v k l _ _ _ =>
    match l with
    | .nil => some (v, k)
    | _ => RBNode_min_node l

/-- Number of nodes of a subtree, the termination measure of the deletion
recursion (rotations and color flips permute nodes without changing their
number). -/
def nodeCount : RBNode α κ → Nat
  | .nil => 0
  | .node _ _ l r _ _ => 1 + nodeCount l + nodeCount r

/-- RBNode_move_red_left in pds.c. -/
def RBNode_move_red_left (h : RBNode α κ) : RBNode α κ :=
  let h := RBNode_flip_colors h
  if !h.rightC.isNil && RBNode_is_red h.rightC.leftC then
    let h := h.withRight (RBNode_rotate_right h.rightC)
    let h := RBNode_rotate_left h
    RBNode_flip_colors h
  else h

/-- RBNode_move_red_right in pds.c. -/
def RBNode_move_red_right (h : RBNode α κ) : RBNode α κ :=
  let h := RBNode_flip_colors h
  if !h.leftC.isNil && RBNode_is_red h.leftC.leftC then
    let h := RBNode_rotate_right h
    RBNode_flip_colors h
  else h

/-- RBNode_delete_min in pds.c: remove the leftmost node, feeding reds down
with move_red_left and balancing on unwind; the inner none models the NULL
return when the subtree dissolves.  The C recursion is on a tree
restructured by move_red_left; the embedding bounds it with a fuel
parameter that the wrapper passes as one more than the node count, which
rotations and color flips preserve (the outer none models only fuel
exhaustion, never reached from the wrapper). -/
def RBNode_delete_min : Nat → RBNode α κ → Option (Option (RBNode α κ))
  | 0, _ => none
  | _ + 1, .nil => some none
  | fuel + 1, .node v k l r sz c =>
    if l.isNil then some none
    else
      let nh0 := RBNode.node v k l r sz c
      let nhL := if !RBNode_is_red nh0.leftC && !RBNode_is_red nh0.leftC.leftC then
        RBNode_move_red_left nh0 else nh0
      do
        let sub ← RBNode_delete_min fuel nhL.leftC
        some (some (RBNode_balance (nhL.withLeft (sub.getD .nil))))
termination_by structural fuel => fuel

/-- RBNode_delete in pds.c: descend by key, check the stored value at
key-equal nodes, use move_red_left / move_red_right to feed a red down,
replace a deleted internal node by its in-order successor, balance on
unwind; the Bool result models the deleted output flag.  Fuel as in
RBNode_delete_min. -/
def RBNode_delete [DecidableEq α] : Nat → RBNode α κ → κ → α → Bool →
    Option (Option (RBNode α κ) × Bool)
  | 0, _, _, _, _ => none
  | _ + 1, .nil, _, _, _ => some (none, false)
  | fuel + 1, .node v0 k0 l0 r0 sz0 c0, sort_key, value, reverse =>
    let nh0 := RBNode.node v0 k0 l0 r0 sz0 c0
    if SortedVector_compare_keys sort_key k0 reverse < 0 then
      let nhL := if !nh0.leftC.isNil && !RBNode_is_red nh0.leftC &&
          !RBNode_is_red nh0.leftC.leftC then RBNode_move_red_left nh0 else nh0
      do
        let res ← RBNode_delete fuel nhL.leftC sort_key value reverse
        some (some (RBNode_balance (nhL.withLeft (res.1.getD .nil))), res.2)
    else
      let nh1 := if RBNode_is_red nh0.leftC then RBNode_rotate_right nh0 else nh0
      match nh1 with
      | .nil => some (none, false)
      | .node v1 k1 l1 r1 sz1 c1 =>
        if SortedVector_compare_keys sort_key k1 reverse = 0 ∧ value = v1 ∧
            r1.isNil then some (none, true)
        else
          let nhA := RBNode.node v1 k1 l1 r1 sz1 c1
          let nh2 := if !nhA.rightC.isNil && !RBNode_is_red nhA.rightC &&
              !RBNode_is_red nhA.rightC.leftC then RBNode_move_red_right nhA else nhA
          match nh2 with
          | .nil => some (none, false)
          | .node v2 k2 l2 r2 sz2 c2 =>
            if SortedVector_compare_keys sort_key k2 reverse = 0 ∧ value = v2 then
              match RBNode_min_node r2 with
              | none => some (some (RBNode_balance (.node v2 k2 l2 r2 sz2 c2)), false)
              | some (mv, mk) => do
                let sub ← RBNode_delete_min fuel r2
                let nr := sub.getD .nil
                some (some (RBNode_balance (.node mv mk l2 nr sz2 c2)), true)
            else do
              let res ← RBNode_delete fuel r2 sort_key value reverse
              some (some (RBNode_balance (.node v2 k2 l2 (res.1.getD .nil) sz2 c2)), res.2)
termination_by structural fuel => fuel

/-- SortedVector_disj in pds.c: delete by key and value; when nothing
matched the receiver is returned unchanged, else the count drops and a red
root is recolored black.  The fuel handed to the delete recursion is one
more than the node count, which delete never exhausts; none models only
that unreachable exhaustion. -/
def SortedVector_disj [DecidableEq α] (kf : α → κ) (sv : SortedVector α κ)
    (value : α) : Option (SortedVector α κ) :=
  if sv.cnt = 0 then some sv
  else do
    let sort_key := kf value
    let res ← RBNode_delete (nodeCount sv.root + 1) sv.root sort_key value sv.reverse
    if !res.2 then some sv
    else
      let nr := res.1.getD .nil
      let nr :=
        match nr with
        | .nil => RBNode.nil
        | .node v k l r sz c => if c = RB_RED then .node v k l r sz RB_BLACK
          else .node v k l r sz c
      some ⟨nr, sv.cnt - 1, sv.reverse⟩

/-- The walk to the rightmost node in SortedVector_last. -/
def rightmostValue : RBNode α κ → Option α
  | .nil => none
  | .node v _ _ r _ _ =>
    match r with
    | .nil => some v
    | _ => rightmostValue r

/-- SortedVector_last in pds.c: the Python None value (not an error) on an
empty sorted vector, else the rightmost value.  The function raises no
exception, which the Except layer makes visible. -/
def SortedVector_last (sv : SortedVector α κ) : Except Unit (Option α) :=
  if sv.cnt = 0 then .ok none
  else .ok (rightmostValue sv.root)

/-! ### SortedVector invariants (section 8 of the specification) -/

/-- Every key of the subtree satisfies a predicate. -/
def allKeysB (p : κ → Bool) : RBNode α κ → Bool
  | .nil => true
  | .node _ k l r _ _ => p k && allKeysB p l && allKeysB p r

/-- Binary-search-tree order under the stated direction, duplicates
permitted on both sides: left keys compare at most 0 against the node key,
right keys at least 0. -/
def bstB [LinearOrder κ] (reverse : Bool) : RBNode α κ → Bool
  | .nil => true
  | .node _ k l r _ _ =>
    allKeysB (fun k2 => SortedVector_compare_keys k2 k reverse ≤ 0) l &&
    allKeysB (fun k2 => 0 ≤ SortedVector_compare_keys k2 k reverse) r &&
    bstB reverse l && bstB reverse r

/-- The claim form of the order invariant: duplicates only in the right
subtree, i.e. every left-subtree key strictly below the node key. -/
def bstStrictLeftB [LinearOrder κ] (reverse : Bool) : RBNode α κ → Bool
  | .nil => true
  | .node _ k l r _ _ =>
    allKeysB (fun k2 => SortedVector_compare_keys k2 k reverse < 0) l &&
    allKeysB (fun k2 => 0 ≤ SortedVector_compare_keys k2 k reverse) r &&
    bstStrictLeftB reverse l && bstStrictLeftB reverse r

/-- Left-leaning color discipline: no red right child anywhere, and no red
node with a red left child. -/
def llB : RBNode α κ → Bool
  | .nil => true
  | .node _ _ l r _ c =>
    !RBNode_is_red r && (!(c == RB_RED) || !RBNode_is_red l) && llB l && llB r

/-- Black height along the left spine. -/
def bhNat : RBNode α κ → Nat
  | .nil => 0
  | .node _ _ l _ _ c => bhNat l + (if c = RB_BLACK then 1 else 0)

/-- Every root-to-null path has the same number of black nodes. -/
def bhOkB : RBNode α κ → Bool
  | .nil => true
  | .node _ _ l r _ _ => bhOkB l && bhOkB r && (bhNat l == bhNat r)

/-- The stored size field equals one plus the stored sizes of the
children, at every node. -/
def sizeOkB : RBNode α κ → Bool
  | .nil => true
  | .node _ _ l r sz _ =>
    (sz == 1 + RBNode_size l + RBNode_size r) && sizeOkB l && sizeOkB r

/-- The tree invariants of the SortedVector data model: BST order under
the stated direction, left-leaning color discipline, equal black depth,
and correct size annotations. -/
def svInvB [LinearOrder κ] (reverse : Bool) (t : RBNode α κ) : Bool :=
  bstB reverse t && llB t && bhOkB t && sizeOkB t

/-- SortedVectors reachable from an empty one through conj and disj (the
transient conj_mut and disj_mut compute the same trees: with an edit token
the same insertion and deletion routines merely recycle nodes in
place). -/
inductive SVReach [LinearOrder κ] [DecidableEq α] (kf : α → κ) :
    SortedVector α κ → Prop
  | empty (reverse : Bool) : SVReach kf (emptySortedVector reverse)
  | conj {sv : SortedVector α κ} (x : α) :
      SVReach kf sv → SVReach kf (SortedVector_conj kf sv x)
  | disj {sv sv2 : SortedVector α κ} (x : α) :
      SVReach kf sv → SortedVector_disj kf sv x = some sv2 → SVReach kf sv2

/-! ### Primitive vectors: the unboxing boundary
(pds.c lines 1865-1941, 2915-2941, 9503-9571)

DoubleVector_conj unboxes with PyFloat_AsDouble, IntVector_conj with
PyLong_AsLongLong; the factories vec_f64 / vec_i64 run the same
conversions in a loop and turn any conversion failure into a TypeError.
The trie and tail algebra of the primitive vectors repeats the generic
Vector algebra modelled above with unboxed payloads; for the conversion
claims the vector is abstracted to its element sequence.  A double is
modelled exactly as a dyadic rational num / 2 ^ dexp; converting an
integer rounds to 53 mantissa bits with ties to even, and overflows only
past the IEEE range. -/

/-- A binary64 value as the dyadic rational num / 2 ^ dexp. -/
structure F64 where
  num : Int
  dexp : Nat
deriving DecidableEq

/-- A host value arriving at the unboxing boundary: an integer, a float,
or a non-numeric object (text stands in for every such object). -/
inductive PyVal where
  | int (n : Int)
  | float (f : F64)
  | text (s : String)
deriving DecidableEq

/-- Conversion failures at the boundary. -/
inductive ConvErr where
  | typeError
  | overflowError
deriving DecidableEq

/-- Round a magnitude to 53 mantissa bits, ties to even: the rounding the
platform applies when an integer is converted to a double. -/
def roundMag53 (m : Nat) : Nat :=
  if m < 2 ^ 53 then m
  else
    let e := m.log2 - 52
    let q := m / 2 ^ e
    let r := m % 2 ^ e
    let half := 2 ^ (e - 1)
    let q := if half < r ∨ (r = half ∧ q % 2 = 1) then q + 1 else q
    q * 2 ^ e

/-- Correctly rounded integer-to-double conversion. -/
def roundF64 (n : Int) : Int :=
  if n < 0 then -(roundMag53 n.natAbs : Int) else (roundMag53 n.natAbs : Int)

/-- PyFloat_AsDouble on the modelled inputs: floats pass through, integers
are rounded to the nearest double (OverflowError past the IEEE range),
anything non-numeric raises TypeError. -/
def PyFloat_AsDouble : PyVal → Except ConvErr F64
  | .float f => .ok f
  | .int n =>
    if roundMag53 n.natAbs < 2 ^ 1024 then .ok ⟨roundF64 n, 0⟩
    else .error .overflowError
  | .text _ => .error .typeError

/-- PyLong_AsLongLong on the modelled inputs: only integers convert (a
float has no index protocol and raises TypeError regardless of its value);
out-of-range integers raise OverflowError. -/
def PyLong_AsLongLong : PyVal → Except ConvErr Int
  | .int n =>
    if -(2 ^ 63) ≤ n ∧ n < 2 ^ 63 then .ok n else .error .overflowError
  | .float _ => .error .typeError
  | .text _ => .error .typeError

/-- DoubleVector abstracted to its element sequence. -/
structure DoubleVector where
  elems : List F64
deriving DecidableEq

/-- IntVector abstracted to its element sequence. -/
structure IntVector where
  elems : List Int
deriving DecidableEq

/-- DoubleVector_conj in pds.c: unbox the value with PyFloat_AsDouble (the
error propagates), then append. -/
def DoubleVector_conj (v : DoubleVector) (val : PyVal) : Except ConvErr DoubleVector :=
  match PyFloat_AsDouble val with
  | .error e => .error e
  | .ok d => .ok ⟨v.elems ++ [d]⟩

/-- IntVector_conj in pds.c: unbox the value with PyLong_AsLongLong (the
error propagates), then append. -/
def IntVector_conj (v : IntVector) (val : PyVal) : Except ConvErr IntVector :=
  match PyLong_AsLongLong val with
  | .error e => .error e
  | .ok n => .ok ⟨v.elems ++ [n]⟩

/-- pds_vec_f64 in pds.c: convert each argument with PyFloat_AsDouble,
rewriting any failure into a TypeError naming the argument. -/
def pds_vec_f64 (args : List PyVal) : Except ConvErr DoubleVector :=
  match args.mapM PyFloat_AsDouble with
  | .error _ => .error .typeError
  | .ok ds => .ok ⟨ds⟩

/-- pds_vec_i64 in pds.c: convert each argument with PyLong_AsLongLong,
rewriting any failure into a TypeError naming the argument. -/
def pds_vec_i64 (args : List PyVal) : Except ConvErr IntVector :=
  match args.mapM PyLong_AsLongLong with
  | .error _ => .error .typeError
  | .ok ns => .ok ⟨ns⟩

/-- The exact value of a PyVal as a rational, for stating when a
conversion would lose information (the vocabulary of the claim, not of the
code). -/
def PyVal.exactVal : PyVal → Option ℚ
  | .int n => some (n : ℚ)
  | .float f => some ((f.num : ℚ) / (2 ^ f.dexp : ℚ))
  | .text _ => none

/-- A numeric value converts to a 64-bit signed integer without loss of
information: its exact value is an integer in range (claim vocabulary). -/
def losslessI64 (v : PyVal) : Prop :=
  ∃ n : Int, v.exactVal = some (n : ℚ) ∧ -(2 ^ 63) ≤ n ∧ n < 2 ^ 63

/-- An integer converts to a double without loss of information: the
correctly rounded conversion returns it unchanged (claim vocabulary). -/
def losslessF64 (n : Int) : Prop := roundF64 n = n

/-! ### Cons and type-guarded equality (pds.c lines 184-325, 1077-1116,
5731-5807)

The three richcompare functions first check the concrete type of the other
operand with PyObject_TypeCheck and report inequality for anything else,
even a host sequence or mapping with identical contents.  PyAny models the
universe of possible other operands over integer elements. -/

mutual

/-- The tail field of a Cons: the terminal Py_None, a further cons cell,
or an arbitrary non-cons object. -/
inductive ConsRest (α : Type) where
  | pynone
  | more (c : ConsCell α)
  | otherObj

/-- Cons in pds.c: first element plus rest. -/
inductive ConsCell (α : Type) where
  | cell (first : α) (rest : ConsRest α)

end

/-- The walking loop of Cons_richcompare: compare firsts while both chains
are cons cells, then both chains must have ended at Py_None. -/
def consChainEq [DecidableEq α] : ConsCell α → ConsCell α → Bool
  | .cell x ra, .cell y rb =>
    x == y &&
      match ra, rb with
      | .pynone, .pynone => true
      | .more a, .more b => consChainEq a b
      | _, _ => false

/-- Any Python object that can appear as the other operand of an equality
test: one of the persistent structures or a host object. -/
inductive PyAny where
  | consObj (c : ConsCell Int)
  | vecObj (v : Vector Int)
  | mapObj (m : Map Int Int)
  | intObj (n : Int)
  | listObj (l : List Int)
  | dictObj (l : List (Int × Int))

/-- Cons_richcompare (Py_EQ case) in pds.c: false for every operand that
is not a Cons, else the pairwise walk. -/
def Cons_richcompare (self : ConsCell Int) (other : PyAny) : Bool :=
  match other with
  | .consObj b => consChainEq self b
  | _ => false

/-- Vector_richcompare (Py_EQ case) in pds.c: false for every operand that
is not a Vector, else count comparison followed by elementwise equality
through Vector_array_for. -/
def Vector_richcompare (s : VStore Int) (self : Vector Int) (other : PyAny) : Bool :=
  match other with
  | .vecObj o =>
    if self.cnt ≠ o.cnt then false
    else (List.range self.cnt).all (fun i =>
      Vector_elemAt s self i == Vector_elemAt s o i)
  | _ => false

mutual

/-- All key/value entries of a HAMT node in iteration order (the DFS of
the node iterators in pds.c). -/
def MapNode.entriesList : MapNode κ ν → List (κ × ν)
  | .bin _ arr => entriesOfBin arr
  | .arrN _ slots => entriesOfSlots slots
  | .hcn _ _ es => es

/-- Entries below a packed bitmap-node array. -/
def entriesOfBin : List (BinEntry κ ν) → List (κ × ν)
  | [] => []
  | .kv k v :: rest => (k, v) :: entriesOfBin rest
  | .sub n :: rest => n.entriesList ++ entriesOfBin rest

/-- Entries below the slot list of an array node. -/
def entriesOfSlots : List (Option (MapNode κ ν)) → List (κ × ν)
  | [] => []
  | none :: rest => entriesOfSlots rest
  | some n :: rest => n.entriesList ++ entriesOfSlots rest

end

/-- Map_richcompare (Py_EQ case) in pds.c: false for every operand that is
not a Map, else cardinality match and per-entry lookup in the other
map. -/
def Map_richcompare (hash : Int → Nat) (self : Map Int Int) (other : PyAny) : Bool :=
  match other with
  | .mapObj o =>
    if self.cnt ≠ o.cnt then false
    else (match self.root with
      | none => []
      | some r => r.entriesList).all (fun e =>
        match Map_find hash o e.1 with
        | some w => e.2 == w
        | none => false)
  | _ => false

/-! ### Concrete scenario values used in the claim theorems -/

/-- The zero-argument branch of the pds_vec factory: return the canonical
EMPTY_VECTOR (pds.c lines 9343-9345). -/
def pds_vec_noargs : VecRet α := .canonicalEmpty

/-- The zero-argument branch of the pds_hash_map factory: return the
canonical EMPTY_MAP (pds.c lines 9469-9471). -/
def pds_hash_map_noargs : MapRet κ ν := .canonicalEmpty

/-- The empty-input branch of the pds_hash_set factory: return the
canonical EMPTY_SET (pds.c lines 9413-9415). -/
def pds_hash_set_noargs : SetRet κ := .canonicalEmpty

/-- Conj the integers 0, 1, ..., n-1 onto the empty vector in the initial
store (scenarios 1 and 2 of the specification). -/
def conjRange (n : Nat) : Vector Nat × VStore Nat :=
  (List.range n).foldl (fun p i => Vector_conj p.2 p.1 i) (emptyVec, emptyVStore)

/-- The identity hash on naturals. -/
def idHash : Nat → Nat := id

/-- A hash with a total collision at 7 (scenario 3 injects a custom hasher
with known collisions). -/
def colHash : Nat → Nat := fun _ => 7

/-- Run Map_assoc and keep the resulting map value (receiver on the
unchanged path; hamtFuel never runs out on these inputs). -/
def mapAssocD (hash : Nat → Nat) (m : Map Nat Nat) (k v : Nat) : Map Nat Nat :=
  ((Map_assoc hash m k v).getD .same).value m

/-- Run Map_dissoc and keep the resulting map value. -/
def mapDissocD (hash : Nat → Nat) (m : Map Nat Nat) (k : Nat) : Map Nat Nat :=
  ((Map_dissoc hash m k).getD .same).value m

/-- Seventeen entries with pairwise distinct first-level slots
(scenario 4). -/
def map17 : Map Nat Nat :=
  (List.range 17).foldl (fun m k => mapAssocD idHash m k (100 * k)) ⟨0, none⟩

/-- map17 after dissoc of the keys 0, ..., n-1, one at a time. -/
def map17drop (n : Nat) : Map Nat Nat :=
  (List.range n).foldl (mapDissocD idHash) map17

/-- Two entries whose full hashes collide, inserted into the empty map
(scenario 3). -/
def mapCol : Map Nat Nat := mapAssocD colHash (mapAssocD colHash ⟨0, none⟩ 1 10) 2 20

/-- mapCol after dissoc of the first colliding key. -/
def mapCol1 : Map Nat Nat := mapDissocD colHash mapCol 1

/-- Whether the map root is an array node with the given child count. -/
def rootIsArrayNode (m : Map Nat Nat) (c : Int) : Bool :=
  match m.root with
  | some (.arrN c2 _) => c2 == c
  | _ => false

/-- Whether the map root is a bitmap node with the given bitmap and entry
count. -/
def rootIsBin (m : Map Nat Nat) (bmp : Nat) (len : Nat) : Bool :=
  match m.root with
  | some (.bin b arr) => b == bmp && arr.length == len
  | _ => false

/-- Whether the map root is a bitmap node holding exactly one child that
is a hash-collision node with the given entry count. -/
def rootHoldsCollisionNode (m : Map Nat Nat) (c : Int) : Bool :=
  match m.root with
  | some (.bin _ [.sub (.hcn _ c2 _)]) => c2 == c
  | _ => false

/-- Keys 1, 1, 1, 0, 0, 0 conj-ed with pairwise distinct values under the
key function Prod.fst and the default direction. -/
def svBug : SortedVector (Int × Int) Int :=
  [((1 : Int), (0 : Int)), (1, 1), (1, 2), (0, 3), (0, 4), (0, 5)].foldl
    (SortedVector_conj Prod.fst) (emptySortedVector false)

/-- svBug after disj of the value (1, 0); the delete never runs out of
fuel, so the fallback receiver of getD is never used. -/
def svBugAfter : SortedVector (Int × Int) Int :=
  (SortedVector_disj Prod.fst svBug (1, 0)).getD svBug

/-- The in-order value sequence of a tree. -/
def rbValues : RBNode α κ → List α
  | .nil => []
  | .node v _ l r _ _ => rbValues l ++ v :: rbValues r

/-- Two conj of the same key onto the empty sorted vector. -/
def svDupPair : SortedVector Int Int :=
  SortedVector_conj id (SortedVector_conj id (emptySortedVector false) 1) 1

/-- A one-entry map, for the last-key dissoc scenario. -/
def mapOne : Map Nat Nat := mapAssocD idHash ⟨0, none⟩ 5 50

/-- A one-element set, for the last-element disj scenario. -/
def setOne : SetV Nat :=
  match Set_conj idHash ⟨0, none⟩ 5 with
  | some (.newObj s) => s
  | _ => ⟨0, none⟩

/-! ### Store frame vocabulary for the persistence claim -/

/-- Store evolution as the C allocator sees it: the new store is at least
as long and agrees with the old one on every already-allocated address.
Operations run with a NULL transient token only ever write freshly
allocated nodes, so they evolve the store this way. -/
def storePreserved (s s2 : VStore α) : Prop :=
  s.nodes.length ≤ s2.nodes.length ∧
  ∀ a, a < s.nodes.length → s2.read? a = s.read? a

/-- Every child pointer stored anywhere in the store targets an allocated
address; true of every store the vector operations build, and enough for
the reads of a descent to stay inside the preserved prefix. -/
def storeClosedB (s : VStore α) : Bool :=
  s.nodes.all (fun d => d.slots.all (fun sl =>
    match sl with
    | .child a2 => decide (a2 < s.nodes.length)
    | _ => true))

/-- The inductive invariant of the 0..n-1 conj scenario, for n up to the
root promotion at 1056: counts, the minimum shift, a persistent token, an
allocated root in a closed store, a tail holding exactly the indices past
the tail offset, and every element readable at its own index. -/
def conjRangeInv (n : Nat) : Prop :=
  (conjRange n).1.cnt = n ∧
  (conjRange n).1.shift = 5 ∧
  (conjRange n).1.tid = none ∧
  (conjRange n).1.root < (conjRange n).2.nodes.length ∧
  storeClosedB (conjRange n).2 = true ∧
  (conjRange n).1.tail =
    (List.range (n - Vector_tail_off (conjRange n).1)).map
      (Vector_tail_off (conjRange n).1 + ·) ∧
  ∀ i, i < n → Vector_elemAt (conjRange n).2 (conjRange n).1 i = some i

/-- Every allocated node carries exactly WIDTH slots; the allocation
sites (module init, VectorNode_create, the tail leaf fill, clone) all
build 32-slot arrays, so this holds of every reachable store. -/
def storeSlots32B (s : VStore α) : Bool :=
  s.nodes.all (fun d => d.slots.length == WIDTH)

/-- Cons construction (Cons_init in pds.c): store the first element and
the rest pointer; nothing of the rest chain is copied or modified. -/
def pds_cons (first : α) (rest : ConsRest α) : ConsCell α := .cell first rest

/-- The first accessor of a cons cell (Cons_get_first in pds.c). -/
def Cons_first : ConsCell α → α
  | .cell x _ => x

/-- The rest accessor of a cons cell (Cons_get_rest in pds.c). -/
def Cons_rest : ConsCell α → ConsRest α
  | .cell _ r => r

/-!
## Theorems

Support lemmas come first; the claim theorems follow, one per claim, each
carrying the claim id in its doc comment.
-/

/-- Conj always increments the count, in both the tail-room and the
tail-push branch. -/
theorem Vector_conj_cnt_eq (s : VStore α) (v : Vector α) (x : α) :
    (Vector_conj s v x).1.cnt = v.cnt + 1 := by
  unfold Vector_conj
  dsimp only
  split
  · rfl
  · split <;> rfl

/-- Without root overflow, conj leaves the shift unchanged. -/
theorem Vector_conj_shift_of_not_overflow (s : VStore α) (v : Vector α) (x : α)
    (h : ¬ 1 <<< v.shift < v.cnt >>> BITS) :
    (Vector_conj s v x).1.shift = v.shift := by
  unfold Vector_conj
  simp only [if_neg h]
  split <;> rfl

/-- On a tail-push conj with root overflow, the shift grows by BITS. -/
theorem Vector_conj_shift_of_overflow (s : VStore α) (v : Vector α) (x : α)
    (htail : ¬ v.cnt - Vector_tail_off v < WIDTH)
    (h : 1 <<< v.shift < v.cnt >>> BITS) :
    (Vector_conj s v x).1.shift = v.shift + BITS := by
  unfold Vector_conj
  simp only [if_neg htail, if_pos h]

/-- Unrolling the conj scenario one push at a time. -/
theorem conjRange_succ_eq (n : Nat) :
    conjRange (n + 1) = Vector_conj (conjRange n).2 (conjRange n).1 n := by
  unfold conjRange
  rw [List.range_succ, List.foldl_append]
  rfl

/-- The count of the conj scenario equals the number of pushes. -/
theorem conjRange_cnt_eq (n : Nat) : (conjRange n).1.cnt = n := by
  induction n with
  | zero => rfl
  | succ k ih => rw [conjRange_succ_eq, Vector_conj_cnt_eq, ih]

/-- Up to 1056 elements the scenario vector keeps the minimum shift: the
root overflow test compares 1 shifted left by 5 (32) with the count
shifted right by 5, and that only trips once the count passes 1055. -/
theorem conjRange_shift_five (n : Nat) (hn : n ≤ 1056) :
    (conjRange n).1.shift = 5 := by
  induction n with
  | zero => rfl
  | succ k ih =>
    rw [conjRange_succ_eq, Vector_conj_shift_of_not_overflow]
    · exact ih (by omega)
    · rw [ih (by omega), conjRange_cnt_eq]
      simp only [BITS]
      omega

/-- The push that takes the count from 1056 to 1057 is the first to
promote the root, lifting the shift from 5 to 10. -/
theorem conjRange_shift_ten_at_1057 : (conjRange 1057).1.shift = 10 := by
  rw [show (1057 : Nat) = 1056 + 1 from rfl, conjRange_succ_eq,
    Vector_conj_shift_of_overflow]
  · rw [conjRange_shift_five 1056 (by omega)]
    decide
  · unfold Vector_tail_off
    rw [conjRange_cnt_eq]
    decide
  · rw [conjRange_cnt_eq, conjRange_shift_five 1056 (by omega)]
    decide

/-! ### Bit and popcount utilities for the HAMT proofs -/

/-- The defining recurrence of the popcount loop as a rewrite rule. -/
theorem ctpopGo_unfold (f i : Nat) :
    ctpopGo (f + 1) i = if i = 0 then 0 else i % 2 + ctpopGo f (i / 2) := by
  rw [ctpopGo]

theorem ctpopGo_zero_arg (f : Nat) : ctpopGo f 0 = 0 := by
  cases f with
  | zero => rfl
  | succ a => rw [ctpopGo_unfold, if_pos rfl]

theorem ctpop_zero : ctpop 0 = 0 := rfl

theorem ctpopGo_two_pow : ∀ (f j : Nat), j < f → ctpopGo f (2 ^ j) = 1 := by
  intro f
  induction f with
  | zero => intro j h; omega
  | succ a ih =>
    intro j hj
    rw [ctpopGo_unfold, if_neg (by positivity)]
    cases j with
    | zero => simp [ctpopGo_zero_arg]
    | succ b =>
      rw [pow_succ]
      have h1 : 2 ^ b * 2 % 2 = 0 := by omega
      have h2 : 2 ^ b * 2 / 2 = 2 ^ b := by omega
      rw [h1, h2, ih b (by omega)]

/-- Popcount of a power of two inside the 32-bit range. -/
theorem ctpop_two_pow (j : Nat) (hj : j < 32) : ctpop (2 ^ j) = 1 :=
  ctpopGo_two_pow 32 j hj

theorem ctpopGo_and_le : ∀ (f i m : Nat), ctpopGo f (i &&& m) ≤ ctpopGo f i := by
  intro f
  induction f with
  | zero =>
    intro i m
    rfl
  | succ a ih =>
    intro i m
    by_cases h0 : i = 0
    · subst h0
      simp [Nat.zero_and]
    · by_cases hm : i &&& m = 0
      · rw [hm, ctpopGo_zero_arg]
        exact Nat.zero_le _
      · rw [ctpopGo_unfold a (i &&& m), if_neg hm, ctpopGo_unfold a i, if_neg h0,
          Nat.and_div_two]
        have h1 := ih (i / 2) (m / 2)
        have h2 : (i &&& m) % 2 = 1 → i % 2 = 1 := fun h =>
          (Nat.and_mod_two_eq_one.mp h).1
        omega

/-- Masking can only clear bits, so the popcount never grows. -/
theorem ctpop_and_le (i m : Nat) : ctpop (i &&& m) ≤ ctpop i :=
  ctpopGo_and_le 32 i m

theorem and_two_pow_eq_zero_iff (i j : Nat) :
    i &&& 2 ^ j = 0 ↔ i.testBit j = false := by
  constructor
  · intro h
    have h2 := congrArg (Nat.testBit · j) h
    simpa [Nat.testBit_and, Nat.testBit_two_pow_self] using h2
  · intro h
    apply Nat.eq_of_testBit_eq
    intro b
    by_cases hb : b = j
    · subst hb
      simp [Nat.testBit_and, h]
    · simp [Nat.testBit_and, Nat.testBit_two_pow_of_ne (fun hh => hb hh.symm)]

theorem or_two_pow_ne_zero (i j : Nat) : i ||| 2 ^ j ≠ 0 := by
  intro hz
  have h2 := congrArg (Nat.testBit · j) hz
  simp [Nat.testBit_or, Nat.testBit_two_pow_self, Nat.zero_testBit] at h2

theorem ctpopGo_or_two_pow : ∀ (f j i : Nat), j < f → i &&& 2 ^ j = 0 →
    ctpopGo f (i ||| 2 ^ j) = ctpopGo f i + 1 := by
  intro f
  induction f with
  | zero => intro j i hj; omega
  | succ a ih =>
    intro j i hj h
    cases j with
    | zero =>
      rw [pow_zero] at *
      have hmod : i % 2 = 0 := by
        have h2 := Nat.and_one_is_mod i
        omega
      by_cases h0 : i = 0
      · subst h0
        simp [Nat.zero_or, ctpopGo_unfold, ctpopGo_zero_arg]
      · rw [ctpopGo_unfold, if_neg (by simpa using or_two_pow_ne_zero i 0),
          ctpopGo_unfold a i, if_neg h0]
        have hm1 : (i ||| 1) % 2 = 1 := Nat.or_mod_two_eq_one.mpr (Or.inr rfl)
        have hd : (i ||| 1) / 2 = i / 2 := by
          rw [Nat.or_div_two]
          norm_num
        rw [hm1, hd]
        omega
    | succ b =>
      by_cases h0 : i = 0
      · subst h0
        rw [Nat.zero_or, ctpopGo_two_pow (a + 1) (b + 1) hj, ctpopGo_zero_arg]
      · rw [ctpopGo_unfold, if_neg (or_two_pow_ne_zero i (b + 1)),
          ctpopGo_unfold a i, if_neg h0]
        have hm2 : 2 ^ (b + 1) % 2 = 0 := by
          rw [pow_succ]
          omega
        have hmod : (i ||| 2 ^ (b + 1)) % 2 = i % 2 := by
          rcases Nat.mod_two_eq_zero_or_one i with hh | hh
          · have hc : ¬ ((i ||| 2 ^ (b + 1)) % 2 = 1) := fun hc => by
              rcases Nat.or_mod_two_eq_one.mp hc with h1 | h1 <;> omega
            omega
          · have h1 : (i ||| 2 ^ (b + 1)) % 2 = 1 :=
              Nat.or_mod_two_eq_one.mpr (Or.inl hh)
            omega
        have hdiv : (i ||| 2 ^ (b + 1)) / 2 = i / 2 ||| 2 ^ b := by
          rw [Nat.or_div_two, pow_succ]
          have h3 : 2 ^ b * 2 / 2 = 2 ^ b := by omega
          rw [h3]
        have hand : i / 2 &&& 2 ^ b = 0 := by
          have h4 := Nat.and_div_two (a := i) (b := 2 ^ (b + 1))
          rw [h] at h4
          have h5 : 2 ^ (b + 1) / 2 = 2 ^ b := by
            rw [pow_succ]
            omega
          rw [h5] at h4
          omega
        rw [hmod, hdiv, ih b (i / 2) (by omega) hand]
        omega

/-- Adding one fresh bit inside the 32-bit range bumps the popcount by
exactly one. -/
theorem ctpop_or_two_pow (j i : Nat) (hj : j < 32) (h : i &&& 2 ^ j = 0) :
    ctpop (i ||| 2 ^ j) = ctpop i + 1 :=
  ctpopGo_or_two_pow 32 j i hj h

/-- The five-bit slot of a hash is below 32. -/
theorem mask_hash_lt32 (h s : Nat) : mask_hash h s < 32 := by
  have h1 : mask_hash h s ≤ MASK := Nat.and_le_right
  have h2 : MASK < 32 := by decide
  omega

theorem two_pow_and_two_pow_sub_one (j : Nat) : 2 ^ j &&& (2 ^ j - 1) = 0 := by
  rw [Nat.and_pow_two_sub_one_eq_mod]
  exact Nat.mod_self _

theorem or_two_pow_and_sub_one (i j : Nat) :
    (i ||| 2 ^ j) &&& (2 ^ j - 1) = i &&& (2 ^ j - 1) := by
  rw [Nat.and_pow_two_sub_one_eq_mod, Nat.and_pow_two_sub_one_eq_mod]
  apply Nat.eq_of_testBit_eq
  intro b
  rw [Nat.testBit_mod_two_pow, Nat.testBit_mod_two_pow, Nat.testBit_or]
  by_cases hb : b < j
  · simp [hb, Nat.testBit_two_pow_of_ne (by omega : j ≠ b)]
  · simp [hb]

theorem xor_two_pow_clears (i j : Nat) (h : i.testBit j = true) :
    (i ^^^ 2 ^ j) &&& 2 ^ j = 0 := by
  rw [and_two_pow_eq_zero_iff]
  simp [Nat.testBit_xor, h, Nat.testBit_two_pow_self]

theorem mask_hash_lt (h s : Nat) : mask_hash h s < WIDTH := by
  have h1 : mask_hash h s ≤ MASK := Nat.and_le_right
  have h2 : MASK < WIDTH := by decide
  omega

theorem bitpos_eq (h s : Nat) : bitpos h s = 2 ^ mask_hash h s := by
  rw [bitpos, Nat.shiftLeft_eq, one_mul]

theorem two_pow_and_two_pow_ne (a b : Nat) (hne : a ≠ b) : 2 ^ a &&& 2 ^ b = 0 := by
  rw [and_two_pow_eq_zero_iff]
  exact Nat.testBit_two_pow_of_ne hne


/-! ### Well-formedness transport lemmas -/

/-! List-level well-formedness transport lemmas. -/

theorem binWFB_iff {hash : κ → Nat} : ∀ {arr : List (BinEntry κ ν)},
    binWFB hash arr = true ↔ ∀ e ∈ arr, entryWFB hash e = true := by
  intro arr
  induction arr with
  | nil => simp [binWFB]
  | cons e rest ih =>
    cases e with
    | kv k v =>
      simp only [binWFB, List.mem_cons]
      constructor
      · intro h e2 he2
        rcases he2 with rfl | he2
        · rfl
        · exact ih.mp h e2 he2
      · intro h
        exact ih.mpr (fun e2 he2 => h e2 (Or.inr he2))
    | sub n =>
      simp only [binWFB, Bool.and_eq_true, List.mem_cons]
      constructor
      · rintro ⟨h1, h2⟩ e2 he2
        rcases he2 with rfl | he2
        · exact h1
        · exact ih.mp h2 e2 he2
      · intro h
        exact ⟨h (.sub n) (Or.inl rfl), ih.mpr (fun e2 he2 => h e2 (Or.inr he2))⟩

theorem slotsWFB_iff {hash : κ → Nat} : ∀ {l : List (Option (MapNode κ ν))},
    slotsWFB hash l = true ↔ ∀ o ∈ l, slotWFB hash o = true := by
  intro l
  induction l with
  | nil => simp [slotsWFB]
  | cons o rest ih =>
    cases o with
    | none =>
      simp only [slotsWFB, List.mem_cons]
      constructor
      · intro h o2 ho2
        rcases ho2 with rfl | ho2
        · rfl
        · exact ih.mp h o2 ho2
      · intro h
        exact ih.mpr (fun o2 ho2 => h o2 (Or.inr ho2))
    | some n =>
      simp only [slotsWFB, Bool.and_eq_true, List.mem_cons]
      constructor
      · rintro ⟨h1, h2⟩ o2 ho2
        rcases ho2 with rfl | ho2
        · exact h1
        · exact ih.mp h2 o2 ho2
      · intro h
        exact ⟨h (some n) (Or.inl rfl), ih.mpr (fun o2 ho2 => h o2 (Or.inr ho2))⟩

theorem binWFB_get {hash : κ → Nat} {arr : List (BinEntry κ ν)} {idx : Nat}
    {n : MapNode κ ν} (hwf : binWFB hash arr = true)
    (hg : arr.get? idx = some (.sub n)) : nodeWFB hash n = true :=
  binWFB_iff.mp hwf _ (List.get?_mem hg)

theorem slotsWFB_get {hash : κ → Nat} {l : List (Option (MapNode κ ν))} {idx : Nat}
    {n : MapNode κ ν} (hwf : slotsWFB hash l = true)
    (hg : l.get? idx = some (some n)) : nodeWFB hash n = true :=
  slotsWFB_iff.mp hwf _ (List.get?_mem hg)

theorem binWFB_set {hash : κ → Nat} {arr : List (BinEntry κ ν)} {idx : Nat}
    {e : BinEntry κ ν} (hwf : binWFB hash arr = true)
    (he : entryWFB hash e = true) : binWFB hash (arr.set idx e) = true := by
  rw [binWFB_iff]
  intro e2 he2
  rcases List.mem_or_eq_of_mem_set he2 with hm | rfl
  · exact binWFB_iff.mp hwf e2 hm
  · exact he

theorem slotsWFB_set {hash : κ → Nat} {l : List (Option (MapNode κ ν))} {idx : Nat}
    {o : Option (MapNode κ ν)} (hwf : slotsWFB hash l = true)
    (ho : slotWFB hash o = true) : slotsWFB hash (l.set idx o) = true := by
  rw [slotsWFB_iff]
  intro o2 ho2
  rcases List.mem_or_eq_of_mem_set ho2 with hm | rfl
  · exact slotsWFB_iff.mp hwf o2 hm
  · exact ho

theorem binWFB_insert {hash : κ → Nat} {arr : List (BinEntry κ ν)} {idx : Nat}
    {e : BinEntry κ ν} (hwf : binWFB hash arr = true)
    (he : entryWFB hash e = true) :
    binWFB hash (arr.take idx ++ e :: arr.drop idx) = true := by
  rw [binWFB_iff]
  intro e2 he2
  rw [List.mem_append, List.mem_cons] at he2
  rcases he2 with h2 | h2 | h2
  · exact binWFB_iff.mp hwf e2 (List.mem_of_mem_take h2)
  · subst h2
    exact he
  · exact binWFB_iff.mp hwf e2 (List.mem_of_mem_drop h2)

theorem binWFB_eraseIdx {hash : κ → Nat} {arr : List (BinEntry κ ν)} {idx : Nat}
    (hwf : binWFB hash arr = true) : binWFB hash (arr.eraseIdx idx) = true := by
  rw [binWFB_iff]
  intro e2 he2
  exact binWFB_iff.mp hwf e2 (List.mem_of_mem_eraseIdx he2)

theorem get?_insert_self {β : Type} (l : List β) (e : β) (idx : Nat)
    (h : idx ≤ l.length) :
    (l.take idx ++ e :: l.drop idx).get? idx = some e := by
  rw [List.get?_append_right (by simp [List.length_take])]
  simp [List.length_take, Nat.min_eq_left h]

theorem length_insert {β : Type} (l : List β) (e : β) (idx : Nat)
    (h : idx ≤ l.length) :
    (l.take idx ++ e :: l.drop idx).length = l.length + 1 := by
  simp [List.length_append, List.length_take, List.length_drop]
  omega



/-! Collision-node entry list lemmas. -/

theorem findIdx?_le {β : Type} (p : β → Bool) :
    ∀ (l : List β) (i idx : Nat), List.findIdx? p l i = some idx → i ≤ idx := by
  intro l
  induction l with
  | nil => intro i idx h; simp [List.findIdx?_nil] at h
  | cons e rest ih =>
    intro i idx h
    rw [List.findIdx?_cons] at h
    by_cases hp : p e = true
    · rw [if_pos hp] at h
      injection h with h2
      omega
    · rw [if_neg hp] at h
      have := ih (i + 1) idx h
      omega

theorem find?_set_found {k : κ} (v : ν) :
    ∀ (entries : List (κ × ν)) (i idx : Nat),
      List.findIdx? (fun e => e.1 == k) entries i = some idx →
      ((entries.set (idx - i) (k, v)).find? (fun e => e.1 == k)) = some (k, v) := by
  intro entries
  induction entries with
  | nil => intro i idx h; simp [List.findIdx?_nil] at h
  | cons e rest ih =>
    intro i idx h
    rw [List.findIdx?_cons] at h
    by_cases hp : (e.1 == k) = true
    · rw [if_pos hp] at h
      have hidx : idx = i := by
        injection h with h2
        omega
      subst hidx
      simp only [Nat.sub_self, List.set_cons_zero]
      rw [List.find?_cons]
      simp
    · rw [if_neg hp] at h
      have hle := findIdx?_le _ rest (i + 1) idx h
      have hsub : idx - i = (idx - (i + 1)) + 1 := by omega
      rw [hsub, List.set_cons_succ, List.find?_cons]
      simp only [hp]
      exact ih (i + 1) idx h

theorem find?_erase_distinct {k : κ} :
    ∀ (entries : List (κ × ν)) (i idx : Nat),
      List.findIdx? (fun e => e.1 == k) entries i = some idx →
      distinctKeysB entries = true →
      ((entries.eraseIdx (idx - i)).find? (fun e => e.1 == k)) = none := by
  intro entries
  induction entries with
  | nil => intro i idx h; simp [List.findIdx?_nil] at h
  | cons e rest ih =>
    intro i idx h hd
    rw [List.findIdx?_cons] at h
    rw [distinctKeysB] at hd
    rw [Bool.and_eq_true, List.all_eq_true] at hd
    by_cases hp : (e.1 == k) = true
    · rw [if_pos hp] at h
      have hidx : idx = i := by
        injection h with h2
        omega
      subst hidx
      simp only [Nat.sub_self, List.eraseIdx_cons_zero]
      rw [List.find?_eq_none]
      intro e2 he2
      have h3 := hd.1 e2 he2
      have h4 : e.1 = k := by simpa using hp
      simp only [Bool.not_eq_true'] at h3
      rw [h4] at h3
      simp [h3]
    · rw [if_neg hp] at h
      have hle := findIdx?_le _ rest (i + 1) idx h
      have hsub : idx - i = (idx - (i + 1)) + 1 := by omega
      rw [hsub, List.eraseIdx_cons_succ, List.find?_cons]
      simp only [hp]
      exact ih (i + 1) idx h hd.2

theorem findIdx?_none_find?_none {k : κ} {entries : List (κ × ν)}
    (h : List.findIdx? (fun e => e.1 == k) entries = none) :
    entries.find? (fun e => e.1 == k) = none := by
  rw [List.find?_eq_none]
  intro e he
  have h2 := List.findIdx?_eq_none_iff.mp h e he
  simp [h2]

theorem find?_append_new {k : κ} {v : ν} {entries : List (κ × ν)}
    (h : List.findIdx? (fun e => e.1 == k) entries = none) :
    (entries ++ [(k, v)]).find? (fun e => e.1 == k) = some (k, v) := by
  rw [List.find?_append, findIdx?_none_find?_none h]
  simp [List.find?_cons]

theorem findIdx?_get_key {k : κ} :
    ∀ (entries : List (κ × ν)) (i idx : Nat),
      List.findIdx? (fun e => e.1 == k) entries i = some idx →
      ∃ v0, entries.get? (idx - i) = some (k, v0) := by
  intro entries
  induction entries with
  | nil => intro i idx h; simp [List.findIdx?_nil] at h
  | cons e rest ih =>
    intro i idx h
    rw [List.findIdx?_cons] at h
    by_cases hp : (e.1 == k) = true
    · rw [if_pos hp] at h
      have hidx : idx = i := by
        injection h with h2
        omega
      subst hidx
      refine ⟨e.2, ?_⟩
      have h4 : e.1 = k := by simpa using hp
      simp [Nat.sub_self, ← h4]
    · rw [if_neg hp] at h
      have hle := findIdx?_le _ rest (i + 1) idx h
      have hsub : idx - i = (idx - (i + 1)) + 1 := by omega
      rw [hsub]
      exact ih (i + 1) idx h

theorem distinctKeysB_set {k : κ} {v : ν} :
    ∀ (entries : List (κ × ν)) (j : Nat) (v0 : ν),
      distinctKeysB entries = true →
      entries.get? j = some (k, v0) →
      distinctKeysB (entries.set j (k, v)) = true := by
  intro entries
  induction entries with
  | nil => intro j v0 _ hg; simp at hg
  | cons e rest ih =>
    intro j v0 hd hg
    rw [distinctKeysB, Bool.and_eq_true, List.all_eq_true] at hd
    cases j with
    | zero =>
      simp only [List.get?] at hg
      injection hg with hg
      rw [List.set_cons_zero, distinctKeysB, Bool.and_eq_true, List.all_eq_true]
      refine ⟨fun e2 he2 => ?_, hd.2⟩
      have h2 := hd.1 e2 he2
      have h3 : e.1 = k := congrArg Prod.fst hg
      rw [← h3]
      exact h2
    | succ j2 =>
      simp only [List.get?] at hg
      rw [List.set_cons_succ, distinctKeysB, Bool.and_eq_true, List.all_eq_true]
      constructor
      · intro e2 he2
        rcases List.mem_or_eq_of_mem_set he2 with hm | rfl
        · exact hd.1 e2 hm
        · have h2 := hd.1 _ (List.get?_mem hg)
          simpa using h2
      · exact ih j2 v0 hd.2 hg

theorem distinctKeysB_append {k : κ} {v : ν} {entries : List (κ × ν)}
    (h : ∀ e ∈ entries, (e.1 == k) = false)
    (hd : distinctKeysB entries = true) :
    distinctKeysB (entries ++ [(k, v)]) = true := by
  induction entries with
  | nil => simp [distinctKeysB]
  | cons e rest ih =>
    have hp : (e.1 == k) = false := h e (List.mem_cons_self e rest)
    rw [distinctKeysB, Bool.and_eq_true, List.all_eq_true] at hd
    rw [List.cons_append, distinctKeysB, Bool.and_eq_true, List.all_eq_true]
    constructor
    · intro e2 he2
      rw [List.mem_append, List.mem_cons] at he2
      rcases he2 with h2 | h2 | h2
      · exact hd.1 e2 h2
      · subst h2
        have hne : ¬ e.1 = k := by simpa using hp
        have hne2 : ¬ k = e.1 := fun hh => hne (Eq.symm hh)
        simpa using hne2
      · simp at h2
    · exact ih (fun e2 he2 => h e2 (List.mem_cons_of_mem e he2)) hd.2

theorem hashAll_set {hash : κ → Nat} {hashv : Nat} {k : κ} {v : ν}
    {entries : List (κ × ν)} (j : Nat)
    (hh : entries.all (fun e => hash e.1 == hashv) = true)
    (hk : hash k = hashv) :
    (entries.set j (k, v)).all (fun e => hash e.1 == hashv) = true := by
  rw [List.all_eq_true]
  intro e2 he2
  rcases List.mem_or_eq_of_mem_set he2 with hm | rfl
  · exact List.all_eq_true.mp hh e2 hm
  · simp [hk]

theorem hashAll_append {hash : κ → Nat} {hashv : Nat} {k : κ} {v : ν}
    {entries : List (κ × ν)}
    (hh : entries.all (fun e => hash e.1 == hashv) = true)
    (hk : hash k = hashv) :
    (entries ++ [(k, v)]).all (fun e => hash e.1 == hashv) = true := by
  rw [List.all_append, hh]
  simp [hk]


/-! ### Unfolding lemmas for find and dissoc -/

theorem find_bin_eq (bitmap : Nat) (arr : List (BinEntry κ ν)) (shift h : Nat)
    (k : κ) :
    (MapNode.bin bitmap arr).find shift h k =
      if bitmap &&& bitpos h shift = 0 then none
      else
        match arr.get? (bitmap_index bitmap (bitpos h shift)) with
        | none => none
        | some (.kv k0 v0) => if k = k0 then some v0 else none
        | some (.sub n) => n.find (shift + BITS) h k := by
  rw [MapNode.find]
  by_cases hbit : bitmap &&& bitpos h shift = 0
  · simp only [if_pos hbit]
  · simp only [if_neg hbit]
    cases hg : arr.get? (bitmap_index bitmap (bitpos h shift)) with
    | none => simp only [hg]
    | some e => cases e <;> simp only [hg]

theorem find_arrN_eq (count : Int) (slots : List (Option (MapNode κ ν)))
    (shift h : Nat) (k : κ) :
    (MapNode.arrN count slots).find shift h k =
      match slots.get? (mask_hash h shift) with
      | none => none
      | some none => none
      | some (some n) => n.find (shift + BITS) h k := by
  rw [MapNode.find]
  cases hg : slots.get? (mask_hash h shift) with
  | none => simp only [hg]
  | some o => cases o <;> simp only [hg]

theorem find_hcn_eq (hashv : Nat) (count : Int) (entries : List (κ × ν))
    (shift h : Nat) (k : κ) :
    (MapNode.hcn hashv count entries).find shift h k =
      (entries.find? (fun e => e.1 == k)).map (·.2) := by
  rw [MapNode.find]

theorem dissoc_fuel_zero (n : MapNode κ ν) (shift h : Nat) (k : κ) :
    node_dissoc 0 n shift h k = none := by
  cases n <;> rfl

theorem dissoc_bin_eq (fuel bitmap : Nat) (arr : List (BinEntry κ ν))
    (shift h : Nat) (k : κ) :
    node_dissoc (fuel + 1) (MapNode.bin bitmap arr) shift h k =
      (if bitmap &&& bitpos h shift = 0 then some .same
      else
        match arr.get? (bitmap_index bitmap (bitpos h shift)) with
        | none => some .same
        | some (.sub n) => do
          let res ← node_dissoc fuel n (shift + BITS) h k
          match res with
          | .same => some .same
          | .node n2 => some (.node (.bin bitmap
              (arr.set (bitmap_index bitmap (bitpos h shift)) (.sub n2))))
          | .gone =>
            if bitmap = bitpos h shift then some .gone
            else some (.node (.bin (bitmap ^^^ bitpos h shift)
              (arr.eraseIdx (bitmap_index bitmap (bitpos h shift)))))
        | some (.kv k0 _) =>
          if k = k0 then
            if bitmap = bitpos h shift then some .gone
            else some (.node (.bin (bitmap ^^^ bitpos h shift)
              (arr.eraseIdx (bitmap_index bitmap (bitpos h shift)))))
          else some .same) := by
  rw [node_dissoc]
  by_cases hbit : bitmap &&& bitpos h shift = 0
  · simp only [if_pos hbit]
  · simp only [if_neg hbit]
    cases hg : arr.get? (bitmap_index bitmap (bitpos h shift)) with
    | none => simp only [hg]
    | some e =>
      cases e with
      | kv k0 v0 => simp only [hg]; try rfl
      | sub n =>
        simp only [hg]
        cases hr : node_dissoc fuel n (shift + BITS) h k with
        | none => rfl
        | some res => cases res <;> rfl

theorem dissoc_arrN_eq (fuel : Nat) (count : Int)
    (slots : List (Option (MapNode κ ν))) (shift h : Nat) (k : κ) :
    node_dissoc (fuel + 1) (MapNode.arrN count slots) shift h k =
      (match slots.get? (mask_hash h shift) with
      | none => some .same
      | some none => some .same
      | some (some n) => do
        let res ← node_dissoc fuel n (shift + BITS) h k
        match res with
        | .same => some .same
        | .node n2 => some (.node (.arrN count
            (slots.set (mask_hash h shift) (some n2))))
        | .gone =>
          if count ≤ (WIDTH : Int) / 4 then
            some (.node (ArrayNode_pack slots (mask_hash h shift)))
          else some (.node (.arrN (count - 1)
            (slots.set (mask_hash h shift) none)))) := by
  rw [node_dissoc]
  cases hg : slots.get? (mask_hash h shift) with
  | none => simp only [hg]
  | some o =>
    cases o with
    | none => simp only [hg]
    | some n =>
      simp only [hg]
      cases hr : node_dissoc fuel n (shift + BITS) h k with
      | none => rfl
      | some res => cases res <;> rfl

theorem dissoc_hcn_eq (fuel hashv : Nat) (count : Int) (entries : List (κ × ν))
    (shift h : Nat) (k : κ) :
    node_dissoc (fuel + 1) (MapNode.hcn hashv count entries) shift h k =
      (match hcn_find_index entries k with
      | none => some .same
      | some idx =>
        if count = 1 then some .gone
        else some (.node (.hcn hashv (count - 1) (entries.eraseIdx idx)))) := rfl

/-! ### Dissoc soundness -/

theorem foldl_or_bit_of_ne {γ : Type} (idx : Nat) :
    ∀ (l : List (Nat × γ)) (acc : Nat), (∀ p ∈ l, p.1 ≠ idx) →
      acc &&& 2 ^ idx = 0 →
      (l.foldl (fun b p => b ||| (1 <<< p.1)) acc) &&& 2 ^ idx = 0 := by
  intro l
  induction l with
  | nil => intro acc _ ha; exact ha
  | cons p rest ih =>
    intro acc hne ha
    rw [List.foldl_cons]
    refine ih (acc ||| (1 <<< p.1)) (fun q hq => hne q (List.mem_cons_of_mem p hq)) ?_
    rw [and_two_pow_eq_zero_iff] at ha ⊢
    rw [Nat.testBit_or, ha, Nat.shiftLeft_eq, one_mul]
    simp [Nat.testBit_two_pow_of_ne (hne p (List.mem_cons_self p rest))]

theorem pack_find_none (slots : List (Option (MapNode κ ν))) (shift h : Nat)
    (k : κ) :
    (ArrayNode_pack slots (mask_hash h shift) : MapNode κ ν).find shift h k =
      none := by
  unfold ArrayNode_pack
  rw [find_bin_eq]
  rw [if_pos]
  rw [bitpos_eq]
  refine foldl_or_bit_of_ne (mask_hash h shift) _ 0 ?_ (by simp [Nat.zero_and])
  intro p hp
  rw [List.mem_filterMap] at hp
  obtain ⟨a, _, hfa⟩ := hp
  cases hga : slots.get? a with
  | none =>
    simp only [hga] at hfa
    exact Option.noConfusion hfa
  | some o =>
    cases o with
    | none =>
      simp only [hga] at hfa
      exact Option.noConfusion hfa
    | some n =>
      simp only [hga] at hfa
      by_cases hai : a ≠ mask_hash h shift
      · rw [if_pos hai] at hfa
        injection hfa with hfa2
        rw [← hfa2]
        exact hai
      · rw [if_neg hai] at hfa
        cases hfa

theorem node_dissoc_sound (hash : κ → Nat) (k : κ) :
    ∀ (fuel : Nat) (n : MapNode κ ν) (shift : Nat),
      nodeWFB hash n = true →
      (node_dissoc fuel n shift (hash k) k = some .same →
        n.find shift (hash k) k = none) ∧
      (∀ n2, node_dissoc fuel n shift (hash k) k = some (.node n2) →
        n2.find shift (hash k) k = none) := by
  intro fuel
  induction fuel with
  | zero =>
    intro n shift _
    constructor
    · intro hd
      rw [dissoc_fuel_zero] at hd
      cases hd
    · intro n2 hd
      rw [dissoc_fuel_zero] at hd
      cases hd
  | succ fuel ih =>
    intro n shift hwf
    cases n with
    | bin bitmap arr =>
      rw [nodeWFB, Bool.and_eq_true] at hwf
      rw [dissoc_bin_eq]
      by_cases hbit : bitmap &&& bitpos (hash k) shift = 0
      · rw [if_pos hbit]
        refine ⟨fun _ => ?_, fun n2 hd => by cases hd⟩
        rw [find_bin_eq, if_pos hbit]
      · rw [if_neg hbit]
        have htb : bitmap.testBit (mask_hash (hash k) shift) = true := by
          rw [bitpos_eq] at hbit
          rcases Bool.eq_false_or_eq_true
            (bitmap.testBit (mask_hash (hash k) shift)) with ht | hf
          · exact ht
          · exact absurd ((and_two_pow_eq_zero_iff _ _).mpr hf) hbit
        cases hg : arr.get? (bitmap_index bitmap (bitpos (hash k) shift)) with
        | none =>
          simp only [hg]
          refine ⟨fun _ => ?_, fun n2 hd => by cases hd⟩
          rw [find_bin_eq, if_neg hbit]
          simp only [hg]
        | some entry =>
          cases entry with
          | kv k0 v0 =>
            simp only [hg]
            by_cases hk0 : k = k0
            · rw [if_pos hk0]
              by_cases hbm : bitmap = bitpos (hash k) shift
              · rw [if_pos hbm]
                exact ⟨(fun hd => by cases hd), (fun n2 hd => by cases hd)⟩
              · rw [if_neg hbm]
                refine ⟨(fun hd => by cases hd), fun n2 hd => ?_⟩
                injection hd with hd2
                cases hd2
                rw [find_bin_eq, if_pos]
                rw [bitpos_eq]
                exact xor_two_pow_clears bitmap _ htb
            · rw [if_neg hk0]
              refine ⟨fun _ => ?_, fun n2 hd => by cases hd⟩
              rw [find_bin_eq, if_neg hbit]
              simp only [hg]
              rw [if_neg hk0]
          | sub nsub =>
            simp only [hg]
            have hwfs : nodeWFB hash nsub = true := binWFB_get hwf.2 hg
            have IH := ih nsub (shift + BITS) hwfs
            cases hds : node_dissoc fuel nsub (shift + BITS) (hash k) k with
            | none =>
              exact ⟨(fun hd => by cases hd), (fun n2 hd => by cases hd)⟩
            | some r =>
              try simp only [Option.some_bind]
              cases r with
              | same =>
                refine ⟨fun _ => ?_, fun n2 hd => by cases hd⟩
                rw [find_bin_eq, if_neg hbit]
                simp only [hg]
                exact IH.1 hds
              | node m2 =>
                refine ⟨(fun hd => by cases hd), fun n2 hd => ?_⟩
                injection hd with hd2
                cases hd2
                rw [find_bin_eq, if_neg hbit]
                simp only [List.get?_set_eq, hg, Option.map_some']
                exact IH.2 m2 hds
              | gone =>
                by_cases hbm : bitmap = bitpos (hash k) shift
                · rw [if_pos hbm]
                  exact ⟨(fun hd => by cases hd), (fun n2 hd => by cases hd)⟩
                · rw [if_neg hbm]
                  refine ⟨(fun hd => by cases hd), fun n2 hd => ?_⟩
                  injection hd with hd2
                  cases hd2
                  rw [find_bin_eq, if_pos]
                  rw [bitpos_eq]
                  exact xor_two_pow_clears bitmap _ htb
    | arrN count slots =>
      rw [nodeWFB] at hwf
      rw [dissoc_arrN_eq]
      cases hg : slots.get? (mask_hash (hash k) shift) with
      | none =>
        simp only [hg]
        refine ⟨fun _ => ?_, fun n2 hd => by cases hd⟩
        rw [find_arrN_eq]
        simp only [hg]
      | some o =>
        cases o with
        | none =>
          simp only [hg]
          refine ⟨fun _ => ?_, fun n2 hd => by cases hd⟩
          rw [find_arrN_eq]
          simp only [hg]
        | some nsub =>
          simp only [hg]
          have hwfs : nodeWFB hash nsub = true := slotsWFB_get hwf hg
          have IH := ih nsub (shift + BITS) hwfs
          cases hds : node_dissoc fuel nsub (shift + BITS) (hash k) k with
          | none =>
            exact ⟨(fun hd => by cases hd), (fun n2 hd => by cases hd)⟩
          | some r =>
            try simp only [Option.some_bind]
            cases r with
            | same =>
              refine ⟨fun _ => ?_, fun n2 hd => by cases hd⟩
              rw [find_arrN_eq]
              simp only [hg]
              exact IH.1 hds
            | node m2 =>
              refine ⟨(fun hd => by cases hd), fun n2 hd => ?_⟩
              injection hd with hd2
              cases hd2
              rw [find_arrN_eq]
              simp only [List.get?_set_eq, hg, Option.map_some']
              exact IH.2 m2 hds
            | gone =>
              by_cases hcnt : count ≤ (WIDTH : Int) / 4
              · rw [if_pos hcnt]
                refine ⟨(fun hd => by cases hd), fun n2 hd => ?_⟩
                injection hd with hd2
                cases hd2
                exact pack_find_none slots shift (hash k) k
              · rw [if_neg hcnt]
                refine ⟨(fun hd => by cases hd), fun n2 hd => ?_⟩
                injection hd with hd2
                cases hd2
                rw [find_arrN_eq]
                simp only [List.get?_set_eq, hg, Option.map_some']
                rfl
    | hcn hashv count entries =>
      rw [nodeWFB, Bool.and_eq_true] at hwf
      rw [dissoc_hcn_eq]
      cases hfi : hcn_find_index entries k with
      | none =>
        simp only [hfi]
        refine ⟨fun _ => ?_, fun n2 hd => by cases hd⟩
        rw [hcn_find_index] at hfi
        rw [find_hcn_eq, findIdx?_none_find?_none hfi]
        rfl
      | some idx =>
        simp only [hfi]
        by_cases hc1 : count = 1
        · rw [if_pos hc1]
          exact ⟨(fun hd => by cases hd), (fun n2 hd => by cases hd)⟩
        · rw [if_neg hc1]
          refine ⟨(fun hd => by cases hd), fun n2 hd => ?_⟩
          injection hd with hd2
          cases hd2
          rw [hcn_find_index] at hfi
          rw [find_hcn_eq]
          have h2 := find?_erase_distinct entries 0 idx (by simpa using hfi) hwf.1
          simp only [Nat.sub_zero] at h2
          rw [h2]
          rfl

/-! ### Unfolding lemmas for assoc -/

theorem assoc_fuel_zero (hash : κ → Nat) (n : MapNode κ ν) (shift h : Nat)
    (k : κ) (v : ν) : node_assoc hash 0 n shift h k v = none := by
  rw [node_assoc]

theorem assoc_bin_eq (hash : κ → Nat) (fuel bitmap : Nat)
    (arr : List (BinEntry κ ν)) (shift h : Nat) (k : κ) (v : ν) :
    node_assoc hash (fuel + 1) (.bin bitmap arr) shift h k v =
      (let bit := bitpos h shift
      let idx := bitmap_index bitmap bit
      if bitmap &&& bit ≠ 0 then
        match arr.get? idx with
        | none => none
        | some (.sub n) => do
          let res ← node_assoc hash fuel n (shift + BITS) h k v
          match res with
          | .same => some .same
          | .node n2 added => some (.node (.bin bitmap (arr.set idx (.sub n2))) added)
        | some (.kv k0 v0) =>
          if k = k0 then
            if v = v0 then some .same
            else some (.node (.bin bitmap (arr.set idx (.kv k0 v))) false)
          else do
            let nn ← create_node hash fuel (shift + BITS) k0 v0 h k v
            some (.node (.bin bitmap (arr.set idx (.sub nn))) true)
      else
        let n := ctpop bitmap
        if WIDTH / 2 ≤ n then do
          let jdx := mask_hash h shift
          let res ← node_assoc hash fuel (.bin 0 []) (shift + BITS) h k v
          let start := (List.replicate WIDTH (none : Option (MapNode κ ν))).set jdx
            (some (res.result (.bin 0 [])))
          let slots ← promote_slots hash fuel (shift + BITS)
            ((bit_positions bitmap).zip arr) start
          some (.node (.arrN (n + 1) slots) res.addedFlag)
        else
          some (.node
            (.bin (bitmap ||| bit) (arr.take idx ++ .kv k v :: arr.drop idx)) true)) := by
  rw [node_assoc]
  by_cases hbit : bitmap &&& bitpos h shift ≠ 0
  · simp only [if_pos hbit]
    cases hg : arr.get? (bitmap_index bitmap (bitpos h shift)) with
    | none => simp only [hg]
    | some e =>
      cases e with
      | kv k0 v0 => simp only [hg]; try rfl
      | sub n =>
        simp only [hg]
        cases hr : node_assoc hash fuel n (shift + BITS) h k v with
        | none => rfl
        | some res => cases res <;> rfl
  · simp only [if_neg hbit]
    try rfl

theorem assoc_arrN_eq (hash : κ → Nat) (fuel : Nat) (count : Int)
    (slots : List (Option (MapNode κ ν))) (shift h : Nat) (k : κ) (v : ν) :
    node_assoc hash (fuel + 1) (.arrN count slots) shift h k v =
      (let idx := mask_hash h shift
      match slots.get? idx with
      | none => none
      | some none => do
        let res ← node_assoc hash fuel (.bin 0 []) (shift + BITS) h k v
        some (.node (.arrN (count + 1) (slots.set idx (some (res.result (.bin 0 []))))) true)
      | some (some n) => do
        let res ← node_assoc hash fuel n (shift + BITS) h k v
        match res with
        | .same => some .same
        | .node n2 added => some (.node (.arrN count (slots.set idx (some n2))) added)) := by
  rw [node_assoc]
  cases hg : slots.get? (mask_hash h shift) with
  | none => simp only [hg]
  | some o =>
    cases o with
    | none => simp only [hg]; try rfl
    | some n =>
      simp only [hg]
      cases hr : node_assoc hash fuel n (shift + BITS) h k v with
      | none => rfl
      | some res => cases res <;> rfl

theorem assoc_hcn_eq (hash : κ → Nat) (fuel hashv : Nat) (count : Int)
    (entries : List (κ × ν)) (shift h : Nat) (k : κ) (v : ν) :
    node_assoc hash (fuel + 1) (.hcn hashv count entries) shift h k v =
      (if h = hashv then
        match hcn_find_index entries k with
        | some idx =>
          match entries.get? idx with
          | some (_, v0) =>
            if v = v0 then some .same
            else some (.node (.hcn hashv count (entries.set idx (k, v))) false)
          | none => none
        | none =>
          some (.node (.hcn hashv (count + 1) (entries ++ [(k, v)])) true)
      else do
        let res ← node_assoc hash fuel
          (.bin (bitpos hashv shift) [.sub (.hcn hashv count entries)]) shift h k v
        some (.node (res.result (.bin (bitpos hashv shift) [.sub (.hcn hashv count entries)]))
          res.addedFlag)) := by
  rw [node_assoc]
  by_cases hh : h = hashv
  · simp only [if_pos hh]
    cases hf : hcn_find_index entries k with
    | none => simp only [hf]; try rfl
    | some idx =>
      simp only [hf]
      cases hg : entries.get? idx with
      | none => simp only [hg]; try rfl
      | some p =>
        obtain ⟨k0, v0⟩ := p
        simp only [hg]
        try rfl
  · simp only [if_neg hh]
    try rfl

theorem create_fuel_zero (hash : κ → Nat) (shift : Nat) (k1 : κ) (v1 : ν)
    (h2 : Nat) (k2 : κ) (v2 : ν) :
    create_node hash 0 shift k1 v1 h2 k2 v2 = none := rfl

theorem create_eq (hash : κ → Nat) (fuel shift : Nat) (k1 : κ) (v1 : ν)
    (h2 : Nat) (k2 : κ) (v2 : ν) :
    create_node hash (fuel + 1) shift k1 v1 h2 k2 v2 =
      (let h1 := hash k1
      if h1 = h2 then
        some (.hcn h1 2 [(k1, v1), (k2, v2)])
      else do
        let r1 ← node_assoc hash fuel (.bin 0 []) shift h1 k1 v1
        let n1 := r1.result (.bin 0 [])
        let r2 ← node_assoc hash fuel n1 shift h2 k2 v2
        some (r2.result n1)) := rfl

theorem promote_nil_eq (hash : κ → Nat) (fuel shift : Nat)
    (slots : List (Option (MapNode κ ν))) :
    promote_slots hash fuel shift [] slots = some slots := by
  cases fuel <;> rfl

theorem promote_fuel_zero (hash : κ → Nat) (shift : Nat)
    (p : Nat × BinEntry κ ν) (rest : List (Nat × BinEntry κ ν))
    (slots : List (Option (MapNode κ ν))) :
    promote_slots hash 0 shift (p :: rest) slots = none := by
  obtain ⟨i, e⟩ := p
  cases e <;> rfl

theorem promote_sub_eq (hash : κ → Nat) (fuel shift i : Nat) (n : MapNode κ ν)
    (rest : List (Nat × BinEntry κ ν)) (slots : List (Option (MapNode κ ν))) :
    promote_slots hash (fuel + 1) shift ((i, .sub n) :: rest) slots =
      promote_slots hash fuel shift rest (slots.set i (some n)) := rfl

theorem promote_kv_eq (hash : κ → Nat) (fuel shift i : Nat) (k2 : κ) (v2 : ν)
    (rest : List (Nat × BinEntry κ ν)) (slots : List (Option (MapNode κ ν))) :
    promote_slots hash (fuel + 1) shift ((i, .kv k2 v2) :: rest) slots =
      (do
        let res ← node_assoc hash fuel (.bin 0 []) shift (hash k2) k2 v2
        promote_slots hash fuel shift rest
          (slots.set i (some (res.result (.bin 0 []))))) := rfl


/-! ### Promote-loop lemmas -/

theorem empty_bin_wf (hash : κ → Nat) : nodeWFB (ν := ν) hash (.bin 0 []) = true := by
  rw [nodeWFB]
  simp [binWFB, ctpop_zero]

theorem empty_bin_find_none (shift h : Nat) (k : κ) :
    (MapNode.bin 0 [] : MapNode κ ν).find shift h k = none := by
  rw [find_bin_eq]
  simp [Nat.zero_and]

theorem slotsWFB_replicate (hash : κ → Nat) (n : Nat) :
    slotsWFB (ν := ν) hash (List.replicate n (none : Option (MapNode κ ν))) = true := by
  rw [slotsWFB_iff]
  intro o ho
  rw [List.eq_of_mem_replicate ho]
  rfl

theorem find?_of_findIdx? {β : Type} (p : β → Bool) :
    ∀ (l : List β) (i idx : Nat), List.findIdx? p l i = some idx →
      ∃ e, l.get? (idx - i) = some e ∧ l.find? p = some e := by
  intro l
  induction l with
  | nil => intro i idx h; simp [List.findIdx?_nil] at h
  | cons e rest ih =>
    intro i idx h
    rw [List.findIdx?_cons] at h
    by_cases hp : p e = true
    · rw [if_pos hp] at h
      injection h with h2
      refine ⟨e, ?_, ?_⟩
      · simp [← h2]
      · rw [List.find?_cons]
        simp [hp]
    · rw [if_neg hp] at h
      have hle := findIdx?_le p rest (i + 1) idx h
      obtain ⟨e2, hg, hf⟩ := ih (i + 1) idx h
      refine ⟨e2, ?_, ?_⟩
      · have hsub : idx - i = (idx - (i + 1)) + 1 := by omega
        rw [hsub]
        simpa using hg
      · rw [List.find?_cons]
        simp only [hp]
        exact hf

theorem promote_get_of_ne (hash : κ → Nat) (shift : Nat) :
    ∀ (pairs : List (Nat × BinEntry κ ν)) (fuel : Nat)
      (slots out : List (Option (MapNode κ ν))) (j : Nat),
      promote_slots hash fuel shift pairs slots = some out →
      (∀ p ∈ pairs, p.1 ≠ j) → out.get? j = slots.get? j := by
  intro pairs
  induction pairs with
  | nil =>
    intro fuel slots out j hp _
    rw [promote_nil_eq] at hp
    injection hp with hp2
    rw [hp2]
  | cons pe rest ih =>
    intro fuel slots out j hp hne
    obtain ⟨i, entry⟩ := pe
    cases fuel with
    | zero =>
      rw [promote_fuel_zero] at hp
      cases hp
    | succ fuel =>
      cases entry with
      | sub n =>
        rw [promote_sub_eq] at hp
        rw [ih fuel _ _ j hp (fun q hq => hne q (List.mem_cons_of_mem _ hq))]
        exact List.get?_set_ne _ _ (hne (i, .sub n) (List.mem_cons_self _ _))
      | kv k2 v2 =>
        rw [promote_kv_eq] at hp
        cases hr : node_assoc hash fuel (.bin 0 []) shift (hash k2) k2 v2 with
        | none => rw [hr] at hp; cases hp
        | some r0 =>
          rw [hr] at hp
          try simp only [Option.some_bind] at hp
          rw [ih fuel _ _ j hp (fun q hq => hne q (List.mem_cons_of_mem _ hq))]
          exact List.get?_set_ne _ _ (hne (i, .kv k2 v2) (List.mem_cons_self _ _))

theorem promote_wf (hash : κ → Nat) (shift F : Nat)
    (HA : ∀ g, g < F → AssocOK (κ := κ) (ν := ν) hash g) :
    ∀ (pairs : List (Nat × BinEntry κ ν)) (fuel : Nat), fuel ≤ F →
      ∀ (slots out : List (Option (MapNode κ ν))),
      promote_slots hash fuel shift pairs slots = some out →
      (∀ p ∈ pairs, entryWFB hash p.2 = true) →
      slotsWFB hash slots = true → slotsWFB hash out = true := by
  intro pairs
  induction pairs with
  | nil =>
    intro fuel _ slots out hp _ hs
    rw [promote_nil_eq] at hp
    injection hp with hp2
    rw [← hp2]
    exact hs
  | cons pe rest ih =>
    intro fuel hF slots out hp hwfe hs
    obtain ⟨i, entry⟩ := pe
    cases fuel with
    | zero =>
      rw [promote_fuel_zero] at hp
      cases hp
    | succ fuel =>
      cases entry with
      | sub n =>
        rw [promote_sub_eq] at hp
        refine ih fuel (by omega) _ _ hp (fun q hq => hwfe q (List.mem_cons_of_mem _ hq)) ?_
        refine slotsWFB_set hs ?_
        exact hwfe (i, .sub n) (List.mem_cons_self _ _)
      | kv k2 v2 =>
        rw [promote_kv_eq] at hp
        cases hr : node_assoc hash fuel (.bin 0 []) shift (hash k2) k2 v2 with
        | none => rw [hr] at hp; cases hp
        | some r0 =>
          rw [hr] at hp
          try simp only [Option.some_bind] at hp
          refine ih fuel (by omega) _ _ hp (fun q hq => hwfe q (List.mem_cons_of_mem _ hq)) ?_
          refine slotsWFB_set hs ?_
          have h2 := HA fuel (by omega) (.bin 0 []) shift k2 v2 r0 (empty_bin_wf hash) hr
          exact h2.1


/-! ### Assoc soundness -/

theorem get?_set_self {β : Type} (l : List β) (i : Nat) (e old : β)
    (h : l.get? i = some old) : (l.set i e).get? i = some e := by
  rw [List.get?_set_eq, h]
  rfl

theorem mem_bit_positions {bitmap j : Nat} (hm : j ∈ bit_positions bitmap) :
    bitmap &&& 2 ^ j ≠ 0 := by
  rw [bit_positions, List.mem_filter] at hm
  have h2 : bitmap.testBit j = true := by simpa using hm.2
  intro hz
  rw [and_two_pow_eq_zero_iff] at hz
  rw [h2] at hz
  cases hz

theorem replicate_set_get? {β : Type} (x : β) (j n : Nat) (hj : j < n) :
    ((List.replicate n (none : Option β)).set j (some x)).get? j =
      some (some x) := by
  refine get?_set_self _ _ _ none ?_
  rw [List.get?_eq_getElem?]
  simp [List.getElem?_replicate, hj]

theorem zip_fst_ne_jdx {bitmap shift h : Nat} {arr : List (BinEntry κ ν)}
    (hbit0 : bitmap &&& bitpos h shift = 0) :
    ∀ p ∈ (bit_positions bitmap).zip arr, p.1 ≠ mask_hash h shift := by
  intro p hp
  obtain ⟨a, b⟩ := p
  intro hpe
  have h1 := (List.of_mem_zip hp).1
  have h2 := mem_bit_positions h1
  have hpe2 : a = mask_hash h shift := hpe
  subst hpe2
  rw [bitpos_eq] at hbit0
  exact h2 hbit0

theorem zip_snd_wf {hash : κ → Nat} {arr : List (BinEntry κ ν)} {l : List Nat}
    (hwf : binWFB hash arr = true) :
    ∀ p ∈ l.zip arr, entryWFB hash p.2 = true := by
  intro p hp
  obtain ⟨a, b⟩ := p
  exact binWFB_iff.mp hwf b (List.of_mem_zip hp).2

theorem hcn_wrap_wf {hash : κ → Nat} {hashv : Nat} {count : Int}
    {entries : List (κ × ν)} (shift : Nat)
    (hwf : nodeWFB hash (.hcn hashv count entries) = true) :
    nodeWFB (ν := ν) hash
      (.bin (bitpos hashv shift) [.sub (.hcn hashv count entries)]) = true := by
  rw [nodeWFB, Bool.and_eq_true]
  constructor
  · rw [bitpos_eq, ctpop_two_pow _ (mask_hash_lt32 hashv shift)]
    rfl
  · simp [binWFB, hwf]

theorem hcn_wrap_find {hash : κ → Nat} {hashv : Nat} {count : Int}
    {entries : List (κ × ν)} (shift : Nat) (k : κ)
    (hwf : nodeWFB hash (.hcn hashv count entries) = true)
    (hne : hash k ≠ hashv) :
    (MapNode.bin (bitpos hashv shift) [.sub (.hcn hashv count entries)]).find
        shift (hash k) k =
      (MapNode.hcn hashv count entries : MapNode κ ν).find shift (hash k) k := by
  have hnone : entries.find? (fun e => e.1 == k) = none := by
    rw [List.find?_eq_none]
    intro e he hbe
    rw [nodeWFB, Bool.and_eq_true] at hwf
    have h2 := List.all_eq_true.mp hwf.2 e he
    have h3 : hash e.1 = hashv := by simpa using h2
    have h4 : e.1 = k := by simpa using hbe
    exact hne (h4 ▸ h3)
  have hR : (MapNode.hcn hashv count entries : MapNode κ ν).find shift
      (hash k) k = none := by
    rw [find_hcn_eq, hnone]
    rfl
  rw [hR, find_bin_eq]
  by_cases hbit : bitpos hashv shift &&& bitpos (hash k) shift = 0
  · rw [if_pos hbit]
  · rw [if_neg hbit]
    have heq : mask_hash hashv shift = mask_hash (hash k) shift := by
      by_contra hc
      rw [bitpos_eq, bitpos_eq] at hbit
      exact hbit (two_pow_and_two_pow_ne _ _ hc)
    have hidx : bitmap_index (bitpos hashv shift) (bitpos (hash k) shift) = 0 := by
      rw [bitpos_eq, bitpos_eq, ← heq, bitmap_index, two_pow_and_two_pow_sub_one]
      rfl
    rw [hidx]
    show (MapNode.hcn hashv count entries : MapNode κ ν).find (shift + BITS)
      (hash k) k = none
    rw [find_hcn_eq, hnone]
    rfl

theorem result_same (self : MapNode κ ν) :
    (AssocRes.same : AssocRes κ ν).result self = self := rfl

theorem result_node (self n : MapNode κ ν) (b : Bool) :
    (AssocRes.node n b).result self = n := rfl

theorem addedFlag_same : (AssocRes.same : AssocRes κ ν).addedFlag = false := rfl

theorem addedFlag_node (n : MapNode κ ν) (b : Bool) :
    (AssocRes.node n b).addedFlag = b := rfl

theorem node_assoc_sound [DecidableEq ν] (hash : κ → Nat) :
    ∀ fuel : Nat, AssocOK (κ := κ) (ν := ν) hash fuel ∧
      CreateOK (κ := κ) (ν := ν) hash fuel := by
  intro fuel
  induction fuel using Nat.strong_induction_on with
  | _ fuel ih =>
    cases fuel with
    | zero =>
      constructor
      · intro n shift k v res _ hr
        rw [assoc_fuel_zero] at hr
        cases hr
      · intro shift k1 v1 k2 v2 nn _ hr
        rw [create_fuel_zero] at hr
        cases hr
    | succ fuel =>
      have IH := ih fuel (by omega)
      constructor
      · -- AssocOK at fuel + 1
        intro n shift k v res hwf hr
        cases n with
        | bin bitmap arr =>
          rw [nodeWFB, Bool.and_eq_true] at hwf
          have hlen : arr.length = ctpop bitmap := by simpa using hwf.1
          rw [assoc_bin_eq] at hr
          by_cases hbit : bitmap &&& bitpos (hash k) shift ≠ 0
          · simp only [if_pos hbit] at hr
            cases hg : arr.get? (bitmap_index bitmap (bitpos (hash k) shift)) with
            | none =>
              simp only [hg] at hr
              exact Option.noConfusion hr
            | some e =>
              cases e with
              | sub nsub =>
                simp only [hg, bind, Option.bind_eq_some] at hr
                obtain ⟨r1, hras, hr⟩ := hr
                have IHs := IH.1 nsub (shift + BITS) k v r1
                  (binWFB_get hwf.2 hg) hras
                cases r1 with
                | same =>
                  injection hr with hr2
                  subst hr2
                  try simp only [result_same, result_node, addedFlag_same, addedFlag_node]
                  have hfind : (MapNode.bin bitmap arr).find shift (hash k) k =
                      some v := by
                    rw [find_bin_eq, if_neg (not_not.mp (fun hc => hc hbit))]
                    simp only [hg]
                    exact IHs.2.1
                  refine ⟨?_, hfind, ?_⟩
                  · rw [nodeWFB, Bool.and_eq_true]
                    exact hwf
                  · rw [hfind]
                    simp [AssocRes.addedFlag]
                | node n2 added =>
                  injection hr with hr2
                  subst hr2
                  try simp only [result_same, result_node, addedFlag_same, addedFlag_node]
                  have hgs := get?_set_self arr
                    (bitmap_index bitmap (bitpos (hash k) shift))
                    (BinEntry.sub n2) _ hg
                  refine ⟨?_, ?_, ?_⟩
                  · rw [nodeWFB, Bool.and_eq_true]
                    refine ⟨by simp [hlen], ?_⟩
                    exact binWFB_set hwf.2 IHs.1
                  · rw [find_bin_eq, if_neg (not_not.mp (fun hc => hc hbit))]
                    simp only [hgs]
                    exact IHs.2.1
                  · have hold : (MapNode.bin bitmap arr).find shift (hash k) k =
                        nsub.find (shift + BITS) (hash k) k := by
                      rw [find_bin_eq, if_neg (not_not.mp (fun hc => hc hbit))]
                      simp only [hg]
                    rw [hold]
                    exact IHs.2.2
              | kv k0 v0 =>
                simp only [hg] at hr
                have hold : (MapNode.bin bitmap arr).find shift (hash k) k =
                    (if k = k0 then some v0 else none) := by
                  rw [find_bin_eq, if_neg (not_not.mp (fun hc => hc hbit))]
                  simp only [hg]
                by_cases hk0 : k = k0
                · simp only [if_pos hk0] at hr
                  by_cases hv0 : v = v0
                  · simp only [if_pos hv0] at hr
                    injection hr with hr2
                    subst hr2
                    try simp only [result_same, result_node, addedFlag_same, addedFlag_node]
                    have hfind : (MapNode.bin bitmap arr).find shift (hash k) k =
                        some v := by
                      rw [hold, if_pos hk0, hv0]
                    refine ⟨?_, hfind, ?_⟩
                    · rw [nodeWFB, Bool.and_eq_true]
                      exact hwf
                    · rw [hfind]
                      simp [AssocRes.addedFlag]
                  · simp only [if_neg hv0] at hr
                    injection hr with hr2
                    subst hr2
                    try simp only [result_same, result_node, addedFlag_same, addedFlag_node]
                    have hgs := get?_set_self arr
                      (bitmap_index bitmap (bitpos (hash k) shift))
                      (BinEntry.kv k0 v) _ hg
                    refine ⟨?_, ?_, ?_⟩
                    · rw [nodeWFB, Bool.and_eq_true]
                      refine ⟨by simp [hlen], ?_⟩
                      exact binWFB_set hwf.2 rfl
                    · rw [find_bin_eq, if_neg (not_not.mp (fun hc => hc hbit))]
                      simp only [hgs]
                      rw [if_pos hk0]
                    · rw [hold, if_pos hk0]
                      simp [AssocRes.addedFlag]
                · simp only [if_neg hk0, bind, Option.bind_eq_some] at hr
                  obtain ⟨nn, hcr, hr⟩ := hr
                  injection hr with hr2
                  subst hr2
                  try simp only [result_same, result_node, addedFlag_same, addedFlag_node]
                  have hC := IH.2 (shift + BITS) k0 v0 k v nn
                    (fun hc => hk0 hc.symm) hcr
                  have hgs := get?_set_self arr
                    (bitmap_index bitmap (bitpos (hash k) shift))
                    (BinEntry.sub nn) _ hg
                  refine ⟨?_, ?_, ?_⟩
                  · rw [nodeWFB, Bool.and_eq_true]
                    refine ⟨by simp [hlen], ?_⟩
                    exact binWFB_set hwf.2 hC.1
                  · rw [find_bin_eq, if_neg (not_not.mp (fun hc => hc hbit))]
                    simp only [hgs]
                    exact hC.2
                  · rw [hold, if_neg hk0]
                    simp [AssocRes.addedFlag]
          · have hbit0 : bitmap &&& bitpos (hash k) shift = 0 := not_not.mp hbit
            simp only [if_neg hbit] at hr
            have hold : (MapNode.bin bitmap arr).find shift (hash k) k = none := by
              rw [find_bin_eq, if_pos hbit0]
            by_cases hct : WIDTH / 2 ≤ ctpop bitmap
            · simp only [if_pos hct, bind, Option.bind_eq_some] at hr
              obtain ⟨r1, hras, hr⟩ := hr
              obtain ⟨slots2, hps, hr⟩ := hr
              injection hr with hr2
              subst hr2
              try simp only [result_same, result_node, addedFlag_same, addedFlag_node]
              have IHs := IH.1 (.bin 0 []) (shift + BITS) k v r1
                (empty_bin_wf hash) hras
              have hflag : r1.addedFlag = true :=
                IHs.2.2.mpr (empty_bin_find_none _ _ _)
              have hjlt := mask_hash_lt (hash k) shift
              have hslot : slots2.get? (mask_hash (hash k) shift) =
                  some (some (r1.result (.bin 0 []))) := by
                rw [promote_get_of_ne hash (shift + BITS) _ fuel _ _ _ hps
                  (zip_fst_ne_jdx hbit0)]
                exact replicate_set_get? _ _ _ hjlt
              refine ⟨?_, ?_, ?_⟩
              · rw [nodeWFB]
                refine promote_wf hash (shift + BITS) (fuel + 1)
                  (fun g hg => (ih g hg).1) _ fuel (by omega) _ _ hps
                  (zip_snd_wf hwf.2) ?_
                exact slotsWFB_set (slotsWFB_replicate hash WIDTH) IHs.1
              · rw [find_arrN_eq]
                simp only [hslot]
                exact IHs.2.1
              · rw [hold]
                exact ⟨fun _ => rfl, fun _ => hflag⟩
            · simp only [if_neg hct] at hr
              injection hr with hr2
              subst hr2
              try simp only [result_same, result_node, addedFlag_same, addedFlag_node]
              have hidxle : bitmap_index bitmap (bitpos (hash k) shift) ≤
                  arr.length := by
                rw [hlen, bitmap_index]
                exact ctpop_and_le bitmap _
              refine ⟨?_, ?_, ?_⟩
              · rw [nodeWFB, Bool.and_eq_true]
                constructor
                · rw [length_insert _ _ _ hidxle, hlen, bitpos_eq,
                    ctpop_or_two_pow _ _ (mask_hash_lt32 (hash k) shift)
                      (by rw [← bitpos_eq]; exact hbit0)]
                  simp
                · exact binWFB_insert hwf.2 rfl
              · rw [find_bin_eq, if_neg (by
                  intro hz
                  rw [bitpos_eq, and_two_pow_eq_zero_iff, Nat.testBit_or,
                    Nat.testBit_two_pow_self] at hz
                  simp at hz)]
                have hsame : bitmap_index (bitmap ||| bitpos (hash k) shift)
                    (bitpos (hash k) shift) =
                    bitmap_index bitmap (bitpos (hash k) shift) := by
                  rw [bitmap_index, bitmap_index, bitpos_eq,
                    or_two_pow_and_sub_one]
                rw [hsame]
                simp only [get?_insert_self arr _ _ hidxle]
                simp
              · rw [hold]
                simp [AssocRes.addedFlag]
        | arrN count slots =>
          rw [nodeWFB] at hwf
          rw [assoc_arrN_eq] at hr
          cases hg : slots.get? (mask_hash (hash k) shift) with
          | none =>
            simp only [hg] at hr
            exact Option.noConfusion hr
          | some o =>
            cases o with
            | none =>
              simp only [hg, bind, Option.bind_eq_some] at hr
              obtain ⟨r1, hras, hr⟩ := hr
              injection hr with hr2
              subst hr2
              try simp only [result_same, result_node, addedFlag_same, addedFlag_node]
              have IHs := IH.1 (.bin 0 []) (shift + BITS) k v r1
                (empty_bin_wf hash) hras
              have hgs := get?_set_self slots (mask_hash (hash k) shift)
                (some (r1.result (.bin 0 []))) _ hg
              refine ⟨?_, ?_, ?_⟩
              · rw [nodeWFB]
                exact slotsWFB_set hwf IHs.1
              · rw [find_arrN_eq]
                simp only [hgs]
                exact IHs.2.1
              · have holdn : (MapNode.arrN count slots).find shift (hash k) k =
                    none := by
                  rw [find_arrN_eq]
                  simp only [hg]
                rw [holdn]
                simp [AssocRes.addedFlag]
            | some nsub =>
              simp only [hg, bind, Option.bind_eq_some] at hr
              obtain ⟨r1, hras, hr⟩ := hr
              have IHs := IH.1 nsub (shift + BITS) k v r1
                (slotsWFB_get hwf hg) hras
              have holdn : (MapNode.arrN count slots).find shift (hash k) k =
                  nsub.find (shift + BITS) (hash k) k := by
                rw [find_arrN_eq]
                simp only [hg]
              cases r1 with
              | same =>
                injection hr with hr2
                subst hr2
                try simp only [result_same, result_node, addedFlag_same, addedFlag_node]
                have hfind : (MapNode.arrN count slots).find shift (hash k) k =
                    some v := by
                  rw [holdn]
                  exact IHs.2.1
                refine ⟨?_, hfind, ?_⟩
                · rw [nodeWFB]
                  exact hwf
                · rw [hfind]
                  simp [AssocRes.addedFlag]
              | node n2 added =>
                injection hr with hr2
                subst hr2
                try simp only [result_same, result_node, addedFlag_same, addedFlag_node]
                have hgs := get?_set_self slots (mask_hash (hash k) shift)
                  (some n2) _ hg
                refine ⟨?_, ?_, ?_⟩
                · rw [nodeWFB]
                  exact slotsWFB_set hwf IHs.1
                · rw [find_arrN_eq]
                  simp only [hgs]
                  exact IHs.2.1
                · rw [holdn]
                  exact IHs.2.2
        | hcn hashv count entries =>
          rw [assoc_hcn_eq] at hr
          have holdh : (MapNode.hcn hashv count entries).find shift (hash k) k =
              (entries.find? (fun e => e.1 == k)).map (fun e => e.2) :=
            find_hcn_eq hashv count entries shift (hash k) k
          by_cases hh : hash k = hashv
          · simp only [if_pos hh] at hr
            rw [nodeWFB, Bool.and_eq_true] at hwf
            cases hfi : hcn_find_index entries k with
            | some idx =>
              simp only [hfi] at hr
              rw [hcn_find_index] at hfi
              obtain ⟨v0, hgv⟩ := findIdx?_get_key entries 0 idx hfi
              simp only [Nat.sub_zero] at hgv
              simp only [hgv] at hr
              have hfound : entries.find? (fun e => e.1 == k) = some (k, v0) := by
                obtain ⟨e2, hge, hfe⟩ := find?_of_findIdx? _ entries 0 idx hfi
                simp only [Nat.sub_zero] at hge
                rw [hge] at hgv
                injection hgv with hgv2
                rw [hfe, hgv2]
              by_cases hv0 : v = v0
              · simp only [if_pos hv0] at hr
                injection hr with hr2
                subst hr2
                try simp only [result_same, result_node, addedFlag_same, addedFlag_node]
                have hfind : (MapNode.hcn hashv count entries).find shift
                    (hash k) k = some v := by
                  rw [holdh, hfound, hv0]
                  rfl
                refine ⟨?_, hfind, ?_⟩
                · rw [nodeWFB, Bool.and_eq_true]
                  exact hwf
                · rw [hfind]
                  simp [AssocRes.addedFlag]
              · simp only [if_neg hv0] at hr
                injection hr with hr2
                subst hr2
                try simp only [result_same, result_node, addedFlag_same, addedFlag_node]
                refine ⟨?_, ?_, ?_⟩
                · rw [nodeWFB, Bool.and_eq_true]
                  refine ⟨?_, ?_⟩
                  · exact distinctKeysB_set entries idx v0 hwf.1 hgv
                  · exact hashAll_set idx hwf.2 hh
                · rw [find_hcn_eq]
                  have h2 := find?_set_found (k := k) v entries 0 idx hfi
                  simp only [Nat.sub_zero] at h2
                  rw [h2]
                  rfl
                · rw [holdh, hfound]
                  simp [AssocRes.addedFlag]
            | none =>
              simp only [hfi] at hr
              rw [hcn_find_index] at hfi
              injection hr with hr2
              subst hr2
              try simp only [result_same, result_node, addedFlag_same, addedFlag_node]
              refine ⟨?_, ?_, ?_⟩
              · rw [nodeWFB, Bool.and_eq_true]
                refine ⟨?_, ?_⟩
                · refine distinctKeysB_append ?_ hwf.1
                  intro e he
                  have h2 := List.findIdx?_eq_none_iff.mp hfi e he
                  simpa using h2
                · exact hashAll_append hwf.2 hh
              · rw [find_hcn_eq, find?_append_new hfi]
                rfl
              · rw [holdh, findIdx?_none_find?_none hfi]
                simp [AssocRes.addedFlag]
          · simp only [if_neg hh, bind, Option.bind_eq_some] at hr
            obtain ⟨r1, hras, hr⟩ := hr
            injection hr with hr2
            subst hr2
            try simp only [result_same, result_node, addedFlag_same, addedFlag_node]
            have IHs := IH.1 (.bin (bitpos hashv shift)
              [.sub (.hcn hashv count entries)]) shift k v r1
              (hcn_wrap_wf shift hwf) hras
            refine ⟨IHs.1, IHs.2.1, ?_⟩
            rw [← hcn_wrap_find shift k hwf hh]
            exact IHs.2.2
      · -- CreateOK at fuel + 1
        intro shift k1 v1 k2 v2 nn hk hr
        rw [create_eq] at hr
        by_cases hh : hash k1 = hash k2
        · simp only [if_pos hh] at hr
          injection hr with hr2
          subst hr2
          try simp only [result_same, result_node, addedFlag_same, addedFlag_node]
          refine ⟨?_, ?_⟩
          · rw [nodeWFB, Bool.and_eq_true]
            constructor
            · simp [distinctKeysB]
              intro hc
              exact absurd hc.symm hk
            · simp [hh]
          · rw [find_hcn_eq]
            have hne : (k1 == k2) = false := by
              simp only [beq_eq_false_iff_ne, ne_eq]
              exact hk
            simp [List.find?_cons, hne]
        · simp only [if_neg hh, bind, Option.bind_eq_some] at hr
          obtain ⟨r1, hras1, hr⟩ := hr
          obtain ⟨r2, hras2, hr⟩ := hr
          injection hr with hr2
          subst hr2
          try simp only [result_same, result_node, addedFlag_same, addedFlag_node]
          have H1 := IH.1 (.bin 0 []) shift k1 v1 r1 (empty_bin_wf hash) hras1
          have H2 := IH.1 (r1.result (.bin 0 [])) shift k2 v2 r2 H1.1 hras2
          exact ⟨H2.1, H2.2.1⟩

theorem DoubleVector_conj_ok (v : DoubleVector) (val : PyVal) (d : F64)
    (hok : PyFloat_AsDouble val = .ok d) :
    DoubleVector_conj v val = .ok ⟨v.elems ++ [d]⟩ := by
  unfold DoubleVector_conj
  rw [hok]

/-! ### Store frame lemmas: persistent Vector operations only write at
fresh addresses, so every read below the old allocation bound is
preserved. -/

theorem storePreserved_refl (s : VStore α) : storePreserved s s :=
  ⟨le_refl _, fun _ _ => rfl⟩

theorem storePreserved_trans {s1 s2 s3 : VStore α}
    (h12 : storePreserved s1 s2) (h23 : storePreserved s2 s3) :
    storePreserved s1 s3 := by
  refine ⟨le_trans h12.1 h23.1, fun a ha => ?_⟩
  rw [h23.2 a (lt_of_lt_of_le ha h12.1), h12.2 a ha]

theorem alloc_preserves (s : VStore α) (d : VNodeData α) :
    storePreserved s (s.alloc d).2 := by
  refine ⟨by simp [VStore.alloc], fun a ha => ?_⟩
  simp only [VStore.alloc, VStore.read?]
  rw [List.get?_append ha]

theorem alloc_len (s : VStore α) (d : VNodeData α) :
    (s.alloc d).2.nodes.length = s.nodes.length + 1 := by
  simp [VStore.alloc]

theorem nodeWriteSlot_preserves {s s2 : VStore α} (a idx : Nat) (sl : VSlot α)
    (hp : storePreserved s s2) (ha : s.nodes.length ≤ a) :
    storePreserved s (nodeWriteSlot s2 a idx sl) := by
  rw [nodeWriteSlot]
  cases hr : s2.read? a with
  | none => exact hp
  | some d =>
    refine ⟨?_, fun b hb => ?_⟩
    · show s.nodes.length ≤ (s2.nodes.set a _).length
      rw [List.length_set]
      exact hp.1
    · show (s2.nodes.set a _).get? b = s.read? b
      rw [List.get?_set_ne _ _ (by omega)]
      exact hp.2 b hb

theorem nodeWriteSlot_len (s : VStore α) (a idx : Nat) (sl : VSlot α) :
    (nodeWriteSlot s a idx sl).nodes.length = s.nodes.length := by
  rw [nodeWriteSlot]
  cases hr : s.read? a with
  | none => rfl
  | some d =>
    show (s.nodes.set a _).length = s.nodes.length
    rw [List.length_set]

theorem clone_preserves (s : VStore α) (a : Nat) (tid : Option Nat) :
    storePreserved s (VectorNode_clone s a tid).2 := by
  rw [VectorNode_clone]
  cases hr : s.read? a with
  | none => exact alloc_preserves _ _
  | some d => exact alloc_preserves _ _

theorem clone_fst (s : VStore α) (a : Nat) (tid : Option Nat) :
    (VectorNode_clone s a tid).1 = s.nodes.length := by
  rw [VectorNode_clone]
  cases hr : s.read? a with
  | none => rfl
  | some d => rfl

theorem editable_none (s : VStore α) (a : Nat) :
    VectorNode_is_editable s a none = false := rfl

theorem new_path_preserves (tid : Option Nat) :
    ∀ (level : Nat) (s : VStore α) (node : Nat),
      storePreserved s (Vector_new_path tid s level node).2 := by
  intro level
  induction level using Nat.strong_induction_on with
  | _ level ih =>
    intro s node
    rw [Vector_new_path]
    by_cases hl : level = 0
    · rw [if_pos hl]
      exact storePreserved_refl s
    · rw [if_neg hl]
      split
      next ret s1 hcreate =>
        split
        next child s2 hpath =>
          show storePreserved s (nodeWriteSlot s2 ret 0 (.child child))
          have hs1 : (VectorNode_create s tid).2 = s1 := congrArg Prod.snd hcreate
          have hret : s.nodes.length = ret := congrArg Prod.fst hcreate
          have hp1 : storePreserved s s1 := by
            rw [← hs1]
            exact alloc_preserves s _
          have hp2 := ih (level - BITS) (by simp only [BITS]; omega) s1 node
          rw [hpath] at hp2
          refine nodeWriteSlot_preserves _ _ _ (storePreserved_trans hp1 hp2) ?_
          omega

theorem push_tail_preserves (cnt : Nat) :
    ∀ (level : Nat) (s : VStore α) (parent tail_node : Nat),
      storePreserved s (Vector_push_tail none cnt s level parent tail_node).2 ∧
      (Vector_push_tail none cnt s level parent tail_node).1 =
        s.nodes.length := by
  intro level
  induction level using Nat.strong_induction_on with
  | _ level ih =>
    intro s parent tail_node
    rw [Vector_push_tail]
    simp only [editable_none, Bool.false_eq_true, if_false]
    have hp1 := clone_preserves s parent none
    have hf1 := clone_fst s parent none
    by_cases hlv : level ≤ BITS
    · rw [if_pos hlv]
      constructor
      · show storePreserved s (nodeWriteSlot (VectorNode_clone s parent none).2
          (VectorNode_clone s parent none).1 (((cnt - 1) >>> level) &&& MASK)
          (.child tail_node))
        refine nodeWriteSlot_preserves _ _ _ hp1 ?_
        rw [hf1]
      · exact hf1
    · rw [if_neg hlv]
      split
      next c hslc =>
        have hp2 := (ih (level - BITS) (by simp only [BITS] at *; omega)
          (VectorNode_clone s parent none).2 c tail_node).1
        constructor
        · refine nodeWriteSlot_preserves _ _ _
            (storePreserved_trans hp1 hp2) ?_
          rw [hf1]
        · exact hf1
      next hnc =>
        have hp2 := new_path_preserves none (level - BITS)
          (VectorNode_clone s parent none).2 tail_node
        constructor
        · refine nodeWriteSlot_preserves _ _ _
            (storePreserved_trans hp1 hp2) ?_
          rw [hf1]
        · exact hf1

theorem do_assoc_preserves :
    ∀ (level : Nat) (s : VStore α) (a i : Nat) (x : α),
      storePreserved s (Vector_do_assoc s level a i x).2 := by
  intro level
  induction level using Nat.strong_induction_on with
  | _ level ih =>
    intro s a i x
    rw [Vector_do_assoc]
    have hp1 := clone_preserves s a none
    have hf1 := clone_fst s a none
    split
    next ret s1 hclone =>
      have hs1 : (VectorNode_clone s a none).2 = s1 := congrArg Prod.snd hclone
      have hret : (VectorNode_clone s a none).1 = ret := congrArg Prod.fst hclone
      rw [hs1] at hp1
      rw [hret] at hf1
      by_cases hl : level = 0
      · rw [if_pos hl]
        show storePreserved s (nodeWriteSlot s1 ret (i &&& MASK) (.elem x))
        refine nodeWriteSlot_preserves _ _ _ hp1 ?_
        rw [hf1]
      · rw [if_neg hl]
        simp only []
        cases hslc : nodeSlot s1 a ((i >>> level) &&& MASK) with
        | child c =>
          have hp2 := ih (level - BITS) (by simp only [BITS]; omega) s1 c i x
          show storePreserved s (nodeWriteSlot
            (Vector_do_assoc s1 (level - BITS) c i x).2 ret
            ((i >>> level) &&& MASK)
            (.child (Vector_do_assoc s1 (level - BITS) c i x).1))
          refine nodeWriteSlot_preserves _ _ _
            (storePreserved_trans hp1 hp2) ?_
          rw [hf1]
        | null => exact hp1
        | elem y => exact hp1

theorem Vector_conj_preserves (s : VStore α) (v : Vector α) (x : α)
    (htid : v.tid = none) :
    storePreserved s (Vector_conj s v x).2 := by
  rw [Vector_conj]
  simp only [htid]
  by_cases hroom : v.cnt - Vector_tail_off v < WIDTH
  · rw [if_pos hroom]
    exact storePreserved_refl s
  · rw [if_neg hroom]
    by_cases hpr : 1 <<< v.shift < v.cnt >>> BITS
    · rw [if_pos hpr]
      refine nodeWriteSlot_preserves _ _ _
        (storePreserved_trans
          (nodeWriteSlot_preserves _ _ _
            (storePreserved_trans (alloc_preserves s _) (alloc_preserves _ _))
            ?_)
          (new_path_preserves none v.shift _ _)) ?_
      · exact (alloc_preserves s _).1
      · exact (alloc_preserves s _).1
    · rw [if_neg hpr]
      exact storePreserved_trans (alloc_preserves s _)
        (push_tail_preserves v.cnt v.shift _ v.root _).1

theorem nodeSlot_preserved {s s2 : VStore α} (hp : storePreserved s s2)
    {a : Nat} (ha : a < s.nodes.length) (idx : Nat) :
    nodeSlot s2 a idx = nodeSlot s a idx := by
  rw [nodeSlot, nodeSlot, hp.2 a ha]

/-- A slot is closed below a bound. -/
def slotOkB (n : Nat) : VSlot α → Bool
  | .child a2 => decide (a2 < n)
  | _ => true

theorem storeClosedB_iff {s : VStore α} :
    storeClosedB s = true ↔
      ∀ d ∈ s.nodes, ∀ sl ∈ d.slots, slotOkB s.nodes.length sl = true := by
  rw [storeClosedB, List.all_eq_true]
  constructor
  · intro h d hd sl hsl
    have h2 := h d hd
    rw [List.all_eq_true] at h2
    have h3 := h2 sl hsl
    cases sl <;> simpa [slotOkB] using h3
  · intro h d hd
    rw [List.all_eq_true]
    intro sl hsl
    have h3 := h d hd sl hsl
    cases sl <;> simpa [slotOkB] using h3

theorem storeClosed_child {s : VStore α} (hc : storeClosedB s = true)
    {a idx a2 : Nat} (h : nodeSlot s a idx = .child a2) :
    a2 < s.nodes.length := by
  rw [nodeSlot] at h
  cases hr : s.read? a with
  | none =>
    rw [hr] at h
    have h2 : VSlot.null = VSlot.child a2 := h
    exact VSlot.noConfusion h2
  | some d =>
    rw [hr] at h
    have h2 : (d.slots.get? idx).getD VSlot.null = VSlot.child a2 := h
    have hd : d ∈ s.nodes := List.get?_mem hr
    cases hg : d.slots.get? idx with
    | none =>
      rw [hg] at h2
      exact VSlot.noConfusion h2
    | some sl =>
      rw [hg] at h2
      have hm : sl ∈ d.slots := List.get?_mem hg
      have h3 := storeClosedB_iff.mp hc d hd sl hm
      have h4 : sl = .child a2 := h2
      rw [h4] at h3
      simpa [slotOkB] using h3

theorem descend_preserved {s s2 : VStore α} (hp : storePreserved s s2)
    (hc : storeClosedB s = true) :
    ∀ (level a : Nat), a < s.nodes.length → ∀ i,
      Vector_descend s2 a level i = Vector_descend s a level i := by
  intro level
  induction level using Nat.strong_induction_on with
  | _ level ih =>
    intro a ha i
    rw [Vector_descend, Vector_descend]
    by_cases hl : level = 0
    · rw [if_pos hl, if_pos hl]
    · rw [if_neg hl, if_neg hl]
      rw [nodeSlot_preserved hp ha]
      cases hsl : nodeSlot s a ((i >>> level) &&& MASK) with
      | child a2 =>
        exact ih (level - BITS) (by simp only [BITS]; omega) a2
          (storeClosed_child hc hsl) i
      | null => rfl
      | elem x => rfl

theorem descend_lt {s : VStore α} (hc : storeClosedB s = true) :
    ∀ (level a : Nat), a < s.nodes.length → ∀ i b,
      Vector_descend s a level i = some b → b < s.nodes.length := by
  intro level
  induction level using Nat.strong_induction_on with
  | _ level ih =>
    intro a ha i b hd
    rw [Vector_descend] at hd
    by_cases hl : level = 0
    · rw [if_pos hl] at hd
      injection hd with hd2
      rw [← hd2]
      exact ha
    · rw [if_neg hl] at hd
      cases hsl : nodeSlot s a ((i >>> level) &&& MASK) with
      | child a2 =>
        rw [hsl] at hd
        exact ih (level - BITS) (by simp only [BITS]; omega) a2
          (storeClosed_child hc hsl) i b hd
      | null =>
        rw [hsl] at hd
        cases hd
      | elem x =>
        rw [hsl] at hd
        cases hd

theorem elemAt_preserved {s s2 : VStore α} (hp : storePreserved s s2)
    (hc : storeClosedB s = true) (v : Vector α)
    (hroot : v.root < s.nodes.length) (i : Nat) :
    Vector_elemAt s2 v i = Vector_elemAt s v i := by
  rw [Vector_elemAt, Vector_elemAt]
  by_cases ht : Vector_tail_off v ≤ i
  · rw [if_pos ht, if_pos ht]
  · rw [if_neg ht, if_neg ht]
    rw [descend_preserved hp hc v.shift v.root hroot i]
    cases hd : Vector_descend s v.root v.shift i with
    | none => rfl
    | some b =>
      simp only [nodeSlot_preserved hp
        (descend_lt hc v.shift v.root hroot i b hd)]

theorem getitem_preserved {s s2 : VStore α} (hp : storePreserved s s2)
    (hc : storeClosedB s = true) (v : Vector α)
    (hroot : v.root < s.nodes.length) (key : Int) :
    Vector_getitem s2 v key = Vector_getitem s v key := by
  rw [Vector_getitem, Vector_getitem]
  by_cases hb : (if key < 0 then (v.cnt : Int) + key else key) < 0 ∨
      (v.cnt : Int) ≤ (if key < 0 then (v.cnt : Int) + key else key)
  · rw [if_pos hb, if_pos hb]
  · rw [if_neg hb, if_neg hb]
    exact elemAt_preserved hp hc v hroot _

theorem hash_preserved {s s2 : VStore α} (hp : storePreserved s s2)
    (hc : storeClosedB s = true) (ehash : α → Int) (v : Vector α)
    (hroot : v.root < s.nodes.length) :
    Vector_hash ehash s2 v = Vector_hash ehash s v := by
  rw [Vector_hash, Vector_hash,
    show Vector_elemAt s2 v = Vector_elemAt s v from
      funext (elemAt_preserved hp hc v hroot)]

theorem Vector_assoc_preserves (s : VStore α) (v : Vector α) (key : Int)
    (x : α) (htid : v.tid = none) :
    ∀ v2 s2, Vector_assoc s v key x = some (v2, s2) → storePreserved s s2 := by
  intro v2 s2 hr
  rw [Vector_assoc] at hr
  by_cases h1 : (if key < 0 then (v.cnt : Int) + key else key) < 0 ∨
      (v.cnt : Int) < (if key < 0 then (v.cnt : Int) + key else key)
  · rw [if_pos h1] at hr
    cases hr
  · rw [if_neg h1] at hr
    by_cases h2 : (if key < 0 then (v.cnt : Int) + key else key) = (v.cnt : Int)
    · rw [if_pos h2] at hr
      injection hr with hr2
      have hs2 : s2 = (Vector_conj s v x).2 := (congrArg Prod.snd hr2).symm
      rw [hs2]
      exact Vector_conj_preserves s v x htid
    · rw [if_neg h2] at hr
      by_cases h3 : Vector_tail_off v ≤
          (if key < 0 then (v.cnt : Int) + key else key).toNat
      · rw [if_pos h3] at hr
        injection hr with hr2
        have hs2 : s2 = s := (congrArg Prod.snd hr2).symm
        rw [hs2]
        exact storePreserved_refl s
      · rw [if_neg h3] at hr
        cases hda : Vector_do_assoc s v.shift v.root
            (if key < 0 then (v.cnt : Int) + key else key).toNat x with
        | mk nroot sda =>
          rw [hda] at hr
          injection hr with hr2
          have hs2 : s2 = sda := (congrArg Prod.snd hr2).symm
          have hpd := do_assoc_preserves v.shift s v.root
            (if key < 0 then (v.cnt : Int) + key else key).toNat x
          rw [hda] at hpd
          rw [hs2]
          exact hpd

/-! ## Claim theorems -/

theorem pop_tail_preserves (cnt : Nat) :
    ∀ (level : Nat) (s : VStore α) (a : Nat),
      storePreserved s (Vector_pop_tail s cnt level a).2 := by
  intro level
  induction level using Nat.strong_induction_on with
  | _ level ih =>
    intro s a
    rw [Vector_pop_tail]
    by_cases hlv : BITS < level
    · rw [if_pos hlv]
      split
      next c hslc =>
        split
        next new_child s1 hrec =>
          have hp1 := ih (level - BITS) (by simp only [BITS] at *; omega) s c
          rw [hrec] at hp1
          by_cases hz : new_child = none ∧ ((cnt - 2) >>> level) &&& MASK = 0
          · rw [if_pos hz]
            exact hp1
          · rw [if_neg hz]
            have hp2 := clone_preserves s1 a none
            have hf2 := clone_fst s1 a none
            exact nodeWriteSlot_preserves _ _ _
              (storePreserved_trans hp1 hp2)
              (by rw [hf2]; exact hp1.1)
      next hnc => exact storePreserved_refl s
    · rw [if_neg hlv]
      by_cases hz : ((cnt - 2) >>> level) &&& MASK = 0
      · rw [if_pos hz]
        exact storePreserved_refl s
      · rw [if_neg hz]
        have hp1 := clone_preserves s a none
        have hf1 := clone_fst s a none
        show storePreserved s (nodeWriteSlot (VectorNode_clone s a none).2
          (VectorNode_clone s a none).1 (((cnt - 2) >>> level) &&& MASK) .null)
        refine nodeWriteSlot_preserves _ _ _ hp1 ?_
        rw [hf1]

theorem Vector_pop_preserves (s : VStore α) (v : Vector α) :
    storePreserved s (Vector_pop s v).2 := by
  rw [Vector_pop]
  by_cases h0 : v.cnt = 0
  · rw [if_pos h0]
    exact storePreserved_refl s
  · rw [if_neg h0]
    by_cases h1 : v.cnt = 1
    · rw [if_pos h1]
      exact storePreserved_refl s
    · rw [if_neg h1]
      by_cases h2 : 1 < v.cnt - Vector_tail_off v
      · rw [if_pos h2]
        exact storePreserved_refl s
      · rw [if_neg h2]
        cases hlt : Vector_leafTail s v with
        | none => exact storePreserved_refl s
        | some new_tail =>
          have hp1 := pop_tail_preserves v.cnt v.shift s v.root
          exact hp1

/-! ### Concrete store reads and closure under the allocation sites,
toward the 0..n conj scenario invariant. -/

theorem alloc_read_new (s : VStore α) (d : VNodeData α) :
    (s.alloc d).2.read? s.nodes.length = some d := by
  show (s.nodes ++ [d]).get? s.nodes.length = some d
  exact List.get?_concat_length s.nodes d

theorem alloc_read_old (s : VStore α) (d : VNodeData α) {a : Nat}
    (ha : a < s.nodes.length) : (s.alloc d).2.read? a = s.read? a :=
  (alloc_preserves s d).2 a ha

theorem clone_read_new (s : VStore α) (a : Nat) (tid : Option Nat)
    {d : VNodeData α} (h : s.read? a = some d) :
    (VectorNode_clone s a tid).2.read? (VectorNode_clone s a tid).1 =
      some ⟨d.slots, tid⟩ := by
  rw [VectorNode_clone]
  simp only [h]
  exact alloc_read_new s ⟨d.slots, tid⟩

theorem nodeWriteSlot_read_same (s : VStore α) (a idx : Nat) (sl : VSlot α)
    {d : VNodeData α} (h : s.read? a = some d) :
    (nodeWriteSlot s a idx sl).read? a = some ⟨d.slots.set idx sl, d.tid⟩ := by
  rw [nodeWriteSlot]
  simp only [h]
  show (s.nodes.set a _).get? a = _
  rw [List.get?_set_eq, show s.nodes.get? a = some d from h]
  rfl

theorem nodeWriteSlot_read_ne (s : VStore α) (a idx : Nat) (sl : VSlot α)
    (b : Nat) (hne : b ≠ a) :
    (nodeWriteSlot s a idx sl).read? b = s.read? b := by
  rw [nodeWriteSlot]
  cases hr : s.read? a with
  | none => rfl
  | some d =>
    show (s.nodes.set a _).get? b = _
    rw [List.get?_set_ne _ _ (fun hh => hne hh.symm)]
    rfl

theorem slotOkB_mono {n n2 : Nat} (h : n ≤ n2) {sl : VSlot α}
    (hs : slotOkB n sl = true) : slotOkB n2 sl = true := by
  cases sl with
  | child a2 =>
    simp only [slotOkB, decide_eq_true_eq] at hs ⊢
    omega
  | null => rfl
  | elem x => rfl

theorem storeClosedB_alloc {s : VStore α} (hc : storeClosedB s = true)
    {d : VNodeData α}
    (hd : ∀ sl ∈ d.slots, slotOkB (s.nodes.length + 1) sl = true) :
    storeClosedB (s.alloc d).2 = true := by
  rw [storeClosedB_iff]
  simp only [alloc_len]
  intro d2 hd2 sl hsl
  rcases List.mem_append.mp hd2 with hm | hm
  · exact slotOkB_mono (by omega) (storeClosedB_iff.mp hc d2 hm sl hsl)
  · rw [List.mem_singleton] at hm
    subst hm
    exact hd sl hsl

theorem storeClosedB_writeSlot {s : VStore α} (hc : storeClosedB s = true)
    (a idx : Nat) {sl : VSlot α}
    (hsl : slotOkB s.nodes.length sl = true) :
    storeClosedB (nodeWriteSlot s a idx sl) = true := by
  rw [nodeWriteSlot]
  cases hr : s.read? a with
  | none => exact hc
  | some d =>
    rw [storeClosedB_iff]
    have hlen : (s.write a ⟨d.slots.set idx sl, d.tid⟩).nodes.length =
        s.nodes.length := by
      show (s.nodes.set a _).length = s.nodes.length
      rw [List.length_set]
    simp only [hlen]
    intro d2 hd2 sl2 hsl2
    rcases List.mem_or_eq_of_mem_set hd2 with hm | rfl
    · exact storeClosedB_iff.mp hc d2 hm sl2 hsl2
    · rcases List.mem_or_eq_of_mem_set hsl2 with hm2 | rfl
      · exact storeClosedB_iff.mp hc d (List.get?_mem hr) sl2 hm2
      · exact hsl

theorem storeSlots32B_alloc {s : VStore α} (h : storeSlots32B s = true)
    {d : VNodeData α} (hd : d.slots.length = WIDTH) :
    storeSlots32B (s.alloc d).2 = true := by
  rw [storeSlots32B, List.all_eq_true]
  intro d2 hd2
  rcases List.mem_append.mp hd2 with hm | hm
  · rw [storeSlots32B, List.all_eq_true] at h
    exact h d2 hm
  · rw [List.mem_singleton] at hm
    subst hm
    simp [hd]

theorem storeSlots32B_writeSlot {s : VStore α} (h : storeSlots32B s = true)
    (a idx : Nat) (sl : VSlot α) :
    storeSlots32B (nodeWriteSlot s a idx sl) = true := by
  rw [nodeWriteSlot]
  cases hr : s.read? a with
  | none => exact h
  | some d =>
    rw [storeSlots32B, List.all_eq_true]
    intro d2 hd2
    rcases List.mem_or_eq_of_mem_set hd2 with hm | rfl
    · rw [storeSlots32B, List.all_eq_true] at h
      exact h d2 hm
    · rw [storeSlots32B, List.all_eq_true] at h
      have h2 := h d (List.get?_mem hr)
      simp only [beq_iff_eq] at h2 ⊢
      rw [List.length_set]
      exact h2

theorem slots32_of_read {s : VStore α} (h32 : storeSlots32B s = true)
    {a : Nat} {d : VNodeData α} (h : s.read? a = some d) :
    d.slots.length = WIDTH := by
  rw [storeSlots32B, List.all_eq_true] at h32
  simpa using h32 d (List.get?_mem h)

theorem shiftr_bits (x : Nat) : x >>> BITS = x / 32 := by
  rw [Nat.shiftRight_eq_div_pow]
  norm_num [BITS]

theorem shiftl_bits (x : Nat) : x <<< BITS = x * 32 := by
  rw [Nat.shiftLeft_eq]
  norm_num [BITS]

theorem and_mask_eq_mod (x : Nat) : x &&& MASK = x % 32 := by
  have h := Nat.and_pow_two_sub_one_eq_mod x 5
  norm_num at h
  rw [show MASK = 31 from rfl]
  exact h

theorem tail_off_eq (v : Vector α) :
    Vector_tail_off v = if v.cnt < 32 then 0 else ((v.cnt - 1) / 32) * 32 := by
  rw [Vector_tail_off, shiftr_bits, shiftl_bits]
  rfl

/-- The right shift by the literal BITS value. -/
theorem shiftr5 (x : Nat) : x >>> 5 = x / 32 := shiftr_bits x

theorem clone_len (s : VStore α) (a : Nat) (tid : Option Nat) :
    (VectorNode_clone s a tid).2.nodes.length = s.nodes.length + 1 := by
  rw [VectorNode_clone]
  cases hr : s.read? a <;> exact alloc_len _ _

theorem nodeSlot_of_read {s : VStore α} {a : Nat} {d : VNodeData α}
    (h : s.read? a = some d) (idx : Nat) :
    nodeSlot s a idx = (d.slots.get? idx).getD .null := by
  rw [nodeSlot, h]

/-- The scenario invariant, proven by induction on the number of pushes:
the room case only appends to the tail, and the overflow case hangs the
promoted 32-element leaf off a clone of the root, whose other slots keep
addressing the untouched old children.  The store-wide 32-slot width fact
rides along to know the root clone copies a full slot array. -/
theorem conjRangeInv_strong :
    ∀ n, n ≤ 1056 → conjRangeInv n ∧ storeSlots32B (conjRange n).2 = true := by
  intro n
  induction n with
  | zero =>
    intro _
    refine ⟨⟨rfl, rfl, rfl, by decide, by decide, rfl, ?_⟩, by decide⟩
    intro i hi
    exact absurd hi (by omega)
  | succ n ih =>
    intro hle
    obtain ⟨⟨hcnt, hshift, htid, hroot, hclosed, htail, helem⟩, hslots⟩ :=
      ih (by omega)
    rw [conjRangeInv, conjRange_succ_eq]
    set v := (conjRange n).1 with hv
    set s := (conjRange n).2 with hs
    have htoffv : Vector_tail_off v =
        if n < 32 then 0 else ((n - 1) / 32) * 32 := by
      rw [tail_off_eq, hcnt]
    have hoffle : Vector_tail_off v ≤ n := by
      rw [htoffv]; split <;> omega
    have hlen_tail : v.tail.length = n - Vector_tail_off v := by
      rw [htail]; simp
    by_cases hroom : v.cnt - Vector_tail_off v < WIDTH
    · -- room in the tail: the store is untouched and the tail grows
      have hroomn : n - (if n < 32 then 0 else (n - 1) / 32 * 32) < 32 := by
        rw [hcnt, htoffv] at hroom
        exact hroom
      have hconj : Vector_conj s v (n : Nat) =
          ({ v with cnt := v.cnt + 1, tail := v.tail ++ [n] }, s) := by
        rw [Vector_conj]
        simp only [htid]
        rw [if_pos hroom]
      have htoff' : Vector_tail_off (⟨v.cnt + 1, v.shift, v.root,
          v.tail ++ [n], v.tid⟩ : Vector Nat) = Vector_tail_off v := by
        rw [tail_off_eq]
        show (if v.cnt + 1 < 32 then 0 else (v.cnt + 1 - 1) / 32 * 32) = _
        rw [hcnt, htoffv]
        by_cases h : n < 32
        · rw [if_pos h]
          by_cases h2 : n + 1 < 32
          · rw [if_pos h2]
          · rw [if_neg h2]
            omega
        · rw [if_neg h] at hroomn
          rw [if_neg h, if_neg (by omega)]
          omega
      refine ⟨⟨?_, ?_, ?_, ?_, ?_, ?_, ?_⟩, ?_⟩
      · rw [hconj]
        show v.cnt + 1 = n + 1
        omega
      · rw [hconj]
        exact hshift
      · rw [hconj]
        exact htid
      · rw [hconj]
        exact hroot
      · rw [hconj]
        exact hclosed
      · rw [hconj]
        show v.tail ++ [n] =
          (List.range (n + 1 - Vector_tail_off (⟨v.cnt + 1, v.shift, v.root,
            v.tail ++ [n], v.tid⟩ : Vector Nat))).map
            (Vector_tail_off (⟨v.cnt + 1, v.shift, v.root,
              v.tail ++ [n], v.tid⟩ : Vector Nat) + ·)
        rw [htoff', htail]
        rw [show n + 1 - Vector_tail_off v = (n - Vector_tail_off v) + 1 from
          by omega]
        rw [List.range_succ, List.map_append]
        simp only [List.map_cons, List.map_nil]
        rw [show Vector_tail_off v + (n - Vector_tail_off v) = n from by omega]
      · intro i hi
        rw [hconj]
        show Vector_elemAt s (⟨v.cnt + 1, v.shift, v.root, v.tail ++ [n],
          v.tid⟩ : Vector Nat) i = some i
        rw [Vector_elemAt, htoff']
        by_cases hge : Vector_tail_off v ≤ i
        · rw [if_pos hge]
          by_cases hin : i < n
          · have hilt : i - Vector_tail_off v < v.tail.length := by
              rw [hlen_tail]; omega
            rw [List.get?_append hilt]
            rw [htail, List.get?_map,
              List.get?_range (show i - Vector_tail_off v <
                n - Vector_tail_off v from by omega)]
            show some (Vector_tail_off v + (i - Vector_tail_off v)) = some i
            rw [show Vector_tail_off v + (i - Vector_tail_off v) = i from
              by omega]
          · have hieq : i = n := by omega
            rw [hieq]
            rw [List.get?_append_right (by rw [hlen_tail])]
            rw [hlen_tail]
            rw [show n - Vector_tail_off v - (n - Vector_tail_off v) = 0 from
              by omega]
            rfl
        · rw [if_neg hge]
          have hin : i < n := by omega
          have hold := helem i hin
          rw [Vector_elemAt, if_neg hge] at hold
          exact hold
      · rw [hconj]
        exact hslots
    · -- tail full: the count is a positive multiple of 32; the tail is
      -- promoted to a fresh leaf hung off a clone of the root
      have hroomn : ¬ n - (if n < 32 then 0 else (n - 1) / 32 * 32) < 32 := by
        rw [hcnt, htoffv] at hroom
        exact hroom
      have h32n : 32 ≤ n := by
        by_cases h : n < 32
        · rw [if_pos h] at hroomn
          omega
        · omega
      have hmod : n % 32 = 0 := by
        rw [if_neg (by omega)] at hroomn
        omega
      have hn1024 : n ≤ 1024 := by omega
      have hoff : Vector_tail_off v = n - 32 := by
        rw [htoffv, if_neg (by omega)]
        omega
      have hlen32 : v.tail.length = 32 := by
        rw [hlen_tail, hoff]
        omega
      have hnp : ¬ 1 <<< v.shift < v.cnt >>> BITS := by
        rw [hshift, hcnt, shiftr_bits]
        show ¬ 32 < n / 32
        omega
      have htake : v.tail.take WIDTH = v.tail := by
        apply List.take_of_length_le
        rw [hlen32]
        decide
      have hleaflen : ((v.tail.take WIDTH).map VSlot.elem).length = WIDTH := by
        rw [htake, List.length_map, hlen32]
        rfl
      have hleaf : (v.tail.take WIDTH).map VSlot.elem ++
          List.replicate (WIDTH - ((v.tail.take WIDTH).map VSlot.elem).length)
            VSlot.null = v.tail.map VSlot.elem := by
        rw [hleaflen, Nat.sub_self, List.replicate_zero, List.append_nil, htake]
      have hconj : Vector_conj s v (n : Nat) =
          ({ cnt := v.cnt + 1, shift := v.shift,
             root := (Vector_push_tail none v.cnt
               (s.alloc ⟨v.tail.map VSlot.elem, none⟩).2 v.shift v.root
               (s.alloc ⟨v.tail.map VSlot.elem, none⟩).1).1,
             tail := [n], tid := none },
           (Vector_push_tail none v.cnt
             (s.alloc ⟨v.tail.map VSlot.elem, none⟩).2 v.shift v.root
             (s.alloc ⟨v.tail.map VSlot.elem, none⟩).1).2) := by
        rw [Vector_conj]
        simp only [htid]
        rw [if_neg hroom, if_neg hnp, hleaf]
      have halloc1 : (s.alloc (⟨v.tail.map VSlot.elem, none⟩ :
          VNodeData Nat)).1 = s.nodes.length := rfl
      rw [halloc1] at hconj
      set sA := (s.alloc (⟨v.tail.map VSlot.elem, none⟩ :
        VNodeData Nat)).2 with hsAdef
      have hsub : ((v.cnt - 1) >>> v.shift) &&& MASK = n / 32 - 1 := by
        rw [hcnt, hshift, shiftr5, and_mask_eq_mod]
        omega
      have hpt : Vector_push_tail none v.cnt sA v.shift v.root
            s.nodes.length =
          ((VectorNode_clone sA v.root none).1,
           nodeWriteSlot (VectorNode_clone sA v.root none).2
             (VectorNode_clone sA v.root none).1
             (((v.cnt - 1) >>> v.shift) &&& MASK)
             (.child s.nodes.length)) := by
        rw [Vector_push_tail]
        simp only [editable_none, Bool.false_eq_true, if_false]
        rw [if_pos (show v.shift ≤ BITS from by rw [hshift]; decide)]
      rw [hsub] at hpt
      have hconj2 : Vector_conj s v (n : Nat) =
          ({ cnt := v.cnt + 1, shift := v.shift,
             root := (VectorNode_clone sA v.root none).1,
             tail := [n], tid := none },
           nodeWriteSlot (VectorNode_clone sA v.root none).2
             (VectorNode_clone sA v.root none).1 (n / 32 - 1)
             (.child s.nodes.length)) := by
        rw [hconj, hpt]
      set retc := (VectorNode_clone sA v.root none).1 with hretcdef
      set s2c := (VectorNode_clone sA v.root none).2 with hs2cdef
      set sF := nodeWriteSlot s2c retc (n / 32 - 1)
        (VSlot.child s.nodes.length) with hsFdef
      -- the old root node
      cases hgd : s.read? v.root with
      | none =>
        rw [VStore.read?, List.get?_eq_none] at hgd
        omega
      | some d =>
      have hd32 : d.slots.length = WIDTH := slots32_of_read hslots hgd
      have hd32' : d.slots.length = 32 := by rw [hd32]; decide
      -- lengths and frame facts
      have hsA_len : sA.nodes.length = s.nodes.length + 1 := by
        rw [hsAdef]
        exact alloc_len s _
      have hsA_pres : storePreserved s sA := by
        rw [hsAdef]
        exact alloc_preserves s _
      have hsA_tn : sA.read? s.nodes.length =
          some ⟨v.tail.map VSlot.elem, none⟩ := by
        rw [hsAdef]
        exact alloc_read_new s _
      have hsAroot : sA.read? v.root = some d := by
        rw [hsAdef, alloc_read_old s _ hroot]
        exact hgd
      have hretc_eq : retc = sA.nodes.length := by
        rw [hretcdef]
        exact clone_fst sA v.root none
      have hs2c_len : s2c.nodes.length = sA.nodes.length + 1 := by
        rw [hs2cdef]
        exact clone_len sA v.root none
      have hsF_len : sF.nodes.length = sA.nodes.length + 1 := by
        rw [hsFdef, nodeWriteSlot_len, hs2c_len]
      have hclone_new : s2c.read? retc = some ⟨d.slots, none⟩ := by
        rw [hs2cdef, hretcdef]
        exact clone_read_new sA v.root none hsAroot
      have hsF_retc : sF.read? retc =
          some ⟨d.slots.set (n / 32 - 1) (.child s.nodes.length), none⟩ := by
        rw [hsFdef]
        exact nodeWriteSlot_read_same s2c retc (n / 32 - 1)
          (.child s.nodes.length) hclone_new
      have hsF_tn : sF.read? s.nodes.length =
          some ⟨v.tail.map VSlot.elem, none⟩ := by
        rw [hsFdef]
        rw [nodeWriteSlot_read_ne _ _ _ _ _
          (show s.nodes.length ≠ retc from by rw [hretc_eq, hsA_len]; omega)]
        rw [hs2cdef, (clone_preserves sA v.root none).2 s.nodes.length
          (by rw [hsA_len]; omega)]
        exact hsA_tn
      have hsF_presA : storePreserved sA sF := by
        rw [hsFdef, hs2cdef, hretcdef]
        exact nodeWriteSlot_preserves _ _ _ (clone_preserves sA v.root none)
          (by rw [clone_fst])
      have hsF_pres : storePreserved s sF :=
        storePreserved_trans hsA_pres hsF_presA
      -- closure and slot widths
      have hclosedA : storeClosedB sA = true := by
        rw [hsAdef]
        refine storeClosedB_alloc hclosed ?_
        intro sl hsl
        rw [List.mem_map] at hsl
        obtain ⟨x, _, rfl⟩ := hsl
        rfl
      have hclosedC : storeClosedB s2c = true := by
        rw [hs2cdef, VectorNode_clone]
        simp only [hsAroot]
        refine storeClosedB_alloc hclosedA ?_
        intro sl hsl
        exact slotOkB_mono (by omega)
          (storeClosedB_iff.mp hclosed d (List.get?_mem hgd) sl hsl)
      have hclosedF : storeClosedB sF = true := by
        rw [hsFdef]
        refine storeClosedB_writeSlot hclosedC retc (n / 32 - 1) ?_
        show slotOkB s2c.nodes.length (VSlot.child s.nodes.length) = true
        simp only [slotOkB, decide_eq_true_eq]
        rw [hs2c_len, hsA_len]
        omega
      have hslots32A : storeSlots32B sA = true := by
        rw [hsAdef]
        refine storeSlots32B_alloc hslots ?_
        show (v.tail.map VSlot.elem).length = WIDTH
        rw [List.length_map, hlen32]
        rfl
      have hslots32C : storeSlots32B s2c = true := by
        rw [hs2cdef, VectorNode_clone]
        simp only [hsAroot]
        exact storeSlots32B_alloc hslots32A hd32
      have hslots32F : storeSlots32B sF = true := by
        rw [hsFdef]
        exact storeSlots32B_writeSlot hslots32C retc (n / 32 - 1) _
      -- the new tail offset
      have htoffN : Vector_tail_off (⟨v.cnt + 1, v.shift, retc, [n], none⟩ :
          Vector Nat) = n := by
        rw [tail_off_eq]
        show (if v.cnt + 1 < 32 then 0 else (v.cnt + 1 - 1) / 32 * 32) = n
        rw [hcnt, if_neg (by omega)]
        omega
      -- one-step descend through the written root clone
      have hdesc : ∀ i c, nodeSlot sF retc ((i >>> 5) &&& MASK) = .child c →
          Vector_descend sF retc 5 i = some c := by
        intro i c hc
        rw [Vector_descend, if_neg (by decide)]
        simp only [hc]
        rw [Vector_descend, if_pos (show 5 - BITS = 0 from by decide)]
      refine ⟨⟨?_, ?_, ?_, ?_, ?_, ?_, ?_⟩, ?_⟩
      · rw [hconj2]
        show v.cnt + 1 = n + 1
        omega
      · rw [hconj2]
        exact hshift
      · rw [hconj2]
      · rw [hconj2]
        show retc < sF.nodes.length
        omega
      · rw [hconj2]
        exact hclosedF
      · rw [hconj2]
        show [n] = (List.range (n + 1 - Vector_tail_off (⟨v.cnt + 1, v.shift,
          retc, [n], none⟩ : Vector Nat))).map
          (Vector_tail_off (⟨v.cnt + 1, v.shift, retc, [n], none⟩ :
            Vector Nat) + ·)
        rw [htoffN, show n + 1 - n = 1 from by omega]
        simp [List.range_succ]
      · intro i hi
        rw [hconj2]
        show Vector_elemAt sF (⟨v.cnt + 1, v.shift, retc, [n], none⟩ :
          Vector Nat) i = some i
        rw [Vector_elemAt, htoffN]
        by_cases hieq : i = n
        · rw [if_pos (by omega)]
          rw [hieq, Nat.sub_self]
          rfl
        · have hin : i < n := by omega
          rw [if_neg (by omega)]
          rw [hshift]
          have hblk : (i >>> 5) &&& MASK = i / 32 := by
            rw [shiftr5, and_mask_eq_mod]
            omega
          by_cases hge : n - 32 ≤ i
          · -- the element sits in the freshly promoted leaf
            have hb : i / 32 = n / 32 - 1 := by omega
            have hcs : nodeSlot sF retc ((i >>> 5) &&& MASK) =
                .child s.nodes.length := by
              rw [nodeSlot_of_read hsF_retc, hblk, hb]
              have hlt : n / 32 - 1 < d.slots.length := by
                rw [hd32']
                omega
              cases hsl0 : d.slots.get? (n / 32 - 1) with
              | none =>
                rw [List.get?_eq_none] at hsl0
                omega
              | some sl0 =>
                rw [List.get?_set_eq, hsl0]
                rfl
            have hdesc1 := hdesc i _ hcs
            have hleafslot : nodeSlot sF s.nodes.length (i &&& MASK) =
                .elem i := by
              rw [nodeSlot_of_read hsF_tn, and_mask_eq_mod]
              rw [htail, hoff, List.map_map, List.get?_map,
                List.get?_range (show i % 32 < n - (n - 32) from by omega)]
              show VSlot.elem (n - 32 + i % 32) = VSlot.elem i
              rw [show n - 32 + i % 32 = i from by omega]
            simp only [hdesc1, hleafslot]
          · -- the element sits below an untouched old child
            have hold := helem i (by omega)
            rw [Vector_elemAt, if_neg (by rw [hoff]; omega)] at hold
            rw [hshift] at hold
            rw [Vector_descend, if_neg (by decide)] at hold
            have hcs : nodeSlot sF retc ((i >>> 5) &&& MASK) =
                nodeSlot s v.root ((i >>> 5) &&& MASK) := by
              rw [nodeSlot_of_read hsF_retc, nodeSlot_of_read hgd, hblk]
              rw [List.get?_set_ne _ _
                (show n / 32 - 1 ≠ i / 32 from by omega)]
            cases hsl : nodeSlot s v.root ((i >>> 5) &&& MASK) with
            | child c =>
              simp only [hsl] at hold
              rw [Vector_descend,
                if_pos (show 5 - BITS = 0 from by decide)] at hold
              simp only [] at hold
              cases hsl2 : nodeSlot s c (i &&& MASK) with
              | elem x =>
                simp only [hsl2] at hold
                have hx : x = i := by
                  simpa using hold
                have hc_lt : c < s.nodes.length := storeClosed_child hclosed hsl
                have hnew1 : nodeSlot sF retc ((i >>> 5) &&& MASK) =
                    .child c := by
                  rw [hcs, hsl]
                have hdesc1 := hdesc i _ hnew1
                have hnew2 : nodeSlot sF c (i &&& MASK) = .elem i := by
                  rw [nodeSlot_preserved hsF_pres hc_lt, hsl2, hx]
                simp only [hdesc1, hnew2]
              | null =>
                simp only [hsl2] at hold
                exact Option.noConfusion hold
              | child c2 =>
                simp only [hsl2] at hold
                exact Option.noConfusion hold
            | null =>
              simp only [hsl] at hold
              exact Option.noConfusion hold
            | elem y =>
              simp only [hsl] at hold
              exact Option.noConfusion hold
      · rw [hconj2]
        exact hslots32F

/-- The invariant of the 0..n-1 conj scenario holds for every count up
to the promotion threshold; in particular every element reads back at its
own index. -/
theorem conjRangeInv_holds (n : Nat) (hn : n ≤ 1056) : conjRangeInv n :=
  (conjRangeInv_strong n hn).1

/-- C1: data flow is strictly functional on the persistent side, for
every modelled family and operation.  Vector is embedded with an explicit
node store, the one place mutation is observable: conj, assoc and pop on
a persistent vector (transient token none, allocated root, closed store)
write only freshly allocated nodes, so every observation of the receiver
(indexed access at every key, the structural hash, and the count, a
field of the untouched receiver) is unchanged, while conj hands back a
new value whose count is one larger.  The other families build their
results by path copying, which the value embedding mirrors: Map assoc
and dissoc and Set conj and disj hand back either the receiver itself
(the same branch of the C code) or a freshly created object, never a
mutated one, and assoc of an absent key yields a fresh map one entry
larger; SortedVector conj returns a new vector one element larger with
the direction flag intact; conj on the primitive f64 and i64 vectors
returns a copy with the converted element appended; and cons
construction stores the receiver chain as the rest of a new cell without
copying or changing it. -/
theorem C1_persistence_frame {γ : Type} [DecidableEq ν] (s : VStore α)
    (v : Vector α) (x : α) (ehash : α → Int) (hash2 : κ → Nat) (m : Map κ ν)
    (k : κ) (w : ν) (st : SetV κ) (kf : γ → κ) (sv : SortedVector γ κ)
    (y2 : γ) (dv : DoubleVector) (iv : IntVector) (val : PyVal)
    (c : ConsCell Int) (y : Int)
    (htid : v.tid = none) (hcl : storeClosedB s = true)
    (hroot : v.root < s.nodes.length) (hwfm : mapWFB hash2 m = true) :
    (storePreserved s (Vector_conj s v x).2 ∧
      (Vector_conj s v x).1.cnt = v.cnt + 1 ∧
      (∀ key, Vector_getitem (Vector_conj s v x).2 v key =
        Vector_getitem s v key) ∧
      Vector_hash ehash (Vector_conj s v x).2 v = Vector_hash ehash s v) ∧
    (∀ (key : Int) (v2 : Vector α) (s2 : VStore α),
      Vector_assoc s v key x = some (v2, s2) →
      storePreserved s s2 ∧
      (∀ key2, Vector_getitem s2 v key2 = Vector_getitem s v key2) ∧
      Vector_hash ehash s2 v = Vector_hash ehash s v) ∧
    (storePreserved s (Vector_pop s v).2 ∧
      (∀ key, Vector_getitem (Vector_pop s v).2 v key =
        Vector_getitem s v key) ∧
      Vector_hash ehash (Vector_pop s v).2 v = Vector_hash ehash s v) ∧
    (∀ R, Map_assoc hash2 m k w = some R →
      (R = .same ∨ ∃ m2, R = MapRet.newObj m2) ∧
      (Map_contains hash2 m k = false →
        ∃ m2, R = MapRet.newObj m2 ∧ m2.cnt = m.cnt + 1)) ∧
    (∀ R, Map_dissoc hash2 m k = some R →
      R = .same ∨ ∃ m2, R = MapRet.newObj m2) ∧
    (∀ R, Set_conj hash2 st k = some R →
      R = .same ∨ ∃ st2, R = SetRet.newObj st2) ∧
    (∀ R, Set_disj hash2 st k = some R →
      R = .same ∨ ∃ st2, R = SetRet.newObj st2) ∧
    ((SortedVector_conj kf sv y2).cnt = sv.cnt + 1 ∧
      (SortedVector_conj kf sv y2).reverse = sv.reverse) ∧
    (∀ w2, DoubleVector_conj dv val = .ok w2 →
      ∃ d, w2.elems = dv.elems ++ [d]) ∧
    (∀ w2, IntVector_conj iv val = .ok w2 →
      ∃ n2, w2.elems = iv.elems ++ [n2]) ∧
    (Cons_first (pds_cons y (.more c)) = y ∧
      Cons_rest (pds_cons y (.more c)) = .more c) := by
  refine ⟨?_, ?_, ?_, ?_, ?_, ?_, ?_, ⟨rfl, rfl⟩, ?_, ?_, ⟨rfl, rfl⟩⟩
  · have hp := Vector_conj_preserves s v x htid
    refine ⟨hp, Vector_conj_cnt_eq s v x, ?_, ?_⟩
    · intro key
      exact getitem_preserved hp hcl v hroot key
    · exact hash_preserved hp hcl ehash v hroot
  · intro key v2 s2 hr
    have hp := Vector_assoc_preserves s v key x htid v2 s2 hr
    refine ⟨hp, ?_, ?_⟩
    · intro key2
      exact getitem_preserved hp hcl v hroot key2
    · exact hash_preserved hp hcl ehash v hroot
  · have hp := Vector_pop_preserves s v
    refine ⟨hp, ?_, ?_⟩
    · intro key
      exact getitem_preserved hp hcl v hroot key
    · exact hash_preserved hp hcl ehash v hroot
  · intro R hr
    rw [Map_assoc] at hr
    simp only [bind, Option.bind_eq_some] at hr
    obtain ⟨res, hras, hr⟩ := hr
    have hwfr : nodeWFB hash2 (m.root.getD (.bin 0 [])) = true := by
      cases hroot2 : m.root with
      | none => exact empty_bin_wf hash2
      | some r =>
        rw [mapWFB] at hwfm
        simp only [hroot2] at hwfm
        simp only [hroot2, Option.getD_some]
        exact hwfm
    have H := (node_assoc_sound hash2 hamtFuel).1 (m.root.getD (.bin 0 []))
      0 k w res hwfr hras
    constructor
    · cases res with
      | same =>
        cases hroot2 : m.root with
        | some r =>
          simp only [hroot2] at hr
          injection hr with hr2
          subst hr2
          exact Or.inl rfl
        | none =>
          simp only [hroot2] at hr
          injection hr with hr2
          subst hr2
          exact Or.inr ⟨_, rfl⟩
      | node n2 added =>
        injection hr with hr2
        subst hr2
        exact Or.inr ⟨_, rfl⟩
    · intro hcont
      have hfnone : Map_find hash2 m k = none := by
        cases hF : Map_find hash2 m k with
        | none => rfl
        | some w0 =>
          rw [Map_contains, hF] at hcont
          cases hcont
      have hfn : (m.root.getD (.bin 0 [])).find 0 (hash2 k) k = none := by
        rw [Map_find] at hfnone
        cases hroot2 : m.root with
        | none =>
          simp only [hroot2, Option.getD_none]
          rw [empty_bin_find_none]
        | some r =>
          simp only [hroot2] at hfnone
          simp only [hroot2, Option.getD_some]
          exact hfnone
      cases res with
      | same =>
        exfalso
        have h1 := H.2.1
        rw [result_same] at h1
        rw [hfn] at h1
        cases h1
      | node n2 added =>
        have hadd : added = true := by
          have h2 := H.2.2
          rw [addedFlag_node] at h2
          exact h2.mpr hfn
        subst hadd
        injection hr with hr2
        subst hr2
        exact ⟨_, rfl, by simp⟩
  · intro R hr
    rw [Map_dissoc] at hr
    cases hroot2 : m.root with
    | none =>
      simp only [hroot2] at hr
      injection hr with hr2
      subst hr2
      exact Or.inl rfl
    | some r =>
      simp only [hroot2, bind, Option.bind_eq_some] at hr
      obtain ⟨res, hds, hr⟩ := hr
      cases res with
      | same =>
        injection hr with hr2
        subst hr2
        exact Or.inl rfl
      | gone =>
        injection hr with hr2
        subst hr2
        exact Or.inr ⟨_, rfl⟩
      | node n2 =>
        injection hr with hr2
        subst hr2
        exact Or.inr ⟨_, rfl⟩
  · intro R hr
    rw [Set_conj] at hr
    simp only [bind, Option.bind_eq_some] at hr
    obtain ⟨res, hras, hr⟩ := hr
    cases res with
    | same =>
      cases hroot2 : st.root with
      | some r =>
        simp only [hroot2] at hr
        injection hr with hr2
        subst hr2
        exact Or.inl rfl
      | none =>
        simp only [hroot2] at hr
        injection hr with hr2
        subst hr2
        exact Or.inr ⟨_, rfl⟩
    | node n2 added =>
      injection hr with hr2
      subst hr2
      exact Or.inr ⟨_, rfl⟩
  · intro R hr
    rw [Set_disj] at hr
    cases hroot2 : st.root with
    | none =>
      simp only [hroot2] at hr
      injection hr with hr2
      subst hr2
      exact Or.inl rfl
    | some r =>
      simp only [hroot2, bind, Option.bind_eq_some] at hr
      obtain ⟨res, hds, hr⟩ := hr
      cases res with
      | same =>
        injection hr with hr2
        subst hr2
        exact Or.inl rfl
      | gone =>
        injection hr with hr2
        subst hr2
        exact Or.inr ⟨_, rfl⟩
      | node n2 =>
        injection hr with hr2
        subst hr2
        exact Or.inr ⟨_, rfl⟩
  · intro w2 hW
    rw [DoubleVector_conj] at hW
    cases hc2 : PyFloat_AsDouble val with
    | error e =>
      rw [hc2] at hW
      cases hW
    | ok d =>
      rw [hc2] at hW
      injection hW with h2
      exact ⟨d, by rw [← h2]⟩
  · intro w2 hW
    rw [IntVector_conj] at hW
    cases hc2 : PyLong_AsLongLong val with
    | error e =>
      rw [hc2] at hW
      cases hW
    | ok n2 =>
      rw [hc2] at hW
      injection hW with h2
      exact ⟨n2, by rw [← h2]⟩

/-- C1 witness: the empty vector in the initial store with element 0 and
the coercion hash, the one-entry map and set under the identity hash with
key 7, the empty ascending sorted vector with element 5, the empty
primitive vectors with the integer 1, and a one-cell cons chain. -/
theorem C1_persistence_frame_witness :
    (emptyVec : Vector Nat).tid = none ∧
    storeClosedB (emptyVStore : VStore Nat) = true ∧
    (emptyVec : Vector Nat).root < (emptyVStore : VStore Nat).nodes.length ∧
    mapWFB idHash mapOne = true ∧
    ((storePreserved (emptyVStore : VStore Nat)
        (Vector_conj (emptyVStore : VStore Nat) (emptyVec : Vector Nat) 0).2 ∧
      (Vector_conj (emptyVStore : VStore Nat) (emptyVec : Vector Nat) 0).1.cnt =
        (emptyVec : Vector Nat).cnt + 1 ∧
      (∀ key, Vector_getitem
          (Vector_conj (emptyVStore : VStore Nat) (emptyVec : Vector Nat) 0).2
          (emptyVec : Vector Nat) key =
        Vector_getitem (emptyVStore : VStore Nat) (emptyVec : Vector Nat) key) ∧
      Vector_hash (Nat.cast : Nat → Int)
          (Vector_conj (emptyVStore : VStore Nat) (emptyVec : Vector Nat) 0).2
          (emptyVec : Vector Nat) =
        Vector_hash (Nat.cast : Nat → Int) (emptyVStore : VStore Nat)
          (emptyVec : Vector Nat)) ∧
    (∀ (key : Int) (v2 : Vector Nat) (s2 : VStore Nat),
      Vector_assoc (emptyVStore : VStore Nat) (emptyVec : Vector Nat) key 0 =
        some (v2, s2) →
      storePreserved (emptyVStore : VStore Nat) s2 ∧
      (∀ key2, Vector_getitem s2 (emptyVec : Vector Nat) key2 =
        Vector_getitem (emptyVStore : VStore Nat) (emptyVec : Vector Nat)
          key2) ∧
      Vector_hash (Nat.cast : Nat → Int) s2 (emptyVec : Vector Nat) =
        Vector_hash (Nat.cast : Nat → Int) (emptyVStore : VStore Nat)
          (emptyVec : Vector Nat)) ∧
    (storePreserved (emptyVStore : VStore Nat)
        (Vector_pop (emptyVStore : VStore Nat) (emptyVec : Vector Nat)).2 ∧
      (∀ key, Vector_getitem
          (Vector_pop (emptyVStore : VStore Nat) (emptyVec : Vector Nat)).2
          (emptyVec : Vector Nat) key =
        Vector_getitem (emptyVStore : VStore Nat) (emptyVec : Vector Nat) key) ∧
      Vector_hash (Nat.cast : Nat → Int)
          (Vector_pop (emptyVStore : VStore Nat) (emptyVec : Vector Nat)).2
          (emptyVec : Vector Nat) =
        Vector_hash (Nat.cast : Nat → Int) (emptyVStore : VStore Nat)
          (emptyVec : Vector Nat)) ∧
    (∀ R, Map_assoc idHash mapOne 7 3 = some R →
      (R = .same ∨ ∃ m2, R = MapRet.newObj m2) ∧
      (Map_contains idHash mapOne 7 = false →
        ∃ m2, R = MapRet.newObj m2 ∧ m2.cnt = mapOne.cnt + 1)) ∧
    (∀ R, Map_dissoc idHash mapOne 7 = some R →
      R = .same ∨ ∃ m2, R = MapRet.newObj m2) ∧
    (∀ R, Set_conj idHash setOne 7 = some R →
      R = .same ∨ ∃ st2, R = SetRet.newObj st2) ∧
    (∀ R, Set_disj idHash setOne 7 = some R →
      R = .same ∨ ∃ st2, R = SetRet.newObj st2) ∧
    ((SortedVector_conj (id : Nat → Nat)
        (emptySortedVector false : SortedVector Nat Nat) 5).cnt =
      (emptySortedVector false : SortedVector Nat Nat).cnt + 1 ∧
      (SortedVector_conj (id : Nat → Nat)
          (emptySortedVector false : SortedVector Nat Nat) 5).reverse =
        (emptySortedVector false : SortedVector Nat Nat).reverse) ∧
    (∀ w2, DoubleVector_conj ⟨[]⟩ (.int 1) = .ok w2 →
      ∃ d, w2.elems = (⟨[]⟩ : DoubleVector).elems ++ [d]) ∧
    (∀ w2, IntVector_conj ⟨[]⟩ (.int 1) = .ok w2 →
      ∃ n2, w2.elems = (⟨[]⟩ : IntVector).elems ++ [n2]) ∧
    (Cons_first (pds_cons (4 : Int) (.more (.cell 9 .pynone))) = (4 : Int) ∧
      Cons_rest (pds_cons (4 : Int) (.more (.cell 9 .pynone))) =
        .more (.cell 9 .pynone))) :=
  ⟨rfl, by decide, by decide, by decide,
    C1_persistence_frame emptyVStore emptyVec 0 (Nat.cast : Nat → Int)
      idHash mapOne 7 3 setOne (id : Nat → Nat)
      (emptySortedVector false : SortedVector Nat Nat) 5 ⟨[]⟩ ⟨[]⟩ (.int 1)
      (.cell 9 .pynone) 4 rfl (by decide) (by decide) (by decide)⟩

/-- C2: HashMap round-trip.  On a well-formed map, whenever assoc
succeeds, get of the inserted key on the result returns the inserted
value, the count grows by exactly one precisely when the key was absent
and is unchanged when it was present; and whenever dissoc succeeds,
contains of the key on the result is false. -/
theorem C2_hashmap_roundtrip [DecidableEq ν] (hash : κ → Nat) (m : Map κ ν)
    (k : κ) (v : ν) (hwf : mapWFB hash m = true) :
    (∀ R, Map_assoc hash m k v = some R →
      Map_find hash (R.value m) k = some v ∧
      ((R.value m).cnt = m.cnt + 1 ↔ Map_contains hash m k = false) ∧
      (Map_contains hash m k = true → (R.value m).cnt = m.cnt)) ∧
    (∀ R, Map_dissoc hash m k = some R →
      Map_contains hash (R.value m) k = false) := by
  constructor
  · intro R hr
    rw [Map_assoc] at hr
    simp only [bind, Option.bind_eq_some] at hr
    obtain ⟨res, hras, hr⟩ := hr
    have hwfr : nodeWFB hash (m.root.getD (.bin 0 [])) = true := by
      cases hroot : m.root with
      | none => exact empty_bin_wf hash
      | some r =>
        rw [mapWFB] at hwf
        simp only [hroot] at hwf
        simp only [hroot, Option.getD_some]
        exact hwf
    have H := (node_assoc_sound hash hamtFuel).1 (m.root.getD (.bin 0 []))
      0 k v res hwfr hras
    have hfind_eq : Map_find hash m k =
        (m.root.getD (.bin 0 [])).find 0 (hash k) k := by
      rw [Map_find]
      cases hroot : m.root with
      | none =>
        simp only [hroot, Option.getD_none]
        rw [empty_bin_find_none]
      | some r => simp only [hroot, Option.getD_some]
    cases res with
    | same =>
      have hfs : (m.root.getD (.bin 0 [])).find 0 (hash k) k = some v := by
        have h1 := H.2.1
        rw [result_same] at h1
        exact h1
      have hcont : Map_contains hash m k = true := by
        rw [Map_contains, hfind_eq, hfs]
        rfl
      cases hroot : m.root with
      | some r =>
        simp only [hroot] at hr
        injection hr with hr2
        subst hr2
        simp only [MapRet.value]
        refine ⟨by rw [hfind_eq]; exact hfs, ?_, fun _ => by trivial⟩
        rw [hcont]
        constructor
        · intro h1
          exact absurd h1 (by omega)
        · intro h2
          exact absurd h2 (by simp)
      | none =>
        exfalso
        rw [hroot, Option.getD_none, empty_bin_find_none] at hfs
        cases hfs
    | node n2 added =>
      injection hr with hr2
      subst hr2
      simp only [MapRet.value]
      have hflag := H.2.2
      rw [addedFlag_node] at hflag
      have hfn : Map_find hash (⟨m.cnt + (if added then 1 else 0), some n2⟩ :
          Map κ ν) k = some v := by
        rw [Map_find]
        have h1 := H.2.1
        rw [result_node] at h1
        exact h1
      refine ⟨hfn, ?_, ?_⟩
      · cases added with
        | true =>
          simp only [if_pos rfl]
          constructor
          · intro _
            rw [Map_contains, hfind_eq, hflag.mp rfl]
            rfl
          · intro _
            rfl
        | false =>
          simp only [if_neg (by simp : ¬ ((false : Bool) = true))]
          constructor
          · intro h1
            exact absurd h1 (by omega)
          · intro h2
            exfalso
            rw [Map_contains, hfind_eq] at h2
            cases hf2 : (m.root.getD (.bin 0 [])).find 0 (hash k) k with
            | none => exact Bool.noConfusion (hflag.mpr hf2)
            | some v2 =>
              rw [hf2] at h2
              cases h2
      · intro hcont
        cases added with
        | true =>
          exfalso
          rw [Map_contains, hfind_eq, hflag.mp rfl] at hcont
          cases hcont
        | false => simp
  · intro R hr
    rw [Map_dissoc] at hr
    cases hroot : m.root with
    | none =>
      simp only [hroot] at hr
      injection hr with hr2
      subst hr2
      simp only [MapRet.value]
      rw [Map_contains, Map_find]
      simp only [hroot]
      rfl
    | some r =>
      simp only [hroot, bind, Option.bind_eq_some] at hr
      obtain ⟨res, hds, hr⟩ := hr
      have hwfr : nodeWFB hash r = true := by
        rw [mapWFB] at hwf
        simp only [hroot] at hwf
        exact hwf
      have HD := node_dissoc_sound hash k hamtFuel r 0 hwfr
      cases res with
      | same =>
        injection hr with hr2
        subst hr2
        simp only [MapRet.value]
        rw [Map_contains, Map_find]
        simp only [hroot]
        rw [HD.1 hds]
        rfl
      | gone =>
        injection hr with hr2
        subst hr2
        simp only [MapRet.value]
        rw [Map_contains, Map_find]
        rfl
      | node n2 =>
        injection hr with hr2
        subst hr2
        simp only [MapRet.value]
        rw [Map_contains, Map_find]
        show ((n2.find 0 (hash k) k).isSome : Bool) = false
        rw [HD.2 n2 hds]
        rfl

/-- C2 witness: the concrete one-entry map holding 5 to 50 under the
identity hash, with key 7 and value 3. -/
theorem C2_hashmap_roundtrip_witness :
    mapWFB idHash mapOne = true ∧
    ((∀ R, Map_assoc idHash mapOne 7 3 = some R →
      Map_find idHash (R.value mapOne) 7 = some 3 ∧
      ((R.value mapOne).cnt = mapOne.cnt + 1 ↔
        Map_contains idHash mapOne 7 = false) ∧
      (Map_contains idHash mapOne 7 = true →
        (R.value mapOne).cnt = mapOne.cnt)) ∧
    (∀ R, Map_dissoc idHash mapOne 7 = some R →
      Map_contains idHash (R.value mapOne) 7 = false)) :=
  ⟨by decide, C2_hashmap_roundtrip idHash mapOne 7 3 (by decide)⟩

/-- C3 counterexample: in the literal scenario of the specification
(conj the integers 0 to 1024 onto the empty vector), the shift after
element 1024 is appended is still 5, not the promised 10.  The vector
then holds 1025 elements, and the root is first promoted much later, on
the push that makes the count 1057. -/
theorem C3_shift_after_element_1024_is_five :
    (conjRange 1025).1.shift = 5 ∧ (conjRange 1025).1.cnt = 1025 :=
  ⟨conjRange_shift_five 1025 (by omega), conjRange_cnt_eq 1025⟩

/-- C3 amended: on a tail-push conj a fresh root is allocated and the
shift grows by 5 exactly when the count shifted right by 5 exceeds 1
shifted left by the shift, and the shift is unchanged whenever that test
fails; under this rule the 0..1024 scenario ends with count 1025,
get(0) equal to 0 and get(1024) equal to 1024 as promised, but with the
shift still 5, and the first promotion is the push that makes the count
1057, lifting the shift to 10. -/
theorem C3_root_promotion_rule :
    (∀ (s : VStore Nat) (v : Vector Nat) (x : Nat),
      ¬ v.cnt - Vector_tail_off v < WIDTH →
      1 <<< v.shift < v.cnt >>> BITS →
      (Vector_conj s v x).1.shift = v.shift + BITS ∧
      (Vector_conj s v x).1.root = s.nodes.length + 1) ∧
    (∀ (s : VStore Nat) (v : Vector Nat) (x : Nat),
      ¬ 1 <<< v.shift < v.cnt >>> BITS →
      (Vector_conj s v x).1.shift = v.shift) ∧
    (conjRange 1025).1.cnt = 1025 ∧
    (conjRange 1025).1.shift = 5 ∧
    Vector_getitem (conjRange 1025).2 (conjRange 1025).1 0 = some 0 ∧
    Vector_getitem (conjRange 1025).2 (conjRange 1025).1 1024 = some 1024 ∧
    (conjRange 1057).1.shift = 10 := by
  refine ⟨?_, ?_, conjRange_cnt_eq 1025,
    conjRange_shift_five 1025 (by omega), ?_, ?_, conjRange_shift_ten_at_1057⟩
  · intro s v x htail h
    refine ⟨Vector_conj_shift_of_overflow s v x htail h, ?_⟩
    unfold Vector_conj
    simp only [if_neg htail, if_pos h]
    simp [VectorNode_create, VStore.alloc]
  · intro s v x h
    exact Vector_conj_shift_of_not_overflow s v x h
  · obtain ⟨hcnt, _, _, _, _, _, helem⟩ := conjRangeInv_holds 1025 (by omega)
    rw [Vector_getitem]
    simp only [hcnt]
    norm_num
    exact helem 0 (by omega)
  · obtain ⟨hcnt, _, _, _, _, _, helem⟩ := conjRangeInv_holds 1025 (by omega)
    rw [Vector_getitem]
    simp only [hcnt]
    norm_num
    exact helem 1024 (by omega)

set_option maxRecDepth 3000 in
/-- C4 counterexample: after 17 entries with distinct first-level slots
and 9 removals the child count has reached 8, yet the root is still an
Array node, against the claim that the demotion to a Bitmap-indexed node
happens the moment the count reaches 8. -/
theorem C4_array_node_still_at_count_8 :
    rootIsArrayNode (map17drop 9) 8 = true := by
  decide

set_option maxRecDepth 3000 in
/-- C4 amended: the Array node packs into a Bitmap-indexed node when a
clear finds the child count already down to 8, so the demoted root first
appears when the count drops to 7; the pack bitmap is exactly the set of
occupied slot indices (here slots 10 to 16, bitmap 130048). -/
theorem C4_demotion_at_count_7 :
    rootIsArrayNode (map17drop 8) 9 = true ∧
    rootIsArrayNode (map17drop 9) 8 = true ∧
    rootIsBin (map17drop 10) 130048 7 = true := by
  refine ⟨?_, ?_, ?_⟩ <;> decide

/-- C5 counterexample: removing one of two colliding entries leaves a
hash-collision node with a single entry under the root; the node is not
collapsed to a plain entry and never returns null upward. -/
theorem C5_single_entry_collision_node_persists :
    rootHoldsCollisionNode mapCol1 1 = true := by
  decide

/-- C5 amended: after dissoc of one of two entries whose full hashes
collide the count is 1 and the remaining value is retrievable, but the
collision node survives with its single entry (the C code only returns
null when the last entry is removed, not when one remains). -/
theorem C5_collision_dissoc_keeps_single_entry_node :
    mapCol1.cnt = 1 ∧ Map_find colHash mapCol1 2 = some 20 ∧
    rootHoldsCollisionNode mapCol1 1 = true := by
  have hlit : mapCol1 = ⟨1, some (.bin 128 [.sub (.hcn 7 1 [(2, 20)])])⟩ := rfl
  refine ⟨by decide, ?_, by decide⟩
  rw [hlit]
  show (MapNode.bin 128 [BinEntry.sub (MapNode.hcn 7 1 [(2, 20)])]).find 0
    (colHash 2) 2 = some 20
  have hcol : colHash 2 = 7 := rfl
  rw [hcol, find_bin_eq, if_neg (by decide : ¬((128 : Nat) &&& bitpos 7 0 = 0))]
  have hg : [BinEntry.sub (MapNode.hcn 7 1 [((2 : Nat), (20 : Nat))])].get?
      (bitmap_index 128 (bitpos 7 0)) = some (.sub (.hcn 7 1 [(2, 20)])) := rfl
  simp only [hg]
  rw [find_hcn_eq]
  rfl

/-- C6 counterexample: getitem on a two-element vector at index -1
succeeds with the last element (Python index normalization), although -1
lies outside the interval from 0 to the count; and last on an empty
SortedVector answers None without raising. -/
theorem C6_negative_index_and_empty_last :
    Vector_getitem (conjRange 2).2 (conjRange 2).1 (-1) = some 1 ∧
    SortedVector_last (emptySortedVector false : SortedVector Int Int) =
      Except.ok none := by
  exact ⟨by decide, rfl⟩

/-- C6 amended: getitem first normalizes a negative index by adding the
count and raises OutOfRange exactly when the normalized index falls
outside the interval from 0 to the count; pop on the empty vector raises
with the store untouched; last on an empty SortedVector returns None
without an error. -/
theorem C6_failure_semantics {β κ2 : Type} (s : VStore α) (v : Vector α)
    (key : Int) (sv : SortedVector β κ2) :
    (((if key < 0 then (v.cnt : Int) + key else key) < 0 ∨
        (v.cnt : Int) ≤ (if key < 0 then (v.cnt : Int) + key else key)) →
      Vector_getitem s v key = none) ∧
    Vector_pop s (emptyVec : Vector α) = (.error, s) ∧
    (sv.cnt = 0 → SortedVector_last sv = .ok none) := by
  refine ⟨?_, rfl, ?_⟩
  · intro h
    simp only [Vector_getitem]
    rw [if_pos h]
  · intro h
    simp [SortedVector_last, h]

/-- C6 witness: the amended failure semantics applied to the two-element
scenario vector at index 2 and to an empty Int SortedVector. -/
theorem C6_failure_semantics_witness :
    Vector_getitem (conjRange 2).2 (conjRange 2).1 2 = none ∧
    SortedVector_last (emptySortedVector true : SortedVector Int Int) =
      .ok none := by
  have h := C6_failure_semantics (α := Nat) (conjRange 2).2 (conjRange 2).1 2
    (emptySortedVector true : SortedVector Int Int)
  exact ⟨h.1 (by rw [conjRange_cnt_eq]; decide), h.2.2 rfl⟩

/-- C7 counterexample: dissoc of the last key hands back a freshly built
empty map object, not the canonical EMPTY_MAP singleton that the factory
returns. -/
theorem C7_dissoc_returns_fresh_empty :
    Map_dissoc idHash mapOne 5 = some (MapRet.newObj ⟨0, none⟩) ∧
    MapRet.newObj (⟨0, none⟩ : Map Nat Nat) ≠
      (MapRet.canonicalEmpty : MapRet Nat Nat) :=
  ⟨rfl, fun h => MapRet.noConfusion h⟩

/-- C7 amended: the zero-argument factories hand back the canonical empty
singletons, and pop on a one-element vector does as well; but dissoc of
the last map key and disj of the last set element build fresh empty
objects with count 0 and a null root instead of returning the
singleton. -/
theorem C7_canonical_empty (s : VStore α) (v : Vector α) (h1 : v.cnt = 1) :
    (Vector_pop s v).1 = VecRet.canonicalEmpty ∧
    (pds_vec_noargs : VecRet α) = .canonicalEmpty ∧
    (pds_hash_map_noargs : MapRet Nat Nat) = .canonicalEmpty ∧
    (pds_hash_set_noargs : SetRet Nat) = .canonicalEmpty ∧
    Map_dissoc idHash mapOne 5 = some (MapRet.newObj ⟨0, none⟩) ∧
    Set_disj idHash setOne 5 = some (SetRet.newObj ⟨0, none⟩) := by
  refine ⟨?_, rfl, rfl, rfl, rfl, rfl⟩
  unfold Vector_pop
  rw [h1]
  rfl

/-- C7 witness: the amended canonical-empty facts applied to the
one-element scenario vector. -/
theorem C7_canonical_empty_witness :
    (conjRange 1).1.cnt = 1 ∧
    (Vector_pop (conjRange 1).2 (conjRange 1).1).1 = VecRet.canonicalEmpty :=
  ⟨by decide, (C7_canonical_empty (conjRange 1).2 (conjRange 1).1 (by decide)).1⟩

/-- C8 code bug witnessed in the model: the six insertions under the
first component as sort key build a tree satisfying every stated
invariant, but the following disj of the value (1, 0) leaves a tree with
unequal black depths whose stored count 5 disagrees with its 4 remaining
values, and the value (1, 2) has vanished although it was never
removed. -/
theorem C8_delete_invariant_violation :
    svInvB false svBug.root = true ∧ svBug.cnt = 6 ∧
    (SortedVector_disj Prod.fst svBug (1, 0)).isSome = true ∧
    bhOkB svBugAfter.root = false ∧ svBugAfter.cnt = 5 ∧
    (rbValues svBugAfter.root).length = 4 ∧
    ¬ ((1, 2) ∈ rbValues svBugAfter.root) := by
  refine ⟨?_, ?_, ?_, ?_, ?_, ?_, ?_⟩ <;> decide

/-- C9 counterexample: the float 2.0 converts to a 64-bit integer without
loss of information, yet conj on an i64 vector rejects it with a type
error; and conj on an f64 vector silently accepts the integer 2 to the 53
plus 1 although rounding loses its low bit. -/
theorem C9_lossless_float_rejected_lossy_int_accepted :
    losslessI64 (.float ⟨2, 0⟩) ∧
    IntVector_conj ⟨[]⟩ (.float ⟨2, 0⟩) = .error .typeError ∧
    ¬ losslessF64 (2 ^ 53 + 1) ∧
    DoubleVector_conj ⟨[]⟩ (.int (2 ^ 53 + 1)) = .ok ⟨[⟨2 ^ 53, 0⟩]⟩ := by
  have hlog : Nat.log2 (2 ^ 53 + 1) = 53 := by
    rw [Nat.log2_eq_log_two]
    exact Nat.log_eq_of_pow_le_of_lt_pow (by norm_num) (by norm_num)
  have hm : roundMag53 (2 ^ 53 + 1) = 2 ^ 53 := by
    rw [roundMag53, if_neg (by norm_num)]
    simp only [hlog]
    norm_num
  have hna : ((2 : Int) ^ 53 + 1).natAbs = 2 ^ 53 + 1 := by norm_num
  have hrf : roundF64 ((2 : Int) ^ 53 + 1) = 2 ^ 53 := by
    rw [roundF64, if_neg (by norm_num), hna, hm]
    norm_num
  refine ⟨⟨2, by norm_num [PyVal.exactVal], by norm_num, by norm_num⟩, rfl, ?_, ?_⟩
  · intro hc
    rw [losslessF64, hrf] at hc
    norm_num at hc
  · have h4 : PyFloat_AsDouble (.int (2 ^ 53 + 1)) = .ok ⟨2 ^ 53, 0⟩ := by
      rw [PyFloat_AsDouble, hna, hm, if_pos (by norm_num), hrf]
    rw [DoubleVector_conj_ok ⟨[]⟩ _ _ h4]
    rfl

/-- C9 amended: i64 conj accepts exactly the integers inside the signed
64-bit range (overflow outside it) and rejects every float with a type
error, even one holding an integral value; f64 conj accepts every float
unchanged and converts integers by rounding to 53 bits, silently losing
information and overflowing only past the IEEE range; the factories remap
every conversion failure to a type error. -/
theorem C9_unboxing_boundary (v : IntVector) (w : DoubleVector) (n : Int)
    (f : F64) (str : String) :
    (IntVector_conj v (.int n) =
      if -(2 ^ 63) ≤ n ∧ n < 2 ^ 63 then .ok ⟨v.elems ++ [n]⟩
      else .error .overflowError) ∧
    IntVector_conj v (.float f) = .error .typeError ∧
    IntVector_conj v (.text str) = .error .typeError ∧
    DoubleVector_conj w (.float f) = .ok ⟨w.elems ++ [f]⟩ ∧
    (DoubleVector_conj w (.int n) =
      if roundMag53 n.natAbs < 2 ^ 1024 then .ok ⟨w.elems ++ [⟨roundF64 n, 0⟩]⟩
      else .error .overflowError) ∧
    DoubleVector_conj w (.text str) = .error .typeError ∧
    pds_vec_i64 [.float f] = .error .typeError ∧
    pds_vec_f64 [.text str] = .error .typeError := by
  refine ⟨?_, rfl, rfl, rfl, ?_, rfl, rfl, rfl⟩
  · unfold IntVector_conj
    rw [PyLong_AsLongLong]
    by_cases hn : -(2 : Int) ^ 63 ≤ n ∧ n < 2 ^ 63
    · rw [if_pos hn, if_pos hn]
    · rw [if_neg hn, if_neg hn]
  · unfold DoubleVector_conj
    rw [PyFloat_AsDouble]
    by_cases hn : roundMag53 n.natAbs < 2 ^ 1024
    · rw [if_pos hn, if_pos hn]
    · rw [if_neg hn, if_neg hn]

/-- C10: equality is type-guarded.  Each of the three richcompare
functions answers false whenever the other operand is not an instance of
the same concrete persistent type, whatever its contents. -/
theorem C10_equality_type_guard (c : ConsCell Int) (s : VStore Int)
    (v : Vector Int) (m : Map Int Int) (hash : Int → Nat) (other : PyAny) :
    ((∀ x, other ≠ PyAny.consObj x) → Cons_richcompare c other = false) ∧
    ((∀ x, other ≠ PyAny.vecObj x) → Vector_richcompare s v other = false) ∧
    ((∀ x, other ≠ PyAny.mapObj x) → Map_richcompare hash m other = false) := by
  refine ⟨?_, ?_, ?_⟩ <;> intro h <;> cases other <;>
    first
      | rfl
      | exact absurd rfl (h _)

/-- C10 witness: a host list holding the same single element as a
one-element vector still compares unequal, while the element itself is
readable from the vector. -/
theorem C10_equality_type_guard_witness :
    Vector_richcompare (Vector_conj (emptyVStore : VStore Int) emptyVec 0).2
      (Vector_conj (emptyVStore : VStore Int) emptyVec 0).1
      (PyAny.listObj [0]) = false ∧
    Vector_elemAt (Vector_conj (emptyVStore : VStore Int) emptyVec 0).2
      (Vector_conj (emptyVStore : VStore Int) emptyVec 0).1 0 = some 0 := by
  constructor
  · exact (C10_equality_type_guard (.cell 0 .pynone) _ _ ⟨0, none⟩ (fun _ => 0)
      (PyAny.listObj [0])).2.1 (fun x h => PyAny.noConfusion h)
  · decide


end Spork
